import Mathlib

/-!
The dynamic meta-object table builder of libpyside (`dynamicqmetaobject.cpp`).

A shallow embedding of `src/libpyside/dynamicqmetaobject.cpp`.

* `QByteArray` is a list of characters (bytes); a `const char*` argument is
  such a list without a NUL character.
* The word table `d.data` is a list of natural numbers, written through
  `List.set` at an explicit write cursor (`data[index++] = v`).
* The registry (`DynamicQMetaObjectPrivate`) is a record that is passed
  explicitly and returned by every mutating member function.
* Library routines of Qt that the file calls (`QMetaObject::normalizedSignature`,
  `QtPrivate::isBuiltinType`, `QMetaType::type`) are fields of `QtMeta`;
  `qStableSort` is transcribed from QtAlgorithms (a top-down merge sort whose
  merge step cuts by binary search and rotates), as a function on lists.
* Counters, cursors and string indices are natural numbers: a `QList` holds
  fewer than `2^31` entries, so none of them wraps; the one shift that can
  overflow (in `PropertyData::flags`) is reduced modulo `2^32`.
* The answer of Qt to `method(index).methodSignature()` in `removeMethod` is an
  argument of `removeMethod`.
* Loops whose round count is not structural carry a bound on the number of
  rounds (`parameterLoop`, `qLowerBoundLoop`, `qUpperBoundLoop`, `qMerge`,
  `qStableSortHelper`); the section "The recursion bounds are enough" shows
  that the bound in use is never exhausted.
-/

namespace PySide

/-! ## Byte strings -/

/-- A `QByteArray`: a sequence of bytes, NUL bytes allowed. -/
abbrev QByteArray := List Char

/-- The NUL byte that ends a C string. -/
def NUL : Char := Char.ofNat 0

/-- The C string seen through `constData()`: the bytes before the first NUL. -/
def cstr (s : QByteArray) : QByteArray :=
  s.takeWhile (fun c => c != NUL)

/-- The macro `EMPTY_META_METHOD`, the literal `"0()"`. -/
def EMPTY_META_METHOD : QByteArray := ['0', '(', ')']

/-! ## Qt library routines used by the file -/

/-- The Qt routines the file calls and that live outside the repository. -/
structure QtMeta where
  /-- The routine `QMetaObject::normalizedSignature`. -/
  normalizedSignature : QByteArray → QByteArray
  /-- The routine `QtPrivate::isBuiltinType`. -/
  isBuiltinType : QByteArray → Bool
  /-- The routine `QMetaType::type` (the numeric code of a type name). -/
  metaType : QByteArray → Nat

/-- The enum `QMetaMethod::MethodType`. -/
inductive MethodType where
  | Method
  | Signal
  | Slot
  | Constructor
deriving DecidableEq, Repr

/-! ## MethodData -/

/-- The class `MethodData`: kind, normalized signature, normalized return type. -/
structure MethodData where
  m_mtype : MethodType
  m_signature : QByteArray
  m_rtype : QByteArray
deriving DecidableEq, Repr

namespace MethodData

/-- The static member `MethodData::m_emptySig`, built from `EMPTY_META_METHOD`. -/
def m_emptySig : QByteArray := EMPTY_META_METHOD

/-- The constructor `MethodData(mtype, signature, rtype)`: both strings are
normalized before they are stored. -/
def create (qt : QtMeta) (mtype : MethodType) (signature rtype : QByteArray) : MethodData :=
  { m_mtype := mtype
    m_signature := qt.normalizedSignature (cstr signature)
    m_rtype := qt.normalizedSignature (cstr rtype) }

/-- The member `MethodData::clear`: the signature becomes the sentinel and the
return type is emptied; the kind is kept. -/
def clear (m : MethodData) : MethodData :=
  { m with m_signature := m_emptySig, m_rtype := [] }

/-- The member `MethodData::isValid`. -/
def isValid (m : MethodData) : Bool :=
  m.m_signature != m_emptySig

/-- The accessor `signature()`. -/
def signature (m : MethodData) : QByteArray := m.m_signature

/-- The accessor `returnType()`. -/
def returnType (m : MethodData) : QByteArray := m.m_rtype

/-- The accessor `methodType()`. -/
def methodType (m : MethodData) : MethodType := m.m_mtype

/-- The inner `while` of `parameterTypes`: scans one parameter, tracking the
`<`/`>` nesting level, and stops at NUL (end of list), at `)` or at a `,` seen
at level `<= 0`.  Returns the scanned bytes and the unread rest. -/
def scanParameter : Int → List Char → List Char × List Char
  | _, [] => ([], [])
  | level, c :: rest =>
    if (level > 0 || c != ',') && c != ')' then
      let level1 := if c = '<' then level + 1 else if c = '>' then level - 1 else level
      let r := scanParameter level1 rest
      (c :: r.1, r.2)
    else
      ([], c :: rest)

/-- The outer `while` of `parameterTypes`.  `signature` is the unread rest of
the C string; the loop runs while the current byte is neither NUL nor `)` and
the byte after it is not `)`.  Every round reads at least one byte, so
`signature.length` rounds are enough. -/
def parameterLoop : Nat → List Char → List QByteArray
  | 0, _ => []
  | fuel + 1, signature =>
    match signature with
    | [] => []
    | c :: next =>
      if c = ')' then []
      else
        match next with
        | ')' :: _ => []
        | _ =>
          let r := scanParameter 0 next
          r.1 :: parameterLoop fuel r.2

/-- The member `MethodData::parameterTypes`. -/
def parameterTypes (m : MethodData) : List QByteArray :=
  let signature := (cstr m.m_signature).dropWhile (fun c => c != '(')
  parameterLoop signature.length signature

/-- The member `MethodData::parameterCount`. -/
def parameterCount (m : MethodData) : Nat :=
  (parameterTypes m).length

/-- The member `MethodData::name`: the bytes before the first `(`, or nothing
when there is no `(`  (`left(qMax(indexOf('('), 0))`). -/
def name (m : MethodData) : QByteArray :=
  if '(' ∈ m.m_signature then m.m_signature.takeWhile (fun c => c != '(') else []

end MethodData

/-- Modelled from the spec: `MethodData::operator==` is declared in the private
header and defined outside this file; the spec gives the identity of a method
entry as (kind, normalized signature). -/
def MethodData.same (a b : MethodData) : Bool :=
  a.m_signature == b.m_signature && a.m_mtype == b.m_mtype

/-- The comparator `sortMethodSignalSlot`. -/
def sortMethodSignalSlot (m1 m2 : MethodData) : Bool :=
  if m1.methodType = MethodType.Signal then m2.methodType == MethodType.Slot
  else false

/-! ## `qStableSort` (QtAlgorithms) -/

section QtAlgorithms
variable {α : Type}

/-- The loop of `qLowerBound` over the range `xs`: `start` is the offset of
`begin`, `n` the remaining length; `n` shrinks every round. -/
def qLowerBoundLoop (lessThan : α → α → Bool) (xs : List α) (value : α) :
    Nat → Nat → Nat → Nat
  | 0, start, _ => start
  | fuel + 1, start, n =>
    if n > 0 then
      let half := n / 2
      let middle := start + half
      match xs[middle]? with
      | some m =>
        if lessThan m value then
          qLowerBoundLoop lessThan xs value fuel (middle + 1) (n - (half + 1))
        else
          qLowerBoundLoop lessThan xs value fuel start half
      | none => start
    else start

/-- The routine `qLowerBound(begin, end, value, lessThan)` as an offset. -/
def qLowerBound (lessThan : α → α → Bool) (xs : List α) (value : α) : Nat :=
  qLowerBoundLoop lessThan xs value xs.length 0 xs.length

/-- The loop of `qUpperBound`. -/
def qUpperBoundLoop (lessThan : α → α → Bool) (xs : List α) (value : α) :
    Nat → Nat → Nat → Nat
  | 0, start, _ => start
  | fuel + 1, start, n =>
    if n > 0 then
      let half := n / 2
      let middle := start + half
      match xs[middle]? with
      | some m =>
        if lessThan value m then
          qUpperBoundLoop lessThan xs value fuel start half
        else
          qUpperBoundLoop lessThan xs value fuel (middle + 1) (n - (half + 1))
      | none => start
    else start

/-- The routine `qUpperBound(begin, end, value, lessThan)` as an offset. -/
def qUpperBound (lessThan : α → α → Bool) (xs : List α) (value : α) : Nat :=
  qUpperBoundLoop lessThan xs value xs.length 0 xs.length

/-- The routine `qMerge(begin, pivot, end)`: `a` is the range `[begin, pivot)`,
`b` the range `[pivot, end)`.  After `qRotate(firstCut, pivot, secondCut)` the
range reads `a₁ b₁ a₂ b₂`; the two recursive calls merge `a₁` with `b₁` and
`a₂` with `b₂`.  Both calls work on a shorter range, so `a.length + b.length`
levels of recursion are enough. -/
def qMerge (lessThan : α → α → Bool) : Nat → List α → List α → List α
  | 0, a, b => a ++ b
  | fuel + 1, a, b =>
    let len1 := a.length
    let len2 := b.length
    if len1 = 0 ∨ len2 = 0 then a ++ b
    else if len1 + len2 = 2 then
      match a, b with
      | [x], [y] => if lessThan y x then [y, x] else [x, y]
      | _, _ => a ++ b
    else if len1 > len2 then
      let len1Half := len1 / 2
      match a[len1Half]? with
      | some firstCut =>
        let len2Half := qLowerBound lessThan b firstCut
        qMerge lessThan fuel (a.take len1Half) (b.take len2Half)
          ++ qMerge lessThan fuel (a.drop len1Half) (b.drop len2Half)
      | none => a ++ b
    else
      let len2Half := len2 / 2
      match b[len2Half]? with
      | some secondCut =>
        let cut1 := qUpperBound lessThan a secondCut
        qMerge lessThan fuel (a.take cut1) (b.take len2Half)
          ++ qMerge lessThan fuel (a.drop cut1) (b.drop len2Half)
      | none => a ++ b

/-- The routine `qStableSortHelper(begin, end)`: ranges shorter than two are
left alone, otherwise both halves are sorted and merged. -/
def qStableSortHelper (lessThan : α → α → Bool) : Nat → List α → List α
  | 0, xs => xs
  | fuel + 1, xs =>
    let span := xs.length
    if span < 2 then xs
    else
      let middle := span / 2
      let l := qStableSortHelper lessThan fuel (xs.take middle)
      let r := qStableSortHelper lessThan fuel (xs.drop middle)
      qMerge lessThan (l.length + r.length) l r

/-- The routine `qStableSort(begin, end, lessThan)`. -/
def qStableSort (lessThan : α → α → Bool) (xs : List α) : List α :=
  qStableSortHelper lessThan xs.length xs

end QtAlgorithms

/-! ## String pool -/

/-- The scan of `registerString`: the position of the first pool entry whose
C string equals that of `s` (`strcmp(*it, s) == 0`), counted from `idx`. -/
def findString (s : QByteArray) : List QByteArray → Nat → Option Nat
  | [], _ => none
  | it :: rest, idx => if cstr it = cstr s then some idx else findString s rest (idx + 1)

/-- The function `registerString`: the index of `s` in the pool, appending `s`
when the scan finds nothing.  Returns the index and the pool. -/
def registerString (s : QByteArray) (strings : List QByteArray) : Nat × List QByteArray :=
  match findString s strings 0 with
  | some idx => (idx, strings)
  | none => (strings.length, strings ++ [s])

/-! ## PropertyData -/

/-- The handle `PySideProperty*` together with what the `PySide::Property`
queries answer for it.  `addr` is the pointer value (the identity). -/
structure PySideProperty where
  addr : Nat
  typeName : QByteArray
  readable : Bool
  writable : Bool
  hasReset : Bool
  designable : Bool
  scriptable : Bool
  stored : Bool
  user : Bool
  constant : Bool
  final : Bool
  /-- The test `property->d->notify`. -/
  notify : Bool
  /-- The answer of `getNotifyName`, `none` for a null pointer. -/
  notifyName : Option QByteArray
deriving DecidableEq, Repr

/-- The class `PropertyData`; `m_data` is `none` for a null handle. -/
structure PropertyData where
  m_name : QByteArray
  m_notifyId : Int
  m_data : Option PySideProperty
deriving DecidableEq, Repr

/-- The constants of `QMetaType` that `qvariant_nameToType` names. -/
structure MetaTypeIds where
  QByteArray : Nat
  LongLong : Nat
  ULongLong : Nat
  QIcon : Nat
  User : Nat

/-- The function `qvariant_nameToType` (as the unsigned 32-bit value of the
returned `int`). -/
def qvariant_nameToType (qt : QtMeta) (ids : MetaTypeIds) (name : QByteArray) : Nat :=
  if name = "QVariant".toList then 0xffffffff
  else if name = "QCString".toList then ids.QByteArray
  else if name = "Q_LLONG".toList then ids.LongLong
  else if name = "Q_ULLONG".toList then ids.ULongLong
  else if name = "QIconSet".toList then ids.QIcon
  else
    let tp := qt.metaType name
    if tp < ids.User then tp else 0

/-- The function `isVariantType`. -/
def isVariantType (qt : QtMeta) (ids : MetaTypeIds) (type : QByteArray) : Bool :=
  qvariant_nameToType qt ids type != 0

/-- The function `isQRealType`. -/
def isQRealType (type : QByteArray) : Bool :=
  type = "qreal".toList

namespace PropertyData

/-- The default constructor `PropertyData()`. -/
def blank : PropertyData := { m_name := [], m_notifyId := 0, m_data := none }

/-- The member `PropertyData::type`; a null handle has no type name. -/
def type (p : PropertyData) : QByteArray :=
  match p.m_data with
  | some d => cstr d.typeName
  | none => []

/-- The member `PropertyData::isValid`. -/
def isValid (p : PropertyData) : Bool := !p.m_name.isEmpty

/-- The member `PropertyData::notifyId`. -/
def notifyId (p : PropertyData) : Int := p.m_notifyId

/-- The member `operator==(const PropertyData&)`: the handles are compared. -/
def same (p other : PropertyData) : Bool :=
  p.m_data.map (fun d => d.addr) == other.m_data.map (fun d => d.addr)

/-- One capability bit: `bit` when the query answers yes, else `other`. -/
def capability (p : PropertyData) (query : PySideProperty → Bool) (bit other : Nat) : Nat :=
  match p.m_data with
  | some d => if query d then bit else other
  | none => other

/-- The member `PropertyData::flags`, an unsigned 32-bit word. -/
def flags (qt : QtMeta) (ids : MetaTypeIds) (p : PropertyData) : Nat :=
  let typeName := p.type
  let f0 : Nat :=
    if !isVariantType qt ids typeName then 0x00000008
    else if !isQRealType typeName then (qvariant_nameToType qt ids typeName <<< 24) % 2 ^ 32
    else 0
  f0
    ||| p.capability (fun d => d.readable) 0x00000001 0
    ||| p.capability (fun d => d.writable) 0x00000002 0
    ||| p.capability (fun d => d.hasReset) 0x00000004 0
    ||| p.capability (fun d => d.designable) 0x00001000 0x00002000
    ||| p.capability (fun d => d.scriptable) 0x00004000 0x00008000
    ||| p.capability (fun d => d.stored) 0x00010000 0x00020000
    ||| 0x00080000
    ||| p.capability (fun d => d.user) 0x00100000 0x00200000
    ||| (if p.m_notifyId != -1 then 0x00400000 else 0)
    ||| p.capability (fun d => d.constant) 0x00000400 0
    ||| p.capability (fun d => d.final) 0x00000800 0

end PropertyData

/-! ## The registry -/

/-- The order `operator<` of `QByteArray` (`qstrcmp`): bytewise, a proper
initial segment first. -/
def baLess : QByteArray → QByteArray → Bool
  | [], [] => false
  | [], _ :: _ => true
  | _ :: _, [] => false
  | a :: as, b :: bs =>
    if a.toNat < b.toNat then true
    else if b.toNat < a.toNat then false
    else baLess as bs

/-- The assignment `map[key] = value` of a `QMap<QByteArray, QByteArray>`, kept
as a key-ordered list of pairs. -/
def mapInsert (key value : QByteArray) :
    List (QByteArray × QByteArray) → List (QByteArray × QByteArray)
  | [] => [(key, value)]
  | (k, v) :: rest =>
    if baLess key k then (key, value) :: (k, v) :: rest
    else if baLess k key then (k, v) :: mapInsert key value rest
    else (key, value) :: rest

/-- The class `DynamicQMetaObjectPrivate`. -/
structure DynamicQMetaObjectPrivate where
  m_methods : List MethodData
  m_properties : List PropertyData
  m_info : List (QByteArray × QByteArray)
  m_className : QByteArray
  m_updated : Bool
  m_methodOffset : Int
  m_propertyOffset : Int
  m_dataSize : Nat
  m_emptyMethod : Int
  m_nullIndex : Nat
deriving DecidableEq, Repr

/-- The class `DynamicQMetaObject`: the published word table `d.data` (empty
for a null pointer), the string pool that `writeStringData` serializes into
`d.stringdata`, and the private part. -/
structure DynamicQMetaObject where
  d_data : List Nat
  d_strings : List QByteArray
  m_d : DynamicQMetaObjectPrivate
deriving DecidableEq, Repr

namespace DynamicQMetaObject

/-- The constructor `DynamicQMetaObject(className, metaObject)`; the base
descriptor enters through `metaObject->methodCount()` and
`metaObject->propertyCount()`. -/
def create (className : QByteArray) (baseMethodCount basePropertyCount : Int) :
    DynamicQMetaObject :=
  { d_data := []
    d_strings := []
    m_d :=
      { m_methods := []
        m_properties := []
        m_info := []
        m_className := cstr className
        m_updated := false
        m_methodOffset := baseMethodCount - 1
        m_propertyOffset := basePropertyCount - 1
        m_dataSize := 0
        m_emptyMethod := -1
        m_nullIndex := 0 } }

/-- The scan of `addMethod`.  `counter` is the position of the head of the
unread list, `index` the last blank position seen so far (`-1` for none).
The result is `Sum.inl counter` when an entry with the same signature and kind
is found, else `Sum.inr index` at the end of the list. -/
def addMethodScan (mtype : MethodType) (signature : QByteArray) :
    List MethodData → Int → Int → Int ⊕ Int
  | [], _, index => Sum.inr index
  | it :: rest, counter, index =>
    if it.signature = signature ∧ it.methodType = mtype then Sum.inl counter
    else if !it.isValid then addMethodScan mtype signature rest (counter + 1) counter
    else addMethodScan mtype signature rest (counter + 1) index

/-- The member `addMethod`: the returned index and the object afterwards. -/
def addMethod (qt : QtMeta) (o : DynamicQMetaObject) (mtype : MethodType)
    (signature type : QByteArray) : Int × DynamicQMetaObject :=
  match addMethodScan mtype (cstr signature) o.m_d.m_methods 0 (-1) with
  | Sum.inl counter => (o.m_d.m_methodOffset + counter, o)
  | Sum.inr index =>
    if index ≠ -1 then
      let methods := o.m_d.m_methods.set index.toNat (MethodData.create qt mtype signature type)
      (o.m_d.m_methodOffset + (index + 1),
        { o with m_d := { o.m_d with m_methods := methods, m_updated := false } })
    else
      let methods := o.m_d.m_methods ++ [MethodData.create qt mtype signature type]
      (o.m_d.m_methodOffset + (methods.length : Int),
        { o with m_d := { o.m_d with m_methods := methods, m_updated := false } })

/-- The loop of `removeMethod`: clears the first entry with the signature and
kind; the flag tells whether one was found. -/
def removeMethodLoop (mtype : MethodType) (methodSig : QByteArray) :
    List MethodData → Bool × List MethodData
  | [] => (false, [])
  | it :: rest =>
    if it.signature = methodSig ∧ it.methodType = mtype then (true, it.clear :: rest)
    else
      let r := removeMethodLoop mtype methodSig rest
      (r.1, it :: r.2)

/-- The member `removeMethod`.  `methodSig` is what Qt answers for
`method(index).methodSignature()`. -/
def removeMethod (o : DynamicQMetaObject) (mtype : MethodType) (methodSig : QByteArray) :
    DynamicQMetaObject :=
  let r := removeMethodLoop mtype (cstr methodSig) o.m_d.m_methods
  { o with m_d := { o.m_d with
      m_methods := r.2
      m_updated := if r.1 then false else o.m_d.m_updated } }

/-- The member `addSignal`. -/
def addSignal (qt : QtMeta) (o : DynamicQMetaObject) (signal type : QByteArray) :
    Int × DynamicQMetaObject :=
  addMethod qt o MethodType.Signal signal type

/-- The member `addSlot`. -/
def addSlot (qt : QtMeta) (o : DynamicQMetaObject) (slot type : QByteArray) :
    Int × DynamicQMetaObject :=
  addMethod qt o MethodType.Slot slot type

/-- The member `removeSlot`. -/
def removeSlot (o : DynamicQMetaObject) (methodSig : QByteArray) : DynamicQMetaObject :=
  removeMethod o MethodType.Slot methodSig

/-- The member `removeSignal`. -/
def removeSignal (o : DynamicQMetaObject) (methodSig : QByteArray) : DynamicQMetaObject :=
  removeMethod o MethodType.Signal methodSig

/-- The call `QList::indexOf` with an equality test, `-1` when nothing matches. -/
def indexOf {α : Type} (eq : α → Bool) : List α → Int → Int
  | [], _ => -1
  | x :: rest, i => if eq x then i else indexOf eq rest (i + 1)

/-- The member `addProperty`.  `indexOf(propertyName)` converts the name to a
`PropertyData` with a null handle and compares with `operator==(const
PropertyData&)`. -/
def addProperty (qt : QtMeta) (o : DynamicQMetaObject) (propertyName : QByteArray)
    (property : PySideProperty) : Int × DynamicQMetaObject :=
  let named : PropertyData := { m_name := cstr propertyName, m_notifyId := 0, m_data := none }
  let index := indexOf (fun p => p.same named) o.m_d.m_properties 0
  if index ≠ -1 then (o.m_d.m_propertyOffset + index, o)
  else
    let notifyId : Int :=
      if property.notify then
        match property.notifyName with
        | some signalNotify =>
          let signalObject := MethodData.create qt MethodType.Signal signalNotify []
          indexOf (fun m => m.same signalObject) o.m_d.m_methods 0
        | none => -1
      else -1
    let entry : PropertyData :=
      { m_name := cstr propertyName, m_notifyId := notifyId, m_data := some property }
    let index := indexOf (fun p => p.same PropertyData.blank) o.m_d.m_properties 0
    if index ≠ -1 then
      (o.m_d.m_propertyOffset + index,
        { o with m_d := { o.m_d with
            m_properties := o.m_d.m_properties.set index.toNat entry, m_updated := false } })
    else
      let properties := o.m_d.m_properties ++ [entry]
      (o.m_d.m_propertyOffset + (properties.length : Int),
        { o with m_d := { o.m_d with m_properties := properties, m_updated := false } })

/-- The member `addInfo(const char* key, const char* value)`. -/
def addInfo (o : DynamicQMetaObject) (key value : QByteArray) : DynamicQMetaObject :=
  { o with m_d := { o.m_d with m_info := mapInsert (cstr key) (cstr value) o.m_d.m_info } }

/-- The member `addInfo(QMap<QByteArray, QByteArray> info)`. -/
def addInfoMap (o : DynamicQMetaObject) (info : List (QByteArray × QByteArray)) :
    DynamicQMetaObject :=
  { o with m_d := { o.m_d with
      m_info := info.foldl (fun m kv => mapInsert kv.1 kv.2 m) o.m_d.m_info
      m_updated := false } }

/-! ## The table builder -/

/-- The state of one rebuild: the word table `data`, the write cursor `index`
and the string pool `strings`. -/
structure Writer where
  data : List Nat
  index : Nat
  strings : List QByteArray
deriving DecidableEq, Repr

/-- The statement `data[index++] = v`. -/
def Writer.put (w : Writer) (v : Nat) : Writer :=
  { w with data := w.data.set w.index v, index := w.index + 1 }

/-- The statement `data[index++] = registerString(s, strings)`. -/
def Writer.putString (w : Writer) (s : QByteArray) : Writer :=
  let r := registerString s w.strings
  { data := w.data.set w.index r.1, index := w.index + 1, strings := r.2 }

/-- The length of the header, `HEADER_LENGHT`. -/
def HEADER_LENGHT : Nat := 14

/-- The array `header` of `createMetaData`. -/
def header (n_info n_methods n_properties : Nat) : List Nat :=
  [7, 0, n_info, 0, n_methods, 0, n_properties, 0, 0, 0, 0, 0, 0, 0]

/-- The function `aggregateParameterCount`. -/
def aggregateParameterCount (methods : List MethodData) : Nat :=
  methods.foldl (fun sum m => sum + (m.parameterCount * 2 + 1)) 0

/-- The size `m_dataSize` that `createMetaData` computes. -/
def dataSize (p : DynamicQMetaObjectPrivate) : Nat :=
  HEADER_LENGHT + p.m_info.length * 2 + p.m_methods.length * 5
    + p.m_properties.length * 4 + 1 + aggregateParameterCount p.m_methods

/-- The call `realloc(old, size)` followed by `memcpy(data, header)`: the old
words are kept up to the new size, the header overwrites the first words. -/
def reallocWithHeader (old : List Nat) (size : Nat) (hdr : List Nat) : List Nat :=
  hdr ++ ((old ++ List.replicate size 0).take size).drop hdr.length

/-- The member `createMetaData`: the new `m_dataSize` and the table. -/
def createMetaData (o : DynamicQMetaObject) : Nat × List Nat :=
  let p := o.m_d
  let size := dataSize p
  (size, reallocWithHeader o.d_data size
    (header p.m_info.length p.m_methods.length p.m_properties.length))

/-- One round of the class-info loop. -/
def writeInfoStep (w : Writer) (kv : QByteArray × QByteArray) : Writer :=
  let value := registerString kv.2 w.strings
  let key := registerString kv.1 value.2
  ({ w with strings := key.2 }.put key.1).put value.1

/-- One round of the first property loop: name, type, flags. -/
def writePropertyStep (qt : QtMeta) (ids : MetaTypeIds) (nullIndex : Nat)
    (w : Writer) (i : PropertyData) : Writer :=
  let w1 := if i.isValid then w.putString i.m_name else w.put nullIndex
  let w2 := if i.isValid then w1.putString i.type else w1.put nullIndex
  w2.put (i.flags qt ids)

/-- One round of the second property loop: the notify index. -/
def writeNotifyStep (w : Writer) (i : PropertyData) : Writer :=
  w.put (if i.notifyId ≥ 0 then i.notifyId.toNat else 0)

/-- The flag `AccessPublic`. -/
def AccessPublic : Nat := 0x02
/-- The flag `MethodSignal`. -/
def MethodSignal : Nat := 0x04
/-- The flag `MethodSlot`. -/
def MethodSlot : Nat := 0x08
/-- The flag `IsUnresolvedType`. -/
def IsUnresolvedType : Nat := 0x80000000

/-- The state of the loop of `writeMethodsData`: the writer and `paramsIndex`. -/
structure MethodsLoop where
  w : Writer
  paramsIndex : Nat
deriving DecidableEq, Repr

/-- One round of the loop of `writeMethodsData`. -/
def writeMethodStep (emptyMethod nullIndex flags : Nat) (st : MethodsLoop)
    (it : MethodData) : MethodsLoop :=
  let argc := it.parameterCount
  let w0 := st.w
  let named := it.signature != EMPTY_META_METHOD
  let w1 := if named then w0.putString it.name else w0.put emptyMethod
  let w2 := w1.put argc
  let w3 := w2.put st.paramsIndex
  let w4 := w3.put nullIndex
  let w5 := w4.put (flags |||
    (if it.methodType = MethodType.Signal then MethodSignal else MethodSlot))
  let w6 :=
    if it.methodType = MethodType.Signal then
      { w5 with data := w5.data.set 13 (w5.data.getD 13 0 + 1) }
    else w5
  { w := w6, paramsIndex := st.paramsIndex + (1 + argc * 2) }

/-- The member `writeMethodsData`: returns the writer and the new value of
`m_emptyMethod`. -/
def writeMethodsData (emptyMethod : Int) (methods : List MethodData) (w : Writer)
    (nullIndex flags : Nat) : Writer × Int :=
  let paramsIndex := w.index + methods.length * 5
  let reg := registerString EMPTY_META_METHOD w.strings
  let emptyMethod1 : Int := if emptyMethod = -1 then (reg.1 : Int) else emptyMethod
  let w0 : Writer := if emptyMethod = -1 then { w with strings := reg.2 } else w
  let st := methods.foldl (writeMethodStep emptyMethod1.toNat nullIndex flags)
    { w := w0, paramsIndex := paramsIndex }
  (st.w, emptyMethod1)

/-- The type-info word of one type name in the parameter loop. -/
def writeTypeInfo (qt : QtMeta) (w : Writer) (typeName : QByteArray) : Writer :=
  if qt.isBuiltinType typeName then w.put (qt.metaType typeName)
  else
    let r := registerString typeName w.strings
    { w with strings := r.2 }.put (IsUnresolvedType ||| r.1)

/-- One round of the parameter loop: the type-info words of the return type
and of every parameter, then one null-string word per parameter. -/
def writeParametersStep (qt : QtMeta) (nullIndex : Nat) (w : Writer) (it : MethodData) :
    Writer :=
  let paramTypeNames := it.parameterTypes
  let w1 := (it.returnType :: paramTypeNames).foldl (writeTypeInfo qt) w
  paramTypeNames.foldl (fun v _ => v.put nullIndex) w1

/-- The outcome of `updateMetaObject`: the object afterwards and the value of
the local write cursor `index` after the end word. -/
structure Rebuild where
  object : DynamicQMetaObject
  index : Nat
deriving DecidableEq, Repr

/-- The member `updateMetaObject`. -/
def updateMetaObject (qt : QtMeta) (ids : MetaTypeIds) (o : DynamicQMetaObject) : Rebuild :=
  let p := o.m_d
  let created := createMetaData o
  let w0 : Writer := { data := created.2, index := HEADER_LENGHT, strings := [] }
  let w1 : Writer := { w0 with strings := (registerString p.m_className w0.strings).2 }
  let null := registerString [] w1.strings
  let nullIndex := null.1
  let w2 : Writer := { w1 with strings := null.2 }
  -- class info
  let w3 :=
    if p.m_info.length ≠ 0 then
      let w := if w2.data.getD 3 0 = 0 then { w2 with data := w2.data.set 3 w2.index } else w2
      p.m_info.foldl writeInfoStep w
    else w2
  -- properties
  let w4 :=
    if p.m_properties.length ≠ 0 then
      let w := if w3.data.getD 7 0 = 0 then { w3 with data := w3.data.set 7 w3.index } else w3
      let v := p.m_properties.foldl (writePropertyStep qt ids nullIndex) w
      p.m_properties.foldl writeNotifyStep v
    else w3
  -- signals and slots
  let methods := qStableSort sortMethodSignalSlot p.m_methods
  let written : Writer × Int :=
    if methods.length ≠ 0 then
      let w := if w4.data.getD 5 0 = 0 then { w4 with data := w4.data.set 5 w4.index } else w4
      writeMethodsData p.m_emptyMethod methods w nullIndex AccessPublic
    else (w4, p.m_emptyMethod)
  let w5 := written.1
  -- parameters
  let w6 := if methods.length ≠ 0 then methods.foldl (writeParametersStep qt nullIndex) w5 else w5
  let w7 := w6.put 0
  { object :=
      { d_data := w7.data
        d_strings := w7.strings
        m_d := { p with
          m_methods := methods
          m_dataSize := created.1
          m_emptyMethod := written.2
          m_nullIndex := nullIndex } }
    index := w7.index }

/-- The member `update`: rebuilds when the table is not up to date. -/
def update (qt : QtMeta) (ids : MetaTypeIds) (o : DynamicQMetaObject) : DynamicQMetaObject :=
  if !o.m_d.m_updated then
    let r := (updateMetaObject qt ids o).object
    { r with m_d := { r.m_d with m_updated := true } }
  else o

end DynamicQMetaObject


/-! ## The rebuild, stage by stage -/

namespace DynamicQMetaObject

/-- The writer of `updateMetaObject` after the two early `registerString`
calls. -/
def stageStart (o : DynamicQMetaObject) : Writer :=
  { data := (createMetaData o).2
    index := HEADER_LENGHT
    strings := (registerString [] (registerString o.m_d.m_className []).2).2 }

/-- The null-string index of `updateMetaObject`. -/
def stageNullIndex (o : DynamicQMetaObject) : Nat :=
  (registerString [] (registerString o.m_d.m_className []).2).1

/-- The writer after the class-info section. -/
def stageInfo (o : DynamicQMetaObject) : Writer :=
  if o.m_d.m_info.length ≠ 0 then
    o.m_d.m_info.foldl writeInfoStep
      (if (stageStart o).data.getD 3 0 = 0
        then { stageStart o with data := (stageStart o).data.set 3 (stageStart o).index }
        else stageStart o)
  else stageStart o

/-- The writer after the property section. -/
def stageProperties (qt : QtMeta) (ids : MetaTypeIds) (o : DynamicQMetaObject) : Writer :=
  if o.m_d.m_properties.length ≠ 0 then
    o.m_d.m_properties.foldl writeNotifyStep
      (o.m_d.m_properties.foldl (writePropertyStep qt ids (stageNullIndex o))
        (if (stageInfo o).data.getD 7 0 = 0
          then { stageInfo o with data := (stageInfo o).data.set 7 (stageInfo o).index }
          else stageInfo o))
  else stageInfo o

/-- The method list after `qStableSort`. -/
def stageSorted (o : DynamicQMetaObject) : List MethodData :=
  qStableSort sortMethodSignalSlot o.m_d.m_methods

/-- The writer and `m_emptyMethod` after the method section. -/
def stageMethods (qt : QtMeta) (ids : MetaTypeIds) (o : DynamicQMetaObject) : Writer × Int :=
  if (stageSorted o).length ≠ 0 then
    writeMethodsData o.m_d.m_emptyMethod (stageSorted o)
      (if (stageProperties qt ids o).data.getD 5 0 = 0
        then { stageProperties qt ids o with
          data := (stageProperties qt ids o).data.set 5 (stageProperties qt ids o).index }
        else stageProperties qt ids o)
      (stageNullIndex o) AccessPublic
  else (stageProperties qt ids o, o.m_d.m_emptyMethod)

/-- The writer after the parameter section. -/
def stageParameters (qt : QtMeta) (ids : MetaTypeIds) (o : DynamicQMetaObject) : Writer :=
  if (stageSorted o).length ≠ 0 then
    (stageSorted o).foldl (writeParametersStep qt (stageNullIndex o)) (stageMethods qt ids o).1
  else (stageMethods qt ids o).1

end DynamicQMetaObject

/-! ## Operation sequences and sample inputs -/

/-- The public operations of the class, as data. -/
inductive Op where
  | addMethod (mtype : MethodType) (signature type : QByteArray)
  | removeMethod (mtype : MethodType) (methodSig : QByteArray)
  | addProperty (propertyName : QByteArray) (property : PySideProperty)
  | addInfo (key value : QByteArray)
  | addInfoMap (info : List (QByteArray × QByteArray))
  | update
deriving DecidableEq, Repr

/-- The object after one operation. -/
def applyOp (qt : QtMeta) (ids : MetaTypeIds) (o : DynamicQMetaObject) : Op → DynamicQMetaObject
  | Op.addMethod mtype signature type => (o.addMethod qt mtype signature type).2
  | Op.removeMethod mtype methodSig => o.removeMethod mtype methodSig
  | Op.addProperty propertyName property => (o.addProperty qt propertyName property).2
  | Op.addInfo key value => o.addInfo key value
  | Op.addInfoMap info => o.addInfoMap info
  | Op.update => DynamicQMetaObject.update qt ids o

/-- The object after a sequence of operations. -/
def run (qt : QtMeta) (ids : MetaTypeIds) (o : DynamicQMetaObject) (ops : List Op) :
    DynamicQMetaObject :=
  ops.foldl (applyOp qt ids) o

/-- Whether the method record `i` of a table is a signal record: the method
type bits `0x0c` of its flags word equal `MethodSignal`. -/
def methodRecordIsSignal (data : List Nat) (i : Nat) : Bool :=
  (data.getD (data.getD 5 0 + 5 * i + 4) 0) &&& 0x0c == DynamicQMetaObject.MethodSignal

/-- Whether no Slot entry stands in front of a Signal entry: no later entry
is put before an earlier one by `sortMethodSignalSlot`. -/
def noSlotBeforeSignal : List MethodData → Bool
  | [] => true
  | a :: rest => rest.all (fun b => !sortMethodSignalSlot b a) && noSlotBeforeSignal rest

/-- Whether every `update` of the sequence that rebuilds (the table is not up
to date) finds the method list with no Slot entry in front of a Signal
entry. -/
def rebuildsInOrder (qt : QtMeta) (ids : MetaTypeIds) :
    DynamicQMetaObject → List Op → Bool
  | _, [] => true
  | o, op :: rest =>
    (if op = Op.update then o.m_d.m_updated || noSlotBeforeSignal o.m_d.m_methods else true)
      && rebuildsInOrder qt ids (applyOp qt ids o op) rest

/-- Whether the operation is a `removeMethod` that names the kind and the
signature of the entry. -/
def removes (op : Op) (e : MethodData) : Bool :=
  match op with
  | Op.removeMethod mtype methodSig => e.signature == cstr methodSig && e.methodType == mtype
  | _ => false

/-- Whether the method record `p` of a table describes the entry `e`: its name
word indexes a pool string with the C string of `e.name()`, its argc word is
the parameter count of `e`, and its flags word is `AccessPublic` with the kind
bit of `e`. -/
def methodRecordMatches (data : List Nat) (strings : List QByteArray) (p : Nat)
    (e : MethodData) : Bool :=
  (strings[data.getD (data.getD 5 0 + 5 * p) 0]?).map cstr == some (cstr e.name)
    && data.getD (data.getD 5 0 + 5 * p + 1) 0 == e.parameterCount
    && data.getD (data.getD 5 0 + 5 * p + 4) 0
      == (DynamicQMetaObject.AccessPublic |||
          (if e.methodType = MethodType.Signal then DynamicQMetaObject.MethodSignal
            else DynamicQMetaObject.MethodSlot))

/-- A sample of the Qt routines for concrete inputs: normalization drops the
blanks, and `void`, `int` and `QString` are the builtin types, with their
`QMetaType` codes. -/
def qtSample : QtMeta :=
  { normalizedSignature := fun s => s.filter (fun c => c != ' ')
    isBuiltinType := fun t => t ∈ ["void".toList, "int".toList, "QString".toList]
    metaType := fun t =>
      if t = "void".toList then 43
      else if t = "int".toList then 2
      else if t = "QString".toList then 10
      else 0 }

/-- The `QMetaType` constants of Qt 5. -/
def idsSample : MetaTypeIds :=
  { QByteArray := 12, LongLong := 4, ULongLong := 5, QIcon := 69, User := 1024 }

/-- A fresh object over a base with five methods and three properties. -/
def objSample : DynamicQMetaObject := DynamicQMetaObject.create "Foo".toList 5 3

/-- A sample property handle: type `int`, readable and writable, with a notify
signal of the given signature. -/
def propSample (notifySignature : QByteArray) : PySideProperty :=
  { addr := 1, typeName := "int".toList, readable := true, writable := true,
    hasReset := false, designable := true, scriptable := true, stored := true,
    user := false, constant := false, final := false,
    notify := true, notifyName := some notifySignature }

/-- The flags word of property `k` in a table: the third word of its record in
the property section. -/
def propertyFlagsWord (data : List Nat) (k : Nat) : Nat :=
  data.getD (data.getD 7 0 + 3 * k + 2) 0

/-- The notify word of property `k` in a table with `n` properties: word `k`
after the `n` three-word records of the property section. -/
def propertyNotifyWord (data : List Nat) (n k : Nat) : Nat :=
  data.getD (data.getD 7 0 + 3 * n + k) 0

/-- The parameter-offset word of method record `k` in a table: the third word
of the record. -/
def parameterOffsetWord (data : List Nat) (k : Nat) : Nat :=
  data.getD (data.getD 5 0 + 5 * k + 2) 0

/-- Whether a type-info word stands for a type name: for a builtin type the
word is its `QMetaType` code; otherwise it is `IsUnresolvedType` joined with
the index of a pool string that has the C string of the name. -/
def typeInfoMatches (qt : QtMeta) (strings : List QByteArray) (word : Nat)
    (typeName : QByteArray) : Prop :=
  if qt.isBuiltinType typeName then word = qt.metaType typeName
  else ∃ idx t, word = DynamicQMetaObject.IsUnresolvedType ||| idx
    ∧ strings[idx]? = some t ∧ cstr t = cstr typeName

/-! ## The string blob -/

/-- The struct `QByteArrayData` as the initializer macro
`Q_STATIC_BYTE_ARRAY_DATA_HEADER_INITIALIZER_WITH_OFFSET(size, offset)` fills
it: `size` and `offset` are the fields that vary. -/
structure QByteArrayData where
  size : Nat
  offset : Int
deriving DecidableEq, Repr

/-- One byte of the buffer `out`: not written yet, a character, or byte `k` of
the in-memory form of a `QByteArrayData`. -/
inductive Cell where
  | raw
  | char (c : Char)
  | header (d : QByteArrayData) (k : Nat)
deriving DecidableEq, Repr

/-- The call `memcpy(out + addr, cells, n)`, byte by byte; a byte outside the
buffer is an error. -/
def memWrite : List Cell → Nat → List Cell → Option (List Cell)
  | out, _, [] => some out
  | out, addr, c :: rest =>
    if addr < out.length then memWrite (out.set addr c) (addr + 1) rest else none

/-- The function `blobSize`; `width` is `sizeof(QByteArrayData)`. -/
def blobSize (width : Nat) (strings : List QByteArray) : Nat :=
  let size := strings.length * width
  let str := strings.foldl (fun str field => str ++ field ++ [NUL]) []
  size + str.length

/-- The function `writeString`: the buffer afterwards and the new value of
`stringdataOffset`. -/
def writeString (width : Nat) (out : List Cell) (i : Nat) (str : QByteArray)
    (offsetOfStringdataMember stringdataOffset : Nat) : Option (List Cell × Nat) :=
  let size := str.length
  let offset : Int :=
    (offsetOfStringdataMember : Int) + (stringdataOffset : Int) - ((i * width : Nat) : Int)
  let data : QByteArrayData := { size := size, offset := offset }
  match memWrite out (i * width) ((List.range width).map (Cell.header data)) with
  | none => none
  | some out1 =>
    match memWrite out1 (offsetOfStringdataMember + stringdataOffset) (str.map Cell.char) with
    | none => none
    | some out2 =>
      match memWrite out2 (offsetOfStringdataMember + stringdataOffset + size)
          [Cell.char NUL] with
      | none => none
      | some out3 => some (out3, stringdataOffset + (size + 1))

/-- The loop of `writeStringData` over the strings not yet written. -/
def writeStringLoop (width offsetOfStringdataMember : Nat) :
    List QByteArray → List Cell → Nat → Nat → Option (List Cell)
  | [], out, _, _ => some out
  | str :: rest, out, i, stringdataOffset =>
    match writeString width out i str offsetOfStringdataMember stringdataOffset with
    | none => none
    | some r => writeStringLoop width offsetOfStringdataMember rest r.1 (i + 1) r.2

/-- The member `writeStringData`. -/
def writeStringData (width : Nat) (out : List Cell) (strings : List QByteArray) :
    Option (List Cell) :=
  writeStringLoop width (strings.length * width) strings out 0 0

/-- The end of `updateMetaObject`: a buffer of `blobSize(strings)` bytes,
filled by `writeStringData`, becomes `d.stringdata`. -/
def stringBlob (width : Nat) (strings : List QByteArray) : Option (List Cell) :=
  writeStringData width (List.replicate (blobSize width strings) Cell.raw) strings

/-- The number of bytes that the strings in front of string `i` take in the
character part of the blob, each with its closing NUL. -/
def stringStart (strings : List QByteArray) (i : Nat) : Nat :=
  ((strings.take i).map (fun s => s.length + 1)).sum

/-! ## Signatures built from a name and parameter types -/

/-- The parameter list of a signature: the types, separated by commas. -/
def joinParameters : List QByteArray → QByteArray
  | [] => []
  | [t] => t
  | t :: rest => t ++ ',' :: joinParameters rest

/-- Whether the angle brackets of a parameter type keep its commas inside:
read from the nesting level `level`, the type holds no parenthesis and no NUL,
every comma has more `<` than `>` in front of it, and no `<` is left open at
the end. -/
def nestedType : Int → List Char → Bool
  | level, [] => decide (level ≤ 0)
  | level, c :: rest =>
    c != '(' && c != ')' && c != NUL && (c != ',' || decide (level > 0))
      && nestedType (if c = '<' then level + 1 else if c = '>' then level - 1 else level) rest

/-! ## Lemmas on the writer -/

namespace DynamicQMetaObject

theorem put_index (w : Writer) (v : Nat) : (w.put v).index = w.index + 1 := rfl

theorem putString_index (w : Writer) (s : QByteArray) : (w.putString s).index = w.index + 1 := rfl

theorem put_length (w : Writer) (v : Nat) : (w.put v).data.length = w.data.length := by
  simp [Writer.put]

theorem putString_length (w : Writer) (s : QByteArray) :
    (w.putString s).data.length = w.data.length := by
  simp [Writer.putString]

/-- A fold whose every round advances the cursor by `k x` advances it by the
sum of the `k x`. -/
theorem foldl_index {β : Type} (f : Writer → β → Writer) (k : β → Nat)
    (h : ∀ w x, (f w x).index = w.index + k x) (l : List β) (w : Writer) :
    (l.foldl f w).index = w.index + (l.map k).sum := by
  induction l generalizing w with
  | nil => simp
  | cons x xs ih =>
    simp only [List.foldl_cons, List.map_cons, List.sum_cons]
    rw [ih, h]
    omega

/-- A fold whose every round keeps the table length keeps it. -/
theorem foldl_length {β : Type} (f : Writer → β → Writer)
    (h : ∀ w x, (f w x).data.length = w.data.length) (l : List β) (w : Writer) :
    (l.foldl f w).data.length = w.data.length := by
  induction l generalizing w with
  | nil => simp
  | cons x xs ih =>
    simp only [List.foldl_cons]
    rw [ih, h]

theorem writeInfoStep_index (w : Writer) (kv : QByteArray × QByteArray) :
    (writeInfoStep w kv).index = w.index + 2 := rfl

theorem writePropertyStep_index (qt : QtMeta) (ids : MetaTypeIds) (n : Nat) (w : Writer)
    (i : PropertyData) : (writePropertyStep qt ids n w i).index = w.index + 3 := by
  unfold writePropertyStep
  cases i.isValid <;> rfl

theorem writeNotifyStep_index (w : Writer) (i : PropertyData) :
    (writeNotifyStep w i).index = w.index + 1 := rfl

theorem writeMethodStep_index (e n f : Nat) (st : MethodsLoop) (it : MethodData) :
    (writeMethodStep e n f st it).w.index = st.w.index + 5 := by
  unfold writeMethodStep
  by_cases h1 : it.signature != EMPTY_META_METHOD <;>
    by_cases h2 : it.methodType = MethodType.Signal <;>
    simp [h1, h2, Writer.put, Writer.putString]

theorem foldl_writeMethodStep_index (e n f : Nat) (l : List MethodData) (st : MethodsLoop) :
    (l.foldl (writeMethodStep e n f) st).w.index = st.w.index + 5 * l.length := by
  induction l generalizing st with
  | nil => simp
  | cons x xs ih =>
    simp only [List.foldl_cons, List.length_cons]
    rw [ih, writeMethodStep_index]
    omega

theorem writeMethodsData_index (e : Int) (l : List MethodData) (w : Writer) (n f : Nat) :
    (writeMethodsData e l w n f).1.index = w.index + 5 * l.length := by
  unfold writeMethodsData
  simp only [foldl_writeMethodStep_index]
  split <;> rfl

theorem writeTypeInfo_index (qt : QtMeta) (w : Writer) (t : QByteArray) :
    (writeTypeInfo qt w t).index = w.index + 1 := by
  unfold writeTypeInfo
  split <;> rfl

theorem writeParametersStep_index (qt : QtMeta) (n : Nat) (w : Writer) (it : MethodData) :
    (writeParametersStep qt n w it).index = w.index + (2 * it.parameterCount + 1) := by
  unfold writeParametersStep
  rw [foldl_index (fun v (_ : QByteArray) => v.put n) (fun _ => 1) (fun _ _ => rfl),
    foldl_index (writeTypeInfo qt) (fun _ => 1) (writeTypeInfo_index qt)]
  simp [MethodData.parameterCount]
  omega

theorem aggregateParameterCount_eq (l : List MethodData) :
    aggregateParameterCount l = (l.map (fun m => 2 * m.parameterCount + 1)).sum := by
  unfold aggregateParameterCount
  suffices h : ∀ s, l.foldl (fun sum m => sum + (m.parameterCount * 2 + 1)) s
      = s + (l.map (fun m => 2 * m.parameterCount + 1)).sum by simpa using h 0
  induction l with
  | nil => simp
  | cons x xs ih =>
    intro s
    simp only [List.foldl_cons, List.map_cons, List.sum_cons]
    rw [ih]
    omega

end DynamicQMetaObject

/-! ## Lemmas on `qStableSort` -/

section SortLemmas
variable {α : Type}

theorem qMerge_perm (lessThan : α → α → Bool) (fuel : Nat) (a b : List α) :
    (qMerge lessThan fuel a b).Perm (a ++ b) := by
  induction fuel generalizing a b with
  | zero => simp [qMerge]
  | succ n ih =>
    unfold qMerge
    simp only
    split
    · exact List.Perm.refl _
    · split
      · split
        · split
          · exact List.Perm.swap _ _ _
          · exact List.Perm.refl _
        · exact List.Perm.refl _
      · split
        · split
          · rename_i firstCut _
            have h1 := ih (a.take (a.length / 2)) (b.take (qLowerBound lessThan b firstCut))
            have h2 := ih (a.drop (a.length / 2)) (b.drop (qLowerBound lessThan b firstCut))
            refine (h1.append h2).trans ?_
            have e : a ++ b = (a.take (a.length / 2) ++ a.drop (a.length / 2))
                ++ (b.take (qLowerBound lessThan b firstCut)
                  ++ b.drop (qLowerBound lessThan b firstCut)) := by
              simp
            rw [e]
            simp only [List.append_assoc]
            refine List.Perm.append_left _ ?_
            simp only [← List.append_assoc]
            exact List.Perm.append_right _ List.perm_append_comm
          · exact List.Perm.refl _
        · split
          · rename_i secondCut _
            have h1 := ih (a.take (qUpperBound lessThan a secondCut)) (b.take (b.length / 2))
            have h2 := ih (a.drop (qUpperBound lessThan a secondCut)) (b.drop (b.length / 2))
            refine (h1.append h2).trans ?_
            have e : a ++ b = (a.take (qUpperBound lessThan a secondCut)
                  ++ a.drop (qUpperBound lessThan a secondCut))
                ++ (b.take (b.length / 2) ++ b.drop (b.length / 2)) := by
              simp
            rw [e]
            simp only [List.append_assoc]
            refine List.Perm.append_left _ ?_
            simp only [← List.append_assoc]
            exact List.Perm.append_right _ List.perm_append_comm
          · exact List.Perm.refl _

theorem qStableSortHelper_perm (lessThan : α → α → Bool) (fuel : Nat) (xs : List α) :
    (qStableSortHelper lessThan fuel xs).Perm xs := by
  induction fuel generalizing xs with
  | zero => simp [qStableSortHelper]
  | succ n ih =>
    unfold qStableSortHelper
    simp only
    split
    · exact List.Perm.refl _
    · refine (qMerge_perm _ _ _ _).trans ?_
      refine ((ih _).append (ih _)).trans ?_
      rw [List.take_append_drop]

theorem qStableSort_perm (lessThan : α → α → Bool) (xs : List α) :
    (qStableSort lessThan xs).Perm xs :=
  qStableSortHelper_perm lessThan xs.length xs

end SortLemmas

namespace DynamicQMetaObject

theorem updateMetaObject_stages (qt : QtMeta) (ids : MetaTypeIds) (o : DynamicQMetaObject) :
    updateMetaObject qt ids o =
      { object :=
          { d_data := ((stageParameters qt ids o).put 0).data
            d_strings := ((stageParameters qt ids o).put 0).strings
            m_d := { o.m_d with
              m_methods := stageSorted o
              m_dataSize := (createMetaData o).1
              m_emptyMethod := (stageMethods qt ids o).2
              m_nullIndex := stageNullIndex o } }
        index := ((stageParameters qt ids o).put 0).index } := rfl

theorem writeInfoStep_length (w : Writer) (kv : QByteArray × QByteArray) :
    (writeInfoStep w kv).data.length = w.data.length := by
  simp [writeInfoStep, Writer.put]

theorem writePropertyStep_length (qt : QtMeta) (ids : MetaTypeIds) (n : Nat) (w : Writer)
    (i : PropertyData) : (writePropertyStep qt ids n w i).data.length = w.data.length := by
  unfold writePropertyStep
  cases i.isValid <;> simp [Writer.put, Writer.putString]

theorem writeNotifyStep_length (w : Writer) (i : PropertyData) :
    (writeNotifyStep w i).data.length = w.data.length := by
  simp [writeNotifyStep, Writer.put]

theorem writeMethodStep_length (e n f : Nat) (st : MethodsLoop) (it : MethodData) :
    (writeMethodStep e n f st it).w.data.length = st.w.data.length := by
  unfold writeMethodStep
  by_cases h1 : it.signature != EMPTY_META_METHOD <;>
    by_cases h2 : it.methodType = MethodType.Signal <;>
    simp [h1, h2, Writer.put, Writer.putString]

theorem foldl_writeMethodStep_length (e n f : Nat) (l : List MethodData) (st : MethodsLoop) :
    (l.foldl (writeMethodStep e n f) st).w.data.length = st.w.data.length := by
  induction l generalizing st with
  | nil => simp
  | cons x xs ih =>
    simp only [List.foldl_cons]
    rw [ih, writeMethodStep_length]

theorem writeMethodsData_length (e : Int) (l : List MethodData) (w : Writer) (n f : Nat) :
    (writeMethodsData e l w n f).1.data.length = w.data.length := by
  unfold writeMethodsData
  simp only [foldl_writeMethodStep_length]
  split <;> rfl

theorem writeTypeInfo_length (qt : QtMeta) (w : Writer) (t : QByteArray) :
    (writeTypeInfo qt w t).data.length = w.data.length := by
  unfold writeTypeInfo
  split <;> simp [Writer.put]

theorem writeParametersStep_length (qt : QtMeta) (n : Nat) (w : Writer) (it : MethodData) :
    (writeParametersStep qt n w it).data.length = w.data.length := by
  unfold writeParametersStep
  rw [foldl_length (fun v (_ : QByteArray) => v.put n) (fun w _ => put_length w n),
    foldl_length (writeTypeInfo qt) (writeTypeInfo_length qt)]

theorem dataSize_ge (p : DynamicQMetaObjectPrivate) : HEADER_LENGHT ≤ dataSize p := by
  unfold dataSize
  omega

theorem createMetaData_length (o : DynamicQMetaObject) :
    (createMetaData o).2.length = dataSize o.m_d := by
  have h := dataSize_ge o.m_d
  unfold HEADER_LENGHT at h
  simp only [createMetaData, reallocWithHeader, header, List.length_append, List.length_cons,
    List.length_nil, List.length_drop, List.length_take, List.length_replicate]
  omega

theorem stageStart_index (o : DynamicQMetaObject) : (stageStart o).index = HEADER_LENGHT := rfl

theorem stageInfo_index (o : DynamicQMetaObject) :
    (stageInfo o).index = HEADER_LENGHT + 2 * o.m_d.m_info.length := by
  unfold stageInfo
  split
  · rw [foldl_index writeInfoStep (fun _ => 2) writeInfoStep_index]
    split <;> simp [stageStart_index, Nat.mul_comm]
  · rename_i h
    simp only [ne_eq, Decidable.not_not] at h
    simp [h, stageStart_index]

theorem stageProperties_index (qt : QtMeta) (ids : MetaTypeIds) (o : DynamicQMetaObject) :
    (stageProperties qt ids o).index
      = HEADER_LENGHT + 2 * o.m_d.m_info.length + 4 * o.m_d.m_properties.length := by
  unfold stageProperties
  split
  · rw [foldl_index writeNotifyStep (fun _ => 1) writeNotifyStep_index,
      foldl_index (writePropertyStep qt ids (stageNullIndex o)) (fun _ => 3)
        (writePropertyStep_index qt ids (stageNullIndex o))]
    split <;> simp [stageInfo_index] <;> omega
  · rename_i h
    simp only [ne_eq, Decidable.not_not] at h
    simp [h, stageInfo_index]

theorem stageStart_length (o : DynamicQMetaObject) :
    (stageStart o).data.length = dataSize o.m_d := createMetaData_length o

theorem stageInfo_length (o : DynamicQMetaObject) :
    (stageInfo o).data.length = dataSize o.m_d := by
  unfold stageInfo
  split
  · rw [foldl_length writeInfoStep writeInfoStep_length]
    split <;> simp [stageStart_length]
  · exact stageStart_length o

theorem stageProperties_length (qt : QtMeta) (ids : MetaTypeIds) (o : DynamicQMetaObject) :
    (stageProperties qt ids o).data.length = dataSize o.m_d := by
  unfold stageProperties
  split
  · rw [foldl_length writeNotifyStep writeNotifyStep_length,
      foldl_length _ (writePropertyStep_length qt ids (stageNullIndex o))]
    split <;> simp [stageInfo_length]
  · exact stageInfo_length o

theorem stageMethods_length (qt : QtMeta) (ids : MetaTypeIds) (o : DynamicQMetaObject) :
    (stageMethods qt ids o).1.data.length = dataSize o.m_d := by
  unfold stageMethods
  split
  · rw [writeMethodsData_length]
    split <;> simp [stageProperties_length]
  · exact stageProperties_length qt ids o

theorem stageParameters_length (qt : QtMeta) (ids : MetaTypeIds) (o : DynamicQMetaObject) :
    (stageParameters qt ids o).data.length = dataSize o.m_d := by
  unfold stageParameters
  split
  · rw [foldl_length _ (writeParametersStep_length qt (stageNullIndex o))]
    exact stageMethods_length qt ids o
  · exact stageMethods_length qt ids o

theorem stageSorted_perm (o : DynamicQMetaObject) : (stageSorted o).Perm o.m_d.m_methods :=
  qStableSort_perm _ _

theorem stageSorted_length (o : DynamicQMetaObject) :
    (stageSorted o).length = o.m_d.m_methods.length :=
  (stageSorted_perm o).length_eq

theorem stageMethods_index (qt : QtMeta) (ids : MetaTypeIds) (o : DynamicQMetaObject) :
    (stageMethods qt ids o).1.index
      = HEADER_LENGHT + 2 * o.m_d.m_info.length + 4 * o.m_d.m_properties.length
        + 5 * o.m_d.m_methods.length := by
  unfold stageMethods
  split
  · rw [writeMethodsData_index, stageSorted_length]
    split <;> simp [stageProperties_index]
  · rename_i h
    simp only [ne_eq, Decidable.not_not] at h
    rw [stageSorted_length] at h
    simp [h, stageProperties_index]

theorem stageParameters_index (qt : QtMeta) (ids : MetaTypeIds) (o : DynamicQMetaObject) :
    (stageParameters qt ids o).index
      = HEADER_LENGHT + 2 * o.m_d.m_info.length + 4 * o.m_d.m_properties.length
        + 5 * o.m_d.m_methods.length
        + (o.m_d.m_methods.map (fun m => 2 * m.parameterCount + 1)).sum := by
  have hp : ((stageSorted o).map (fun m => 2 * m.parameterCount + 1)).sum
      = (o.m_d.m_methods.map (fun m => 2 * m.parameterCount + 1)).sum :=
    ((stageSorted_perm o).map _).sum_eq
  unfold stageParameters
  split
  · rw [foldl_index (writeParametersStep qt (stageNullIndex o))
      (fun m => 2 * m.parameterCount + 1) (writeParametersStep_index qt (stageNullIndex o)),
      stageMethods_index, hp]
  · rename_i h
    simp only [ne_eq, Decidable.not_not] at h
    rw [stageSorted_length] at h
    have h0 : o.m_d.m_methods = [] := List.length_eq_zero.mp h
    rw [stageMethods_index, h0]
    simp

/-- A blank method entry has no parameters. -/
theorem parameterCount_of_not_isValid (m : MethodData) (h : m.isValid = false) :
    m.parameterCount = 0 := by
  have hs : m.m_signature = EMPTY_META_METHOD := by
    simpa [MethodData.isValid, MethodData.m_emptySig] using h
  unfold MethodData.parameterCount MethodData.parameterTypes
  rw [hs]
  decide

/-- C1: a rebuild writes exactly the words that `createMetaData` allocated.
The write cursor after the end word equals the new `m_dataSize`, which is the
length of the table and equals
`HEADER_LENGHT + 2*classInfoCount + 5*methodCount + 4*propertyCount + 1`
plus the sum over the method entries of `2*parameterCount + 1`; a blank
(tombstoned) method entry has `parameterCount` 0. -/
theorem C1_rebuild_cursor_matches_allocation (qt : QtMeta) (ids : MetaTypeIds)
    (o : DynamicQMetaObject) :
    (updateMetaObject qt ids o).index = (updateMetaObject qt ids o).object.m_d.m_dataSize
    ∧ (updateMetaObject qt ids o).object.d_data.length
        = (updateMetaObject qt ids o).object.m_d.m_dataSize
    ∧ (updateMetaObject qt ids o).index
        = HEADER_LENGHT + 2 * o.m_d.m_info.length + 5 * o.m_d.m_methods.length
          + 4 * o.m_d.m_properties.length + 1
          + (o.m_d.m_methods.map (fun m => 2 * m.parameterCount + 1)).sum
    ∧ ∀ m ∈ o.m_d.m_methods, m.isValid = false → m.parameterCount = 0 := by
  have hi : (updateMetaObject qt ids o).index
      = HEADER_LENGHT + 2 * o.m_d.m_info.length + 5 * o.m_d.m_methods.length
          + 4 * o.m_d.m_properties.length + 1
          + (o.m_d.m_methods.map (fun m => 2 * m.parameterCount + 1)).sum := by
    rw [updateMetaObject_stages]
    simp only [put_index, stageParameters_index]
    omega
  have hs : (updateMetaObject qt ids o).object.m_d.m_dataSize = dataSize o.m_d := rfl
  refine ⟨?_, ?_, hi, fun m _ h => parameterCount_of_not_isValid m h⟩
  · rw [hi, hs, dataSize, aggregateParameterCount_eq]
    omega
  · rw [hs, updateMetaObject_stages]
    simp only [put_length, stageParameters_length]

/-! ## Header words during a rebuild -/

theorem set_getD_ne (l : List Nat) (i j v : Nat) (h : j ≠ i) :
    (l.set i v).getD j 0 = l.getD j 0 := by
  simp [List.getD_eq_getElem?_getD, List.getElem?_set_ne (Ne.symm h)]

theorem set_getD_self (l : List Nat) (i v : Nat) (h : i < l.length) :
    (l.set i v).getD i 0 = v := by
  simp [List.getD_eq_getElem?_getD, h]

theorem put_getD (w : Writer) (v j : Nat) (h : j < w.index) :
    (w.put v).data.getD j 0 = w.data.getD j 0 :=
  set_getD_ne _ _ _ _ (Nat.ne_of_lt h)

theorem putString_getD (w : Writer) (s : QByteArray) (j : Nat) (h : j < w.index) :
    (w.putString s).data.getD j 0 = w.data.getD j 0 :=
  set_getD_ne _ _ _ _ (Nat.ne_of_lt h)

/-- A fold whose rounds advance the cursor and keep word `j` below the cursor
keeps word `j`. -/
theorem foldl_getD {β : Type} (f : Writer → β → Writer) (j : Nat)
    (hi : ∀ w x, w.index ≤ (f w x).index)
    (h : ∀ w x, j < w.index → (f w x).data.getD j 0 = w.data.getD j 0)
    (l : List β) (w : Writer) (hw : j < w.index) :
    (l.foldl f w).data.getD j 0 = w.data.getD j 0 := by
  induction l generalizing w with
  | nil => simp
  | cons x xs ih =>
    simp only [List.foldl_cons]
    rw [ih _ (Nat.lt_of_lt_of_le hw (hi w x)), h w x hw]

theorem writeInfoStep_getD (w : Writer) (kv : QByteArray × QByteArray) (j : Nat)
    (h : j < w.index) : (writeInfoStep w kv).data.getD j 0 = w.data.getD j 0 := by
  unfold writeInfoStep
  rw [put_getD _ _ _ (by simp only [put_index]; omega)]
  exact put_getD { w with strings := _ } _ j h

theorem writePropertyStep_getD (qt : QtMeta) (ids : MetaTypeIds) (n : Nat) (w : Writer)
    (i : PropertyData) (j : Nat) (h : j < w.index) :
    (writePropertyStep qt ids n w i).data.getD j 0 = w.data.getD j 0 := by
  unfold writePropertyStep
  cases i.isValid
  · simp only [Bool.false_eq_true, ↓reduceIte]
    rw [put_getD _ _ _ (by simp only [put_index]; omega),
      put_getD _ _ _ (by simp only [put_index]; omega), put_getD _ _ _ h]
  · simp only [↓reduceIte]
    rw [put_getD _ _ _ (by simp only [putString_index]; omega),
      putString_getD _ _ _ (by simp only [putString_index]; omega), putString_getD _ _ _ h]

theorem writeNotifyStep_getD (w : Writer) (i : PropertyData) (j : Nat) (h : j < w.index) :
    (writeNotifyStep w i).data.getD j 0 = w.data.getD j 0 :=
  put_getD _ _ _ h

theorem writeTypeInfo_getD (qt : QtMeta) (w : Writer) (t : QByteArray) (j : Nat)
    (h : j < w.index) : (writeTypeInfo qt w t).data.getD j 0 = w.data.getD j 0 := by
  unfold writeTypeInfo
  split
  · exact put_getD _ _ _ h
  · exact put_getD _ _ _ h

theorem writeParametersStep_getD (qt : QtMeta) (n : Nat) (w : Writer) (it : MethodData)
    (j : Nat) (h : j < w.index) :
    (writeParametersStep qt n w it).data.getD j 0 = w.data.getD j 0 := by
  unfold writeParametersStep
  have h1 : j < ((it.returnType :: it.parameterTypes).foldl (writeTypeInfo qt) w).index := by
    rw [foldl_index (writeTypeInfo qt) (fun _ => 1) (writeTypeInfo_index qt)]
    omega
  rw [foldl_getD (fun v (_ : QByteArray) => v.put n) j
      (fun w _ => by simp only [put_index]; omega) (fun w _ hw => put_getD w n j hw) _ _ h1,
    foldl_getD (writeTypeInfo qt) j (fun w x => by rw [writeTypeInfo_index]; omega)
      (fun w x hw => writeTypeInfo_getD qt w x j hw) _ _ h]

/-- The writer of `writeMethodStep` after the five record words, before the
signal counter is touched. -/
theorem writeMethodStep_data (e n f : Nat) (st : MethodsLoop) (it : MethodData) :
    ∃ w5 : Writer, w5.index = st.w.index + 5 ∧ w5.data.length = st.w.data.length
      ∧ (∀ j, j < st.w.index → w5.data.getD j 0 = st.w.data.getD j 0)
      ∧ (writeMethodStep e n f st it).w.data
          = if it.methodType = MethodType.Signal
            then w5.data.set 13 (w5.data.getD 13 0 + 1) else w5.data := by
  by_cases h1 : it.signature != EMPTY_META_METHOD
  · refine ⟨((((st.w.putString it.name).put it.parameterCount).put st.paramsIndex).put n).put
      (f ||| (if it.methodType = MethodType.Signal then MethodSignal else MethodSlot)),
      rfl, by simp [Writer.put, Writer.putString], ?_, ?_⟩
    · intro j hj
      rw [put_getD _ _ _ (by simp only [put_index, putString_index]; omega),
        put_getD _ _ _ (by simp only [put_index, putString_index]; omega),
        put_getD _ _ _ (by simp only [put_index, putString_index]; omega),
        put_getD _ _ _ (by simp only [put_index, putString_index]; omega),
        putString_getD _ _ _ hj]
    · unfold writeMethodStep
      simp only [h1, ↓reduceIte]
      split <;> rfl
  · refine ⟨((((st.w.put e).put it.parameterCount).put st.paramsIndex).put n).put
      (f ||| (if it.methodType = MethodType.Signal then MethodSignal else MethodSlot)),
      rfl, by simp [Writer.put], ?_, ?_⟩
    · intro j hj
      rw [put_getD _ _ _ (by simp only [put_index]; omega),
        put_getD _ _ _ (by simp only [put_index]; omega),
        put_getD _ _ _ (by simp only [put_index]; omega),
        put_getD _ _ _ (by simp only [put_index]; omega),
        put_getD _ _ _ hj]
    · unfold writeMethodStep
      simp only [h1, ↓reduceIte]
      split <;> rfl

/-- The round `writeMethodStep` leaves every word below the cursor alone,
except that a Signal entry adds one to word 13. -/
theorem writeMethodStep_getD (e n f : Nat) (st : MethodsLoop) (it : MethodData) (j : Nat)
    (h : j < st.w.index) (hl : 13 < st.w.data.length) :
    (writeMethodStep e n f st it).w.data.getD j 0
      = st.w.data.getD j 0
        + (if j = 13 ∧ it.methodType = MethodType.Signal then 1 else 0) := by
  obtain ⟨w5, _, h5l, h5g, h5⟩ := writeMethodStep_data e n f st it
  rw [h5]
  by_cases hs : it.methodType = MethodType.Signal
  · simp only [hs, ↓reduceIte, and_true]
    by_cases hj : j = 13
    · subst hj
      rw [set_getD_self _ _ _ (by omega), h5g _ h]
      simp
    · rw [set_getD_ne _ _ _ _ hj, h5g _ h]
      simp [hj]
  · simp only [hs, ↓reduceIte, and_false]
    rw [h5g _ h]
    simp

theorem foldl_writeMethodStep_getD (e n f : Nat) (l : List MethodData) (st : MethodsLoop)
    (j : Nat) (h : j < st.w.index) (hl : 13 < st.w.data.length) :
    (l.foldl (writeMethodStep e n f) st).w.data.getD j 0
      = st.w.data.getD j 0
        + (if j = 13 then l.countP (fun m => m.methodType = MethodType.Signal) else 0) := by
  induction l generalizing st with
  | nil => simp
  | cons x xs ih =>
    simp only [List.foldl_cons]
    rw [ih _ (by rw [writeMethodStep_index]; omega) (by rw [writeMethodStep_length]; exact hl),
      writeMethodStep_getD _ _ _ _ _ _ h hl, List.countP_cons]
    by_cases hj : j = 13 <;> by_cases hs : x.methodType = MethodType.Signal
    all_goals simp [hj, hs]
    all_goals omega

theorem writeMethodsData_getD (e : Int) (l : List MethodData) (w : Writer) (n f j : Nat)
    (h : j < w.index) (hl : 13 < w.data.length) :
    (writeMethodsData e l w n f).1.data.getD j 0
      = w.data.getD j 0
        + (if j = 13 then l.countP (fun m => m.methodType = MethodType.Signal) else 0) := by
  unfold writeMethodsData
  simp only
  rw [foldl_writeMethodStep_getD]
  · split <;> rfl
  · split <;> exact h
  · split <;> exact hl

theorem stageStart_getD (o : DynamicQMetaObject) (j : Nat) (h : j < HEADER_LENGHT) :
    (stageStart o).data.getD j 0
      = (header o.m_d.m_info.length o.m_d.m_methods.length o.m_d.m_properties.length).getD j 0 := by
  unfold HEADER_LENGHT at h
  simp only [stageStart, createMetaData, reallocWithHeader, List.getD_eq_getElem?_getD]
  rw [List.getElem?_append_left (by simpa [header] using h)]

theorem stageInfo_getD (o : DynamicQMetaObject) (j : Nat) (h : j < HEADER_LENGHT)
    (h3 : j ≠ 3) : (stageInfo o).data.getD j 0 = (stageStart o).data.getD j 0 := by
  unfold stageInfo
  split
  · rw [foldl_getD writeInfoStep j (fun w x => by rw [writeInfoStep_index]; omega)
      (fun w x hw => writeInfoStep_getD w x j hw)]
    · split
      · exact set_getD_ne _ _ _ _ h3
      · rfl
    · split <;> exact h
  · rfl

theorem stageProperties_getD (qt : QtMeta) (ids : MetaTypeIds) (o : DynamicQMetaObject)
    (j : Nat) (h : j < HEADER_LENGHT) (h7 : j ≠ 7) :
    (stageProperties qt ids o).data.getD j 0 = (stageInfo o).data.getD j 0 := by
  have hi : j < (stageInfo o).index := by rw [stageInfo_index]; omega
  unfold stageProperties
  split
  · rw [foldl_getD writeNotifyStep j (fun w x => by rw [writeNotifyStep_index]; omega)
        (fun w x hw => writeNotifyStep_getD w x j hw),
      foldl_getD (writePropertyStep qt ids (stageNullIndex o)) j
        (fun w x => by rw [writePropertyStep_index]; omega)
        (fun w x hw => writePropertyStep_getD qt ids _ w x j hw)]
    · split
      · exact set_getD_ne _ _ _ _ h7
      · rfl
    · split <;> exact hi
    · rw [foldl_index _ (fun _ => 3) (writePropertyStep_index qt ids (stageNullIndex o))]
      split <;> exact Nat.lt_of_lt_of_le hi (Nat.le_add_right _ _)
  · rfl

theorem stageMethods_getD (qt : QtMeta) (ids : MetaTypeIds) (o : DynamicQMetaObject)
    (j : Nat) (h : j < HEADER_LENGHT) (h5 : j ≠ 5) :
    (stageMethods qt ids o).1.data.getD j 0
      = (stageProperties qt ids o).data.getD j 0
        + (if j = 13 then o.m_d.m_methods.countP (fun m => m.methodType = MethodType.Signal)
            else 0) := by
  have hi : j < (stageProperties qt ids o).index := by rw [stageProperties_index]; omega
  have hl : 13 < (stageProperties qt ids o).data.length := by
    rw [stageProperties_length]
    have := dataSize_ge o.m_d
    unfold HEADER_LENGHT at this
    unfold dataSize HEADER_LENGHT
    omega
  have hc : (stageSorted o).countP (fun m => m.methodType = MethodType.Signal)
      = o.m_d.m_methods.countP (fun m => m.methodType = MethodType.Signal) :=
    (stageSorted_perm o).countP_eq _
  unfold stageMethods
  split
  · rw [writeMethodsData_getD, hc]
    · congr 1
      split
      · exact set_getD_ne _ _ _ _ h5
      · rfl
    · split <;> exact hi
    · split
      · simpa using hl
      · exact hl
  · rename_i h0
    simp only [ne_eq, Decidable.not_not] at h0
    rw [stageSorted_length] at h0
    have h00 : o.m_d.m_methods = [] := List.length_eq_zero.mp h0
    simp [h00]

theorem stageParameters_getD (qt : QtMeta) (ids : MetaTypeIds) (o : DynamicQMetaObject)
    (j : Nat) (h : j < HEADER_LENGHT) :
    (stageParameters qt ids o).data.getD j 0 = (stageMethods qt ids o).1.data.getD j 0 := by
  have hi : j < (stageMethods qt ids o).1.index := by rw [stageMethods_index]; omega
  unfold stageParameters
  split
  · exact foldl_getD (writeParametersStep qt (stageNullIndex o)) j
      (fun w x => by rw [writeParametersStep_index]; omega)
      (fun w x hw => writeParametersStep_getD qt _ w x j hw) _ _ hi
  · rfl

/-- The header words other than the three section offsets after a rebuild:
the word that `createMetaData` copied, and for word 13 the number of Signal
entries on top of it. -/
theorem updateMetaObject_header_word (qt : QtMeta) (ids : MetaTypeIds)
    (o : DynamicQMetaObject) (j : Nat) (h : j < HEADER_LENGHT)
    (h3 : j ≠ 3) (h5 : j ≠ 5) (h7 : j ≠ 7) :
    (updateMetaObject qt ids o).object.d_data.getD j 0
      = (header o.m_d.m_info.length o.m_d.m_methods.length o.m_d.m_properties.length).getD j 0
        + (if j = 13 then o.m_d.m_methods.countP (fun m => m.methodType = MethodType.Signal)
            else 0) := by
  rw [updateMetaObject_stages]
  simp only
  rw [put_getD _ _ _ (by rw [stageParameters_index]; omega), stageParameters_getD qt ids o j h,
    stageMethods_getD qt ids o j h h5, stageProperties_getD qt ids o j h h7,
    stageInfo_getD o j h h3, stageStart_getD o j h]

end DynamicQMetaObject

open DynamicQMetaObject

/-! ## Claims -/

/-- C2 (the code departs from the claim): after registering a `Method` entry
`m()` and then a `Signal` entry `s()` on a fresh object, the rebuilt method
section keeps the registration order, so record 0 is a non-signal record and
record 1 is a signal record: the signals are not a serialized initial run. -/
theorem C2_method_kind_before_signal :
    (updateMetaObject qtSample idsSample
        (run qtSample idsSample objSample
          [Op.addMethod MethodType.Method "m()".toList [],
           Op.addMethod MethodType.Signal "s()".toList []])).object.m_d.m_methods
      = [⟨MethodType.Method, "m()".toList, []⟩, ⟨MethodType.Signal, "s()".toList, []⟩]
    ∧ methodRecordIsSignal (updateMetaObject qtSample idsSample
        (run qtSample idsSample objSample
          [Op.addMethod MethodType.Method "m()".toList [],
           Op.addMethod MethodType.Signal "s()".toList []])).object.d_data 0 = false
    ∧ methodRecordIsSignal (updateMetaObject qtSample idsSample
        (run qtSample idsSample objSample
          [Op.addMethod MethodType.Method "m()".toList [],
           Op.addMethod MethodType.Signal "s()".toList []])).object.d_data 1 = true := by
  decide

/-- C3: after a rebuild of any object, whatever its previous table, header
word 13 is the number of Signal entries of the method list; a second rebuild
right after yields the same number again, not the sum. -/
theorem C3_signal_count_word (qt : QtMeta) (ids : MetaTypeIds) (o : DynamicQMetaObject) :
    (updateMetaObject qt ids o).object.d_data.getD 13 0
      = o.m_d.m_methods.countP (fun m => m.methodType = MethodType.Signal)
    ∧ (updateMetaObject qt ids (updateMetaObject qt ids o).object).object.d_data.getD 13 0
      = o.m_d.m_methods.countP (fun m => m.methodType = MethodType.Signal) := by
  have h : ∀ o : DynamicQMetaObject, (updateMetaObject qt ids o).object.d_data.getD 13 0
      = o.m_d.m_methods.countP (fun m => m.methodType = MethodType.Signal) := by
    intro o
    rw [updateMetaObject_header_word qt ids o 13 (by decide) (by decide) (by decide) (by decide)]
    simp [header]
  refine ⟨h o, ?_⟩
  rw [h]
  exact (stageSorted_perm o).countP_eq _

/-- C4 (as stated, refuted): after `addSignal("a()")`, `removeSignal` of it and
a rebuild, the method-count word is 1 while no valid method entry is left. -/
theorem C4_counterexample :
    (updateMetaObject qtSample idsSample
        (run qtSample idsSample objSample
          [Op.addMethod MethodType.Signal "a()".toList [],
           Op.removeMethod MethodType.Signal "a()".toList])).object.d_data.getD 4 0 = 1
    ∧ (run qtSample idsSample objSample
          [Op.addMethod MethodType.Signal "a()".toList [],
           Op.removeMethod MethodType.Signal "a()".toList]).m_d.m_methods.countP
        (fun m => m.isValid) = 0 := by
  decide

/-- C4 (amended): for any sequence of operations followed by a rebuild, the
header counts are the numbers of entries, blank (tombstoned) ones included:
the method-count word is the length of the method list, that is the valid
entries plus the blank ones, the property-count word the length of the
property list, and the class-info-count word the number of class-info keys. -/
theorem C4_header_counts (qt : QtMeta) (ids : MetaTypeIds) (o : DynamicQMetaObject)
    (ops : List Op) :
    (updateMetaObject qt ids (run qt ids o ops)).object.d_data.getD 4 0
      = (run qt ids o ops).m_d.m_methods.length
    ∧ (run qt ids o ops).m_d.m_methods.length
      = (run qt ids o ops).m_d.m_methods.countP (fun m => m.isValid)
        + (run qt ids o ops).m_d.m_methods.countP (fun m => !m.isValid)
    ∧ (updateMetaObject qt ids (run qt ids o ops)).object.d_data.getD 6 0
      = (run qt ids o ops).m_d.m_properties.length
    ∧ (updateMetaObject qt ids (run qt ids o ops)).object.d_data.getD 2 0
      = (run qt ids o ops).m_d.m_info.length := by
  refine ⟨?_, ?_, ?_, ?_⟩
  · rw [updateMetaObject_header_word qt ids _ 4 (by decide) (by decide) (by decide) (by decide)]
    simp [header]
  · have h := List.length_eq_countP_add_countP (fun m : MethodData => m.isValid)
      (run qt ids o ops).m_d.m_methods
    simpa using h
  · rw [updateMetaObject_header_word qt ids _ 6 (by decide) (by decide) (by decide) (by decide)]
    simp [header]
  · rw [updateMetaObject_header_word qt ids _ 2 (by decide) (by decide) (by decide) (by decide)]
    simp [header]

/-- C5 (the code departs from the claim): on a fresh object over a base with
five methods, `addMethod(Signal, "foo()", "")` returns 5 the first time and 4
the second time. -/
theorem C5_duplicate_returns_lower_index :
    (addMethod qtSample objSample MethodType.Signal "foo()".toList []).1 = 5
    ∧ (addMethod qtSample
        (addMethod qtSample objSample MethodType.Signal "foo()".toList []).2
        MethodType.Signal "foo()".toList []).1 = 4 := by
  decide

/-- C6 (the code departs from the claim): `addMethod(Slot, "foo( int )", "")`
twice on a fresh object leaves two entries `foo(int)`, one per call. -/
theorem C6_unnormalized_duplicate_grows :
    (addMethod qtSample objSample MethodType.Slot "foo( int )".toList []).2.m_d.m_methods
      = [⟨MethodType.Slot, "foo(int)".toList, []⟩]
    ∧ (addMethod qtSample
        (addMethod qtSample objSample MethodType.Slot "foo( int )".toList []).2
        MethodType.Slot "foo( int )".toList []).2.m_d.m_methods
      = [⟨MethodType.Slot, "foo(int)".toList, []⟩, ⟨MethodType.Slot, "foo(int)".toList, []⟩] := by
  decide

/-! ## `addMethod`: the scan and the slot that is filled -/

theorem addMethodScan_all_valid (mt : MethodType) (sig : QByteArray) (l : List MethodData)
    (counter index : Int)
    (hn : ∀ e ∈ l, ¬ (e.signature = sig ∧ e.methodType = mt))
    (hv : ∀ e ∈ l, e.isValid = true) :
    addMethodScan mt sig l counter index = Sum.inr index := by
  induction l generalizing counter index with
  | nil => rfl
  | cons x xs ih =>
    unfold addMethodScan
    rw [if_neg (hn x (List.mem_cons_self _ _))]
    simp only [hv x (List.mem_cons_self _ _), Bool.not_true, Bool.false_eq_true, ↓reduceIte]
    exact ih _ _ (fun e he => hn e (List.mem_cons_of_mem _ he))
      (fun e he => hv e (List.mem_cons_of_mem _ he))

/-- When nothing matches, the scan ends with the position of the last blank
entry. -/
theorem addMethodScan_last_blank (mt : MethodType) (sig : QByteArray) (l : List MethodData)
    (counter index : Int) (p : Nat) (b : MethodData)
    (hn : ∀ e ∈ l, ¬ (e.signature = sig ∧ e.methodType = mt))
    (hp : l[p]? = some b) (hb : b.isValid = false)
    (hlast : ∀ q e, p < q → l[q]? = some e → e.isValid = true) :
    addMethodScan mt sig l counter index = Sum.inr (counter + (p : Int)) := by
  induction l generalizing counter index p with
  | nil => simp at hp
  | cons x xs ih =>
    unfold addMethodScan
    rw [if_neg (hn x (List.mem_cons_self _ _))]
    have hn1 : ∀ e ∈ xs, ¬ (e.signature = sig ∧ e.methodType = mt) :=
      fun e he => hn e (List.mem_cons_of_mem _ he)
    cases p with
    | zero =>
      simp only [List.getElem?_cons_zero, Option.some.injEq] at hp
      subst hp
      simp only [hb, Bool.not_false, ↓reduceIte]
      rw [addMethodScan_all_valid mt sig xs _ _ hn1]
      · simp
      · intro e he
        obtain ⟨q, hq⟩ := List.getElem?_of_mem he
        exact hlast (q + 1) e (Nat.succ_pos q) (by simpa using hq)
    | succ k =>
      simp only [List.getElem?_cons_succ] at hp
      have hl : ∀ q e, k < q → xs[q]? = some e → e.isValid = true :=
        fun q e hq he => hlast (q + 1) e (by omega) (by simpa using he)
      split
      · rw [ih _ _ k hn1 hp hl]
        congr 1
        push_cast
        omega
      · rw [ih _ _ k hn1 hp hl]
        congr 1
        push_cast
        omega

/-- With nothing to match and no blank entry, `addMethod` appends and returns
the offset plus the new length. -/
theorem addMethod_appends (qt : QtMeta) (o : DynamicQMetaObject) (mt : MethodType)
    (sig ty : QByteArray)
    (hn : ∀ e ∈ o.m_d.m_methods, ¬ (e.signature = cstr sig ∧ e.methodType = mt))
    (hv : ∀ e ∈ o.m_d.m_methods, e.isValid = true) :
    (addMethod qt o mt sig ty).1 = o.m_d.m_methodOffset + ((o.m_d.m_methods.length : Int) + 1)
    ∧ (addMethod qt o mt sig ty).2.m_d.m_methods
        = o.m_d.m_methods ++ [MethodData.create qt mt sig ty] := by
  unfold addMethod
  rw [addMethodScan_all_valid mt (cstr sig) _ _ _ hn hv]
  simp

/-- With nothing to match, `addMethod` fills the last blank entry and returns
the offset plus its 1-based position. -/
theorem addMethod_fills_last_blank (qt : QtMeta) (o : DynamicQMetaObject) (mt : MethodType)
    (sig ty : QByteArray) (p : Nat) (b : MethodData)
    (hn : ∀ e ∈ o.m_d.m_methods, ¬ (e.signature = cstr sig ∧ e.methodType = mt))
    (hp : o.m_d.m_methods[p]? = some b) (hb : b.isValid = false)
    (hlast : ∀ q e, p < q → o.m_d.m_methods[q]? = some e → e.isValid = true) :
    (addMethod qt o mt sig ty).1 = o.m_d.m_methodOffset + ((p : Int) + 1)
    ∧ (addMethod qt o mt sig ty).2.m_d.m_methods
        = o.m_d.m_methods.set p (MethodData.create qt mt sig ty) := by
  unfold addMethod
  rw [addMethodScan_last_blank mt (cstr sig) _ 0 (-1) p b hn hp hb hlast]
  have h1 : (0 : Int) + (p : Int) ≠ -1 := by omega
  simp only [h1, ne_eq, not_false_eq_true, ↓reduceIte]
  simp

/-! ## The method offset is fixed at construction -/

theorem addMethod_methodOffset (qt : QtMeta) (o : DynamicQMetaObject) (mt : MethodType)
    (sig ty : QByteArray) :
    (addMethod qt o mt sig ty).2.m_d.m_methodOffset = o.m_d.m_methodOffset := by
  unfold addMethod
  split
  · rfl
  · split <;> rfl

theorem addProperty_methodOffset (qt : QtMeta) (o : DynamicQMetaObject) (name : QByteArray)
    (property : PySideProperty) :
    (addProperty qt o name property).2.m_d.m_methodOffset = o.m_d.m_methodOffset := by
  unfold addProperty
  simp only
  split
  · rfl
  · split <;> rfl

theorem update_methodOffset (qt : QtMeta) (ids : MetaTypeIds) (o : DynamicQMetaObject) :
    (update qt ids o).m_d.m_methodOffset = o.m_d.m_methodOffset := by
  unfold update
  split <;> rfl

theorem applyOp_methodOffset (qt : QtMeta) (ids : MetaTypeIds) (o : DynamicQMetaObject)
    (op : Op) : (applyOp qt ids o op).m_d.m_methodOffset = o.m_d.m_methodOffset := by
  cases op with
  | addMethod mt sig ty => exact addMethod_methodOffset qt o mt sig ty
  | removeMethod mt sig => rfl
  | addProperty name property => exact addProperty_methodOffset qt o name property
  | addInfo key value => rfl
  | addInfoMap info => rfl
  | update => exact update_methodOffset qt ids o

theorem run_methodOffset (qt : QtMeta) (ids : MetaTypeIds) (o : DynamicQMetaObject)
    (ops : List Op) : (run qt ids o ops).m_d.m_methodOffset = o.m_d.m_methodOffset := by
  unfold run
  induction ops generalizing o with
  | nil => rfl
  | cons op rest ih =>
    simp only [List.foldl_cons]
    rw [ih, applyOp_methodOffset]

/-! ## Claims on `addMethod` -/

/-- C7 (as stated, refuted): over a base with five methods, `addSignal` of
`valueChanged(int)` on the fresh object returns 5, not 6, and the following
`addSlot` of `setValue(int)` returns 6, not 7. -/
theorem C7_counterexample :
    (addSignal qtSample objSample "valueChanged(int)".toList []).1 = 5
    ∧ (addSlot qtSample (addSignal qtSample objSample "valueChanged(int)".toList []).2
        "setValue(int)".toList "void".toList).1 = 6 := by
  decide

/-- C7 (amended): for an object constructed over a base with inherited method
count `c` and brought by any operations to a method list of `n` entries, none
of them blank, `addMethod` of a (kind, signature) not yet present returns
`c + n`, the inherited count plus the 0-based position of the new entry, and
the new entry is the last one of the list. -/
theorem C7_append_returns_count_plus_position (qt : QtMeta) (ids : MetaTypeIds)
    (className : QByteArray) (c pc : Int) (ops : List Op) (mt : MethodType)
    (sig ty : QByteArray)
    (hv : ∀ e ∈ (run qt ids (DynamicQMetaObject.create className c pc) ops).m_d.m_methods,
      e.isValid = true)
    (hn : ∀ e ∈ (run qt ids (DynamicQMetaObject.create className c pc) ops).m_d.m_methods,
      ¬ (e.signature = cstr sig ∧ e.methodType = mt)) :
    (addMethod qt (run qt ids (DynamicQMetaObject.create className c pc) ops) mt sig ty).1
      = c + ((run qt ids (DynamicQMetaObject.create className c pc) ops).m_d.m_methods.length
          : Int)
    ∧ (addMethod qt (run qt ids (DynamicQMetaObject.create className c pc) ops)
          mt sig ty).2.m_d.m_methods
      = (run qt ids (DynamicQMetaObject.create className c pc) ops).m_d.m_methods
          ++ [MethodData.create qt mt sig ty] := by
  have h := addMethod_appends qt _ mt sig ty hn hv
  refine ⟨?_, h.2⟩
  rw [h.1, run_methodOffset]
  simp only [DynamicQMetaObject.create]
  omega

/-- C7, at an input: over a base with five methods, after `addSignal` of
`valueChanged(int)`, `addSlot` of `setValue(int)` returns `5 + 1` and is
appended. -/
theorem C7_append_returns_count_plus_position_witness :
    (addMethod qtSample
        (run qtSample idsSample (DynamicQMetaObject.create "Foo".toList 5 3)
          [Op.addMethod MethodType.Signal "valueChanged(int)".toList []])
        MethodType.Slot "setValue(int)".toList "void".toList).1
      = 5 + ((run qtSample idsSample (DynamicQMetaObject.create "Foo".toList 5 3)
          [Op.addMethod MethodType.Signal "valueChanged(int)".toList []]).m_d.m_methods.length
          : Int)
    ∧ (addMethod qtSample
        (run qtSample idsSample (DynamicQMetaObject.create "Foo".toList 5 3)
          [Op.addMethod MethodType.Signal "valueChanged(int)".toList []])
        MethodType.Slot "setValue(int)".toList "void".toList).2.m_d.m_methods
      = (run qtSample idsSample (DynamicQMetaObject.create "Foo".toList 5 3)
          [Op.addMethod MethodType.Signal "valueChanged(int)".toList []]).m_d.m_methods
          ++ [MethodData.create qtSample MethodType.Slot "setValue(int)".toList "void".toList] :=
  C7_append_returns_count_plus_position qtSample idsSample "Foo".toList 5 3
    [Op.addMethod MethodType.Signal "valueChanged(int)".toList []]
    MethodType.Slot "setValue(int)".toList "void".toList (by decide) (by decide)

/-- C8: in an object whose only blank (tombstoned) method entry is at position
`p`, `addMethod` of a (kind, signature) that no entry carries fills that slot:
the list keeps its length, position `p` holds the new entry, every other
position is unchanged, and the returned index is the object's method offset
plus the 1-based position `p + 1`, the index `addMethod` gave out for that
slot before. -/
theorem C8_single_tombstone_reused (qt : QtMeta) (o : DynamicQMetaObject) (mt : MethodType)
    (sig ty : QByteArray) (p : Nat) (b : MethodData)
    (hp : o.m_d.m_methods[p]? = some b) (hb : b.isValid = false)
    (hu : ∀ q e, q ≠ p → o.m_d.m_methods[q]? = some e → e.isValid = true)
    (hn : ∀ e ∈ o.m_d.m_methods, ¬ (e.signature = cstr sig ∧ e.methodType = mt)) :
    (addMethod qt o mt sig ty).2.m_d.m_methods.length = o.m_d.m_methods.length
    ∧ (addMethod qt o mt sig ty).2.m_d.m_methods[p]? = some (MethodData.create qt mt sig ty)
    ∧ (∀ q, q ≠ p → (addMethod qt o mt sig ty).2.m_d.m_methods[q]? = o.m_d.m_methods[q]?)
    ∧ (addMethod qt o mt sig ty).1 = o.m_d.m_methodOffset + ((p : Int) + 1) := by
  have h := addMethod_fills_last_blank qt o mt sig ty p b hn hp hb
    (fun q e hq he => hu q e (by omega) he)
  have hlt : p < o.m_d.m_methods.length := by
    rcases Nat.lt_or_ge p o.m_d.m_methods.length with h1 | h1
    · exact h1
    · rw [List.getElem?_eq_none h1] at hp
      cases hp
  refine ⟨?_, ?_, ?_, h.1⟩
  · rw [h.2, List.length_set]
  · rw [h.2, List.getElem?_set_self hlt]
  · intro q hq
    rw [h.2, List.getElem?_set_ne (Ne.symm hq)]

/-- C8, at an input: after `addSlot` of `a()` and `b()` and the removal of
`a()`, `addSlot` of `c()` takes position 0 and returns offset + 1. -/
theorem C8_single_tombstone_reused_witness :
    (addMethod qtSample
        (run qtSample idsSample objSample
          [Op.addMethod MethodType.Slot "a()".toList [],
           Op.addMethod MethodType.Slot "b()".toList [],
           Op.removeMethod MethodType.Slot "a()".toList])
        MethodType.Slot "c()".toList []).2.m_d.m_methods.length
      = (run qtSample idsSample objSample
          [Op.addMethod MethodType.Slot "a()".toList [],
           Op.addMethod MethodType.Slot "b()".toList [],
           Op.removeMethod MethodType.Slot "a()".toList]).m_d.m_methods.length
    ∧ (addMethod qtSample
        (run qtSample idsSample objSample
          [Op.addMethod MethodType.Slot "a()".toList [],
           Op.addMethod MethodType.Slot "b()".toList [],
           Op.removeMethod MethodType.Slot "a()".toList])
        MethodType.Slot "c()".toList []).2.m_d.m_methods[0]?
      = some (MethodData.create qtSample MethodType.Slot "c()".toList [])
    ∧ (∀ q, q ≠ 0 → (addMethod qtSample
        (run qtSample idsSample objSample
          [Op.addMethod MethodType.Slot "a()".toList [],
           Op.addMethod MethodType.Slot "b()".toList [],
           Op.removeMethod MethodType.Slot "a()".toList])
        MethodType.Slot "c()".toList []).2.m_d.m_methods[q]?
      = (run qtSample idsSample objSample
          [Op.addMethod MethodType.Slot "a()".toList [],
           Op.addMethod MethodType.Slot "b()".toList [],
           Op.removeMethod MethodType.Slot "a()".toList]).m_d.m_methods[q]?)
    ∧ (addMethod qtSample
        (run qtSample idsSample objSample
          [Op.addMethod MethodType.Slot "a()".toList [],
           Op.addMethod MethodType.Slot "b()".toList [],
           Op.removeMethod MethodType.Slot "a()".toList])
        MethodType.Slot "c()".toList []).1
      = (run qtSample idsSample objSample
          [Op.addMethod MethodType.Slot "a()".toList [],
           Op.addMethod MethodType.Slot "b()".toList [],
           Op.removeMethod MethodType.Slot "a()".toList]).m_d.m_methodOffset + ((0 : Nat) + 1) :=
  C8_single_tombstone_reused qtSample
    (run qtSample idsSample objSample
      [Op.addMethod MethodType.Slot "a()".toList [],
       Op.addMethod MethodType.Slot "b()".toList [],
       Op.removeMethod MethodType.Slot "a()".toList])
    MethodType.Slot "c()".toList [] 0 ⟨MethodType.Slot, EMPTY_META_METHOD, []⟩
    (by decide) (by decide)
    (by
      intro q e hq he
      have h2 : (run qtSample idsSample objSample
          [Op.addMethod MethodType.Slot "a()".toList [],
           Op.addMethod MethodType.Slot "b()".toList [],
           Op.removeMethod MethodType.Slot "a()".toList]).m_d.m_methods
          = [⟨MethodType.Slot, EMPTY_META_METHOD, []⟩, ⟨MethodType.Slot, "b()".toList, []⟩] := by
        decide
      rw [h2] at he
      match q, hq, he with
      | 1, _, he =>
        simp only [List.getElem?_cons_succ, List.getElem?_cons_zero, Option.some.injEq] at he
        subst he
        decide
      | q + 2, _, he => simp at he)
    (by decide)

/-- C9 (as stated, refuted): with the blank entries at positions 0 and 1 and
`c()` at position 2, `addSlot` of `d()` fills position 1 and leaves position 0
blank; it returns offset + 2 = 6, not the index 5 of the first blank slot. -/
theorem C9_counterexample :
    (run qtSample idsSample objSample
        [Op.addMethod MethodType.Slot "a()".toList [],
         Op.addMethod MethodType.Slot "b()".toList [],
         Op.addMethod MethodType.Slot "c()".toList [],
         Op.removeMethod MethodType.Slot "a()".toList,
         Op.removeMethod MethodType.Slot "b()".toList]).m_d.m_methods
      = [⟨MethodType.Slot, EMPTY_META_METHOD, []⟩, ⟨MethodType.Slot, EMPTY_META_METHOD, []⟩,
         ⟨MethodType.Slot, "c()".toList, []⟩]
    ∧ (addMethod qtSample
        (run qtSample idsSample objSample
          [Op.addMethod MethodType.Slot "a()".toList [],
           Op.addMethod MethodType.Slot "b()".toList [],
           Op.addMethod MethodType.Slot "c()".toList [],
           Op.removeMethod MethodType.Slot "a()".toList,
           Op.removeMethod MethodType.Slot "b()".toList])
        MethodType.Slot "d()".toList []).2.m_d.m_methods
      = [⟨MethodType.Slot, EMPTY_META_METHOD, []⟩, ⟨MethodType.Slot, "d()".toList, []⟩,
         ⟨MethodType.Slot, "c()".toList, []⟩]
    ∧ (addMethod qtSample
        (run qtSample idsSample objSample
          [Op.addMethod MethodType.Slot "a()".toList [],
           Op.addMethod MethodType.Slot "b()".toList [],
           Op.addMethod MethodType.Slot "c()".toList [],
           Op.removeMethod MethodType.Slot "a()".toList,
           Op.removeMethod MethodType.Slot "b()".toList])
        MethodType.Slot "d()".toList []).1 = 6 := by
  decide

/-- C9 (amended): in an object with two or more blank (tombstoned) method
entries, `addMethod` of a (kind, signature) that no entry carries places the
new entry in the last blank slot (the one with the highest position `p`) and
returns the external index of that slot, the method offset plus `p + 1`; an
earlier blank slot `p1` stays blank. -/
theorem C9_last_tombstone_reused (qt : QtMeta) (o : DynamicQMetaObject) (mt : MethodType)
    (sig ty : QByteArray) (p1 p : Nat) (b1 b : MethodData)
    (h1 : o.m_d.m_methods[p1]? = some b1) (hb1 : b1.isValid = false) (hlt : p1 < p)
    (hp : o.m_d.m_methods[p]? = some b) (hb : b.isValid = false)
    (hlast : ∀ q e, p < q → o.m_d.m_methods[q]? = some e → e.isValid = true)
    (hn : ∀ e ∈ o.m_d.m_methods, ¬ (e.signature = cstr sig ∧ e.methodType = mt)) :
    (addMethod qt o mt sig ty).2.m_d.m_methods
      = o.m_d.m_methods.set p (MethodData.create qt mt sig ty)
    ∧ ((addMethod qt o mt sig ty).2.m_d.m_methods[p1]?).map MethodData.isValid = some false
    ∧ (addMethod qt o mt sig ty).1 = o.m_d.m_methodOffset + ((p : Int) + 1) := by
  have h := addMethod_fills_last_blank qt o mt sig ty p b hn hp hb hlast
  refine ⟨h.2, ?_, h.1⟩
  rw [h.2, List.getElem?_set_ne (by omega), h1]
  simp [hb1]

/-- C9, at an input: the list `[blank, blank, c()]`, `p1 = 0` and `p = 1`. -/
theorem C9_last_tombstone_reused_witness :
    (addMethod qtSample
        (run qtSample idsSample objSample
          [Op.addMethod MethodType.Slot "a()".toList [],
           Op.addMethod MethodType.Slot "b()".toList [],
           Op.addMethod MethodType.Slot "c()".toList [],
           Op.removeMethod MethodType.Slot "a()".toList,
           Op.removeMethod MethodType.Slot "b()".toList])
        MethodType.Slot "d()".toList []).2.m_d.m_methods
      = (run qtSample idsSample objSample
          [Op.addMethod MethodType.Slot "a()".toList [],
           Op.addMethod MethodType.Slot "b()".toList [],
           Op.addMethod MethodType.Slot "c()".toList [],
           Op.removeMethod MethodType.Slot "a()".toList,
           Op.removeMethod MethodType.Slot "b()".toList]).m_d.m_methods.set 1
          (MethodData.create qtSample MethodType.Slot "d()".toList [])
    ∧ ((addMethod qtSample
        (run qtSample idsSample objSample
          [Op.addMethod MethodType.Slot "a()".toList [],
           Op.addMethod MethodType.Slot "b()".toList [],
           Op.addMethod MethodType.Slot "c()".toList [],
           Op.removeMethod MethodType.Slot "a()".toList,
           Op.removeMethod MethodType.Slot "b()".toList])
        MethodType.Slot "d()".toList []).2.m_d.m_methods[0]?).map MethodData.isValid
      = some false
    ∧ (addMethod qtSample
        (run qtSample idsSample objSample
          [Op.addMethod MethodType.Slot "a()".toList [],
           Op.addMethod MethodType.Slot "b()".toList [],
           Op.addMethod MethodType.Slot "c()".toList [],
           Op.removeMethod MethodType.Slot "a()".toList,
           Op.removeMethod MethodType.Slot "b()".toList])
        MethodType.Slot "d()".toList []).1
      = (run qtSample idsSample objSample
          [Op.addMethod MethodType.Slot "a()".toList [],
           Op.addMethod MethodType.Slot "b()".toList [],
           Op.addMethod MethodType.Slot "c()".toList [],
           Op.removeMethod MethodType.Slot "a()".toList,
           Op.removeMethod MethodType.Slot "b()".toList]).m_d.m_methodOffset
          + (((1 : Nat) : Int) + 1) :=
  C9_last_tombstone_reused qtSample
    (run qtSample idsSample objSample
      [Op.addMethod MethodType.Slot "a()".toList [],
       Op.addMethod MethodType.Slot "b()".toList [],
       Op.addMethod MethodType.Slot "c()".toList [],
       Op.removeMethod MethodType.Slot "a()".toList,
       Op.removeMethod MethodType.Slot "b()".toList])
    MethodType.Slot "d()".toList [] 0 1
    ⟨MethodType.Slot, EMPTY_META_METHOD, []⟩ ⟨MethodType.Slot, EMPTY_META_METHOD, []⟩
    (by decide) (by decide) (by decide) (by decide) (by decide)
    (by
      intro q e hq he
      have h2 : (run qtSample idsSample objSample
          [Op.addMethod MethodType.Slot "a()".toList [],
           Op.addMethod MethodType.Slot "b()".toList [],
           Op.addMethod MethodType.Slot "c()".toList [],
           Op.removeMethod MethodType.Slot "a()".toList,
           Op.removeMethod MethodType.Slot "b()".toList]).m_d.m_methods
          = [⟨MethodType.Slot, EMPTY_META_METHOD, []⟩, ⟨MethodType.Slot, EMPTY_META_METHOD, []⟩,
             ⟨MethodType.Slot, "c()".toList, []⟩] := by
        decide
      rw [h2] at he
      match q, hq, he with
      | 2, _, he =>
        simp only [List.getElem?_cons_succ, List.getElem?_cons_zero, Option.some.injEq] at he
        subst he
        decide
      | q + 3, _, he => simp at he)
    (by decide)

/-! ## `qStableSort` on a list that is already in order -/

section SortIdentity
variable {α : Type}

theorem qLowerBoundLoop_none_less (lessThan : α → α → Bool) (xs : List α) (value : α)
    (h : ∀ m ∈ xs, lessThan m value = false) (fuel start n : Nat) :
    qLowerBoundLoop lessThan xs value fuel start n = start := by
  induction fuel generalizing n with
  | zero => rfl
  | succ k ih =>
    unfold qLowerBoundLoop
    split
    · simp only
      split
      · rename_i m hm
        rw [h m (List.getElem?_mem hm)]
        simp only [Bool.false_eq_true, ↓reduceIte]
        exact ih _
      · rfl
    · rfl

theorem qUpperBoundLoop_none_greater (lessThan : α → α → Bool) (xs : List α) (value : α)
    (h : ∀ m ∈ xs, lessThan value m = false) (fuel start n : Nat)
    (hs : start + n = xs.length) (hf : n ≤ fuel) :
    qUpperBoundLoop lessThan xs value fuel start n = xs.length := by
  induction fuel generalizing start n with
  | zero =>
    unfold qUpperBoundLoop
    omega
  | succ k ih =>
    unfold qUpperBoundLoop
    split
    · simp only
      have hm : start + n / 2 < xs.length := by omega
      rw [List.getElem?_eq_getElem hm]
      simp only
      rw [h _ (List.getElem_mem _)]
      simp only [Bool.false_eq_true, ↓reduceIte]
      exact ih _ _ (by omega) (by omega)
    · omega

theorem qMerge_in_order (lessThan : α → α → Bool) (fuel : Nat) (a b : List α)
    (h : ∀ x ∈ a, ∀ y ∈ b, lessThan y x = false) :
    qMerge lessThan fuel a b = a ++ b := by
  induction fuel generalizing a b with
  | zero => rfl
  | succ n ih =>
    unfold qMerge
    simp only
    split
    · rfl
    · split
      · split
        · rename_i x y _ _
          rw [h x (List.mem_singleton_self x) y (List.mem_singleton_self y)]
          simp
        · rfl
      · split
        · split
          · rename_i firstCut hc
            have h0 : qLowerBound lessThan b firstCut = 0 :=
              qLowerBoundLoop_none_less lessThan b firstCut
                (fun m hm => h firstCut (List.getElem?_mem hc) m hm) _ _ _
            rw [h0, ih _ _ (fun x _ y hy => by simp at hy),
              ih _ _ (fun x hx y hy => h x (List.mem_of_mem_drop hx) y (by simpa using hy))]
            simp only [List.take_zero, List.append_nil, List.drop_zero]
            rw [← List.append_assoc, List.take_append_drop]
          · rfl
        · split
          · rename_i secondCut hc
            have h0 : qUpperBound lessThan a secondCut = a.length :=
              qUpperBoundLoop_none_greater lessThan a secondCut
                (fun m hm => h m hm secondCut (List.getElem?_mem hc)) _ _ _
                (by omega) (Nat.le_refl _)
            rw [h0, ih _ _ (fun x hx y hy =>
                h x (by simpa using hx) y (List.mem_of_mem_take hy)),
              ih _ _ (fun x hx y _ => by simp at hx)]
            simp only [List.take_length, List.drop_length, List.nil_append]
            rw [List.append_assoc, List.take_append_drop]
          · rfl

theorem qStableSortHelper_in_order (lessThan : α → α → Bool) (fuel : Nat) (xs : List α)
    (h : xs.Pairwise (fun x y => lessThan y x = false)) :
    qStableSortHelper lessThan fuel xs = xs := by
  induction fuel generalizing xs with
  | zero => rfl
  | succ n ih =>
    unfold qStableSortHelper
    simp only
    split
    · rfl
    · have hsplit : (xs.take (xs.length / 2) ++ xs.drop (xs.length / 2)).Pairwise
          (fun x y => lessThan y x = false) := by
        rw [List.take_append_drop]
        exact h
      rw [List.pairwise_append] at hsplit
      rw [ih _ hsplit.1, ih _ hsplit.2.1, qMerge_in_order _ _ _ _ hsplit.2.2,
        List.take_append_drop]

end SortIdentity

theorem noSlotBeforeSignal_pairwise (l : List MethodData) (h : noSlotBeforeSignal l = true) :
    l.Pairwise (fun x y => sortMethodSignalSlot y x = false) := by
  induction l with
  | nil => exact List.Pairwise.nil
  | cons a rest ih =>
    simp only [noSlotBeforeSignal, Bool.and_eq_true, List.all_eq_true, Bool.not_eq_eq_eq_not,
      Bool.not_true] at h
    exact List.Pairwise.cons h.1 (ih h.2)

/-- A list with no Slot entry in front of a Signal entry is left as it is by
the sort of `updateMetaObject`. -/
theorem stageSorted_in_order (o : DynamicQMetaObject)
    (h : noSlotBeforeSignal o.m_d.m_methods = true) : stageSorted o = o.m_d.m_methods :=
  qStableSortHelper_in_order _ _ _ (noSlotBeforeSignal_pairwise _ h)

/-! ## Operations keep valid method entries in place -/

/-- A position that the scan of `addMethod` hands back, unless it is the
initial one, is that of a blank entry. -/
theorem addMethodScan_inr_blank (mt : MethodType) (sig : QByteArray) (l : List MethodData)
    (counter index i : Int) (h : addMethodScan mt sig l counter index = Sum.inr i) :
    i = index ∨ ∃ (q : Nat) (b : MethodData),
      i = counter + (q : Int) ∧ l[q]? = some b ∧ b.isValid = false := by
  induction l generalizing counter index with
  | nil =>
    simp only [addMethodScan, Sum.inr.injEq] at h
    exact Or.inl h.symm
  | cons x xs ih =>
    unfold addMethodScan at h
    split at h
    · cases h
    · split at h
      · rename_i hx
        rcases ih _ _ h with h1 | ⟨q, b, hq, hb, hv⟩
        · refine Or.inr ⟨0, x, by simpa using h1, by simp, by simpa using hx⟩
        · exact Or.inr ⟨q + 1, b, by rw [hq]; push_cast; omega, by simpa using hb, hv⟩
      · rcases ih _ _ h with h1 | ⟨q, b, hq, hb, hv⟩
        · exact Or.inl h1
        · exact Or.inr ⟨q + 1, b, by rw [hq]; push_cast; omega, by simpa using hb, hv⟩

theorem addMethod_keeps_valid (qt : QtMeta) (o : DynamicQMetaObject) (mt : MethodType)
    (sig ty : QByteArray) (p : Nat) (e : MethodData)
    (hp : o.m_d.m_methods[p]? = some e) (hv : e.isValid = true) :
    (addMethod qt o mt sig ty).2.m_d.m_methods[p]? = some e := by
  unfold addMethod
  split
  · exact hp
  · rename_i i hi
    split
    · rename_i hne
      rcases addMethodScan_inr_blank _ _ _ _ _ _ hi with h1 | ⟨q, b, hq, hb, hbv⟩
      · exact absurd h1 hne
      · have hqp : q ≠ p := by
          intro hqp
          subst hqp
          rw [hp] at hb
          cases hb
          rw [hv] at hbv
          cases hbv
        have hi2 : i.toNat = q := by rw [hq]; simp
        simp only
        rw [hi2, List.getElem?_set_ne hqp]
        exact hp
    · simp only
      have hlt : p < o.m_d.m_methods.length := by
        rcases Nat.lt_or_ge p o.m_d.m_methods.length with h1 | h1
        · exact h1
        · rw [List.getElem?_eq_none h1] at hp
          cases hp
      rw [List.getElem?_append_left hlt]
      exact hp

theorem removeMethodLoop_keeps (mt : MethodType) (sig : QByteArray) (l : List MethodData)
    (p : Nat) (e : MethodData) (hp : l[p]? = some e)
    (hn : ¬ (e.signature = sig ∧ e.methodType = mt)) :
    (removeMethodLoop mt sig l).2[p]? = some e := by
  induction l generalizing p with
  | nil => simp at hp
  | cons x xs ih =>
    unfold removeMethodLoop
    split
    · rename_i hx
      cases p with
      | zero =>
        simp only [List.getElem?_cons_zero, Option.some.injEq] at hp
        subst hp
        exact absurd hx hn
      | succ k => simpa using hp
    · cases p with
      | zero => simpa using hp
      | succ k =>
        simp only [List.getElem?_cons_succ] at hp ⊢
        exact ih k hp

theorem addProperty_methods (qt : QtMeta) (o : DynamicQMetaObject) (name : QByteArray)
    (property : PySideProperty) :
    (addProperty qt o name property).2.m_d.m_methods = o.m_d.m_methods := by
  unfold addProperty
  simp only
  split
  · rfl
  · split <;> rfl

theorem update_methods_in_order (qt : QtMeta) (ids : MetaTypeIds) (o : DynamicQMetaObject)
    (h : (o.m_d.m_updated || noSlotBeforeSignal o.m_d.m_methods) = true) :
    (update qt ids o).m_d.m_methods = o.m_d.m_methods := by
  unfold update
  split
  · rename_i hu
    have hu2 : o.m_d.m_updated = false := by simpa using hu
    rw [hu2] at h
    simp only [Bool.false_or] at h
    rw [updateMetaObject_stages]
    exact stageSorted_in_order o h
  · rfl

theorem applyOp_keeps_valid (qt : QtMeta) (ids : MetaTypeIds) (o : DynamicQMetaObject)
    (op : Op) (p : Nat) (e : MethodData)
    (hp : o.m_d.m_methods[p]? = some e) (hv : e.isValid = true)
    (hr : removes op e = false)
    (ho : (if op = Op.update then o.m_d.m_updated || noSlotBeforeSignal o.m_d.m_methods
      else true) = true) :
    (applyOp qt ids o op).m_d.m_methods[p]? = some e := by
  cases op with
  | addMethod mt sig ty => exact addMethod_keeps_valid qt o mt sig ty p e hp hv
  | removeMethod mt sig =>
    refine removeMethodLoop_keeps mt (cstr sig) _ p e hp ?_
    intro hc
    simp [removes, hc.1, hc.2] at hr
  | addProperty name property =>
    simp only [applyOp]
    rw [addProperty_methods]
    exact hp
  | addInfo key value => exact hp
  | addInfoMap info => exact hp
  | update =>
    simp only [↓reduceIte] at ho
    simp only [applyOp]
    rw [update_methods_in_order qt ids o ho]
    exact hp

theorem run_keeps_valid (qt : QtMeta) (ids : MetaTypeIds) (o : DynamicQMetaObject)
    (ops : List Op) (p : Nat) (e : MethodData)
    (hp : o.m_d.m_methods[p]? = some e) (hv : e.isValid = true)
    (hr : ∀ op ∈ ops, removes op e = false)
    (ho : rebuildsInOrder qt ids o ops = true) :
    (run qt ids o ops).m_d.m_methods[p]? = some e := by
  induction ops generalizing o with
  | nil => exact hp
  | cons op rest ih =>
    simp only [rebuildsInOrder, Bool.and_eq_true] at ho
    exact ih (applyOp qt ids o op)
      (applyOp_keeps_valid qt ids o op p e hp hv (hr op (List.mem_cons_self _ _)) ho.1)
      (fun op2 h2 => hr op2 (List.mem_cons_of_mem _ h2)) ho.2

/-! ## The string pool only grows -/

theorem findString_some (s : QByteArray) (l : List QByteArray) (idx i : Nat)
    (h : findString s l idx = some i) :
    ∃ (k : Nat) (t : QByteArray), i = idx + k ∧ l[k]? = some t ∧ cstr t = cstr s := by
  induction l generalizing idx with
  | nil => simp [findString] at h
  | cons x xs ih =>
    unfold findString at h
    split at h
    · rename_i hx
      simp only [Option.some.injEq] at h
      exact ⟨0, x, by omega, by simp, hx⟩
    · obtain ⟨k, t, hk, ht, hc⟩ := ih _ h
      exact ⟨k + 1, t, by omega, by simpa using ht, hc⟩

/-- The function `registerString` keeps the pool as an initial part of the new
pool, and the index it returns holds a string with the C string of `s`. -/
theorem registerString_spec (s : QByteArray) (strings : List QByteArray) :
    (∃ ext, (registerString s strings).2 = strings ++ ext)
    ∧ ∃ t, (registerString s strings).2[(registerString s strings).1]? = some t
        ∧ cstr t = cstr s := by
  unfold registerString
  split
  · rename_i idx h
    obtain ⟨k, t, hk, ht, hc⟩ := findString_some s strings 0 idx h
    refine ⟨⟨[], by simp⟩, t, ?_, hc⟩
    have : idx = k := by omega
    rw [this]
    exact ht
  · exact ⟨⟨[s], rfl⟩, s, by simp, rfl⟩

theorem getElem?_of_append (l ext : List QByteArray) (i : Nat) (t : QByteArray)
    (h : l[i]? = some t) : (l ++ ext)[i]? = some t := by
  have hlt : i < l.length := by
    rcases Nat.lt_or_ge i l.length with h1 | h1
    · exact h1
    · rw [List.getElem?_eq_none h1] at h
      cases h
  rw [List.getElem?_append_left hlt]
  exact h

/-- A fold whose rounds only append to the pool only appends to the pool. -/
theorem foldl_strings {β : Type} (f : Writer → β → Writer)
    (h : ∀ w x, ∃ ext, (f w x).strings = w.strings ++ ext) (l : List β) (w : Writer) :
    ∃ ext, (l.foldl f w).strings = w.strings ++ ext := by
  induction l generalizing w with
  | nil => exact ⟨[], by simp⟩
  | cons x xs ih =>
    simp only [List.foldl_cons]
    obtain ⟨e1, h1⟩ := h w x
    obtain ⟨e2, h2⟩ := ih (f w x)
    exact ⟨e1 ++ e2, by rw [h2, h1, List.append_assoc]⟩

theorem writeTypeInfo_strings (qt : QtMeta) (w : Writer) (t : QByteArray) :
    ∃ ext, (writeTypeInfo qt w t).strings = w.strings ++ ext := by
  unfold writeTypeInfo
  split
  · exact ⟨[], by simp [Writer.put]⟩
  · exact (registerString_spec t w.strings).1

theorem writeParametersStep_strings (qt : QtMeta) (n : Nat) (w : Writer) (it : MethodData) :
    ∃ ext, (writeParametersStep qt n w it).strings = w.strings ++ ext := by
  unfold writeParametersStep
  obtain ⟨e1, h1⟩ := foldl_strings (writeTypeInfo qt) (writeTypeInfo_strings qt)
    (it.returnType :: it.parameterTypes) w
  obtain ⟨e2, h2⟩ := foldl_strings (fun v (_ : QByteArray) => v.put n)
    (fun w _ => ⟨[], by simp [Writer.put]⟩) it.parameterTypes
    ((it.returnType :: it.parameterTypes).foldl (writeTypeInfo qt) w)
  exact ⟨e1 ++ e2, by rw [h2, h1, List.append_assoc]⟩

/-! ## The words of one method record -/

theorem getD_set (l : List Nat) (i j v : Nat) :
    (l.set i v).getD j 0 = if i = j ∧ i < l.length then v else l.getD j 0 := by
  by_cases h : i = j
  · subst h
    by_cases hl : i < l.length
    · simp [hl, List.getD_eq_getElem?_getD]
    · rw [List.set_eq_of_length_le (Nat.le_of_not_lt hl)]
      simp [hl]
  · simp [h, List.getD_eq_getElem?_getD, List.getElem?_set_ne h]

/-- The round `writeMethodStep` stores the parameter count in the second word
and the flags in the fifth word of the record at the cursor; for an entry
other than the blank one the first word indexes a pool string with the C
string of its name; the pool only grows. -/
theorem writeMethodStep_record (e n f : Nat) (st : MethodsLoop) (it : MethodData)
    (hlen : st.w.index + 5 ≤ st.w.data.length) (h13 : 13 < st.w.index) :
    (writeMethodStep e n f st it).w.data.getD (st.w.index + 1) 0 = it.parameterCount
    ∧ (writeMethodStep e n f st it).w.data.getD (st.w.index + 4) 0
        = (f ||| (if it.methodType = MethodType.Signal then MethodSignal else MethodSlot))
    ∧ ((it.signature != EMPTY_META_METHOD) = true →
        ∃ t, (writeMethodStep e n f st it).w.strings[
            (writeMethodStep e n f st it).w.data.getD st.w.index 0]? = some t
          ∧ cstr t = cstr it.name)
    ∧ ∃ ext, (writeMethodStep e n f st it).w.strings = st.w.strings ++ ext := by
  have a1 : ¬ (13 = st.w.index) := by omega
  have a2 : ¬ (13 = st.w.index + 1) := by omega
  have a3 : ¬ (13 = st.w.index + 4) := by omega
  have b1 : st.w.index < st.w.data.length := by omega
  have b2 : st.w.index + 1 < st.w.data.length := by omega
  have b3 : st.w.index + 4 < st.w.data.length := by omega
  have c1 : ¬ (st.w.index + 1 + 1 = st.w.index) := by omega
  have c2 : ¬ (st.w.index + 1 + 1 + 1 = st.w.index) := by omega
  have c3 : ¬ (st.w.index + 1 + 1 + 1 + 1 = st.w.index) := by omega
  have hr := registerString_spec it.name st.w.strings
  unfold writeMethodStep
  by_cases h1 : (it.signature != EMPTY_META_METHOD) = true <;>
    by_cases h2 : it.methodType = MethodType.Signal
  all_goals
    simp only [h1, h2, ↓reduceIte, Writer.put, Writer.putString, getD_set, List.length_set,
      a1, a2, a3, b1, b2, b3, c1, c2, c3, false_and, true_and, and_self, and_true,
      Nat.add_right_cancel_iff, Nat.succ_ne_self, Nat.add_eq_left, Nat.reduceEqDiff,
      OfNat.ofNat_ne_zero, OfNat.ofNat_ne_one, self_eq_add_right, add_right_eq_self,
      one_ne_zero, not_false_eq_true, imp_self, forall_true_left, if_false, if_true,
      IsEmpty.forall_iff, Bool.false_eq_true]
  · exact ⟨hr.2, hr.1⟩
  · exact ⟨hr.2, hr.1⟩
  · exact ⟨[], by simp⟩
  · exact ⟨[], by simp⟩

theorem writeMethodStep_strings (e n f : Nat) (st : MethodsLoop) (it : MethodData) :
    ∃ ext, (writeMethodStep e n f st it).w.strings = st.w.strings ++ ext := by
  have hr := registerString_spec it.name st.w.strings
  unfold writeMethodStep
  by_cases h1 : (it.signature != EMPTY_META_METHOD) = true <;>
    by_cases h2 : it.methodType = MethodType.Signal
  all_goals simp only [h1, h2, ↓reduceIte, Writer.put, Writer.putString, Bool.false_eq_true]
  · exact hr.1
  · exact hr.1
  · exact ⟨[], by simp⟩
  · exact ⟨[], by simp⟩

theorem foldl_writeMethodStep_strings (e n f : Nat) (l : List MethodData) (st : MethodsLoop) :
    ∃ ext, (l.foldl (writeMethodStep e n f) st).w.strings = st.w.strings ++ ext := by
  induction l generalizing st with
  | nil => exact ⟨[], by simp⟩
  | cons x xs ih =>
    simp only [List.foldl_cons]
    obtain ⟨e1, h1⟩ := writeMethodStep_strings e n f st x
    obtain ⟨e2, h2⟩ := ih (writeMethodStep e n f st x)
    exact ⟨e1 ++ e2, by rw [h2, h1, List.append_assoc]⟩

/-- After the loop of `writeMethodsData`, the record of the entry at position
`p` of the list carries its parameter count, its flags and, unless the entry
is the blank one, the index of a pool string with the C string of its name. -/
theorem foldl_writeMethodStep_record (e n f : Nat) (l : List MethodData) (st : MethodsLoop)
    (p : Nat) (it : MethodData) (hp : l[p]? = some it)
    (hlen : st.w.index + 5 * l.length ≤ st.w.data.length) (h13 : 13 < st.w.index) :
    (l.foldl (writeMethodStep e n f) st).w.data.getD (st.w.index + 5 * p + 1) 0
        = it.parameterCount
    ∧ (l.foldl (writeMethodStep e n f) st).w.data.getD (st.w.index + 5 * p + 4) 0
        = (f ||| (if it.methodType = MethodType.Signal then MethodSignal else MethodSlot))
    ∧ ((it.signature != EMPTY_META_METHOD) = true →
        ∃ t, (l.foldl (writeMethodStep e n f) st).w.strings[
            (l.foldl (writeMethodStep e n f) st).w.data.getD (st.w.index + 5 * p) 0]? = some t
          ∧ cstr t = cstr it.name) := by
  induction l generalizing st p with
  | nil => simp at hp
  | cons x xs ih =>
    simp only [List.length_cons] at hlen
    simp only [List.foldl_cons]
    have hi := writeMethodStep_index e n f st x
    have hl := writeMethodStep_length e n f st x
    cases p with
    | zero =>
      simp only [List.getElem?_cons_zero, Option.some.injEq] at hp
      subst hp
      obtain ⟨r1, r2, r3, _⟩ := writeMethodStep_record e n f st x (by omega) h13
      have keep : ∀ j, j < st.w.index + 5 → j ≠ 13 →
          (xs.foldl (writeMethodStep e n f) (writeMethodStep e n f st x)).w.data.getD j 0
            = (writeMethodStep e n f st x).w.data.getD j 0 := by
        intro j hj hj13
        rw [foldl_writeMethodStep_getD e n f xs _ j (by omega) (by omega)]
        simp [hj13]
      obtain ⟨ext, hext⟩ := foldl_writeMethodStep_strings e n f xs (writeMethodStep e n f st x)
      refine ⟨?_, ?_, ?_⟩
      · rw [keep _ (by omega) (by omega)]
        exact r1
      · rw [keep _ (by omega) (by omega)]
        exact r2
      · intro hnamed
        obtain ⟨t, ht, hc⟩ := r3 hnamed
        refine ⟨t, ?_, hc⟩
        rw [keep _ (by omega) (by omega), hext]
        exact getElem?_of_append _ _ _ _ ht
    | succ k =>
      simp only [List.getElem?_cons_succ] at hp
      have h := ih (writeMethodStep e n f st x) k hp (by omega) (by omega)
      rw [hi] at h
      have e0 : st.w.index + 5 * (k + 1) = st.w.index + 5 + 5 * k := by omega
      rw [e0]
      exact h

/-! ## The method records of a rebuilt table -/

theorem stageProperties_getD_five (qt : QtMeta) (ids : MetaTypeIds) (o : DynamicQMetaObject) :
    (stageProperties qt ids o).data.getD 5 0 = 0 := by
  rw [stageProperties_getD qt ids o 5 (by decide) (by decide),
    stageInfo_getD o 5 (by decide) (by decide), stageStart_getD o 5 (by decide)]
  rfl

theorem stageProperties_room (qt : QtMeta) (ids : MetaTypeIds) (o : DynamicQMetaObject) :
    (stageProperties qt ids o).index + 5 * (stageSorted o).length
      ≤ (stageProperties qt ids o).data.length := by
  rw [stageProperties_index, stageProperties_length, stageSorted_length, dataSize]
  omega

/-- The writer after the method section, for a non-empty method list: the
method offset word is the cursor at which the section began, and the record
at position `p` describes the entry at position `p` of the sorted list. -/
theorem stageMethods_record (qt : QtMeta) (ids : MetaTypeIds) (o : DynamicQMetaObject)
    (p : Nat) (it : MethodData) (hp : (stageSorted o)[p]? = some it) :
    (stageMethods qt ids o).1.data.getD 5 0 = (stageProperties qt ids o).index
    ∧ (stageMethods qt ids o).1.data.getD ((stageProperties qt ids o).index + 5 * p + 1) 0
        = it.parameterCount
    ∧ (stageMethods qt ids o).1.data.getD ((stageProperties qt ids o).index + 5 * p + 4) 0
        = (AccessPublic |||
            (if it.methodType = MethodType.Signal then MethodSignal else MethodSlot))
    ∧ ((it.signature != EMPTY_META_METHOD) = true →
        ∃ t, (stageMethods qt ids o).1.strings[
            (stageMethods qt ids o).1.data.getD ((stageProperties qt ids o).index + 5 * p) 0]?
              = some t
          ∧ cstr t = cstr it.name) := by
  have hne : (stageSorted o).length ≠ 0 := by
    intro h0
    rw [List.length_eq_zero.mp h0] at hp
    simp at hp
  have hroom := stageProperties_room qt ids o
  have hidx := stageProperties_index qt ids o
  have h14 : 13 < (stageProperties qt ids o).index := by
    rw [hidx]
    unfold HEADER_LENGHT
    omega
  have hlen5 : 5 < (stageProperties qt ids o).data.length := by omega
  unfold stageMethods
  rw [if_pos hne, if_pos (stageProperties_getD_five qt ids o)]
  refine ⟨?_, ?_⟩
  · rw [writeMethodsData_getD _ _ _ _ _ 5 (by simp only; omega)
      (by simp only [List.length_set]; omega)]
    rw [if_neg (by decide), Nat.add_zero]
    exact set_getD_self _ _ _ hlen5
  · unfold writeMethodsData
    simp only
    have h := foldl_writeMethodStep_record
      (if o.m_d.m_emptyMethod = -1
        then ((registerString EMPTY_META_METHOD (stageProperties qt ids o).strings).1 : Int)
        else o.m_d.m_emptyMethod).toNat (stageNullIndex o) AccessPublic (stageSorted o)
      { w := if o.m_d.m_emptyMethod = -1
          then { data := (stageProperties qt ids o).data.set 5 (stageProperties qt ids o).index
                 index := (stageProperties qt ids o).index
                 strings := (registerString EMPTY_META_METHOD
                   (stageProperties qt ids o).strings).2 }
          else { data := (stageProperties qt ids o).data.set 5 (stageProperties qt ids o).index
                 index := (stageProperties qt ids o).index
                 strings := (stageProperties qt ids o).strings }
        paramsIndex := (stageProperties qt ids o).index + (stageSorted o).length * 5 }
      p it hp
    by_cases hem : o.m_d.m_emptyMethod = -1
    · simp only [hem, ↓reduceIte] at h ⊢
      exact h (by simp only [List.length_set]; omega) h14
    · simp only [hem, ↓reduceIte] at h ⊢
      exact h (by simp only [List.length_set]; omega) h14

theorem stageParameters_getD_below (qt : QtMeta) (ids : MetaTypeIds)
    (o : DynamicQMetaObject) (j : Nat) (h : j < (stageMethods qt ids o).1.index) :
    (stageParameters qt ids o).data.getD j 0 = (stageMethods qt ids o).1.data.getD j 0 := by
  unfold stageParameters
  split
  · exact foldl_getD (writeParametersStep qt (stageNullIndex o)) j
      (fun w x => by rw [writeParametersStep_index]; omega)
      (fun w x hw => writeParametersStep_getD qt _ w x j hw) _ _ h
  · rfl

theorem stageParameters_strings (qt : QtMeta) (ids : MetaTypeIds) (o : DynamicQMetaObject) :
    ∃ ext, (stageParameters qt ids o).strings = (stageMethods qt ids o).1.strings ++ ext := by
  unfold stageParameters
  split
  · exact foldl_strings _ (writeParametersStep_strings qt (stageNullIndex o)) _ _
  · exact ⟨[], by simp⟩

/-- In the rebuilt table the record at position `p` of the method section
describes the entry at position `p` of the sorted method list, for every
entry other than the blank one. -/
theorem updateMetaObject_method_record (qt : QtMeta) (ids : MetaTypeIds)
    (o : DynamicQMetaObject) (p : Nat) (it : MethodData)
    (hp : (stageSorted o)[p]? = some it) (hv : it.isValid = true) :
    methodRecordMatches (updateMetaObject qt ids o).object.d_data
      (updateMetaObject qt ids o).object.d_strings p it = true := by
  obtain ⟨r5, r1, r4, r0⟩ := stageMethods_record qt ids o p it hp
  obtain ⟨t, ht, hc⟩ := r0 hv
  obtain ⟨ext, hext⟩ := stageParameters_strings qt ids o
  have hplt : p < (stageSorted o).length := by
    rcases Nat.lt_or_ge p (stageSorted o).length with h1 | h1
    · exact h1
    · rw [List.getElem?_eq_none h1] at hp
      cases hp
  rw [stageSorted_length] at hplt
  have hmi := stageMethods_index qt ids o
  have hpi := stageProperties_index qt ids o
  have hsi := stageParameters_index qt ids o
  have keep : ∀ j, j < (stageMethods qt ids o).1.index →
      ((stageParameters qt ids o).put 0).data.getD j 0
        = (stageMethods qt ids o).1.data.getD j 0 := by
    intro j hj
    rw [put_getD _ _ _ (by rw [hsi]; rw [hmi] at hj; omega),
      stageParameters_getD_below qt ids o j hj]
  have k5 := keep 5 (by rw [hmi]; unfold HEADER_LENGHT; omega)
  have k0 := keep ((stageProperties qt ids o).index + 5 * p) (by rw [hmi, hpi]; omega)
  have k1 := keep ((stageProperties qt ids o).index + 5 * p + 1) (by rw [hmi, hpi]; omega)
  have k4 := keep ((stageProperties qt ids o).index + 5 * p + 4) (by rw [hmi, hpi]; omega)
  rw [updateMetaObject_stages]
  unfold methodRecordMatches
  simp only
  rw [k5, r5, k0, k1, k4, r1, r4]
  have hs : ((stageParameters qt ids o).put 0).strings
      = (stageMethods qt ids o).1.strings ++ ext := hext
  rw [hs, getElem?_of_append _ ext _ t ht]
  simp [hc]

/-! ## Claim on the stability of positions -/

/-- C10 (the code departs from the claim): `addSlot` of `a()` puts the entry at
position 0 and returns 5; after `addSignal` of `b()` and `update`, the in-place
sort has moved the entries: position 0 of the list holds `b()`, the entry `a()`
sits at position 1, and the record serialized at position 0 is not that of
`a()`. -/
theorem C10_sort_moves_issued_index :
    (addMethod qtSample objSample MethodType.Slot "a()".toList []).1 = 5
    ∧ (addMethod qtSample objSample MethodType.Slot "a()".toList []).2.m_d.m_methods[0]?
        = some ⟨MethodType.Slot, "a()".toList, []⟩
    ∧ (run qtSample idsSample objSample
        [Op.addMethod MethodType.Slot "a()".toList [],
         Op.addMethod MethodType.Signal "b()".toList [],
         Op.update]).m_d.m_methods
        = [⟨MethodType.Signal, "b()".toList, []⟩, ⟨MethodType.Slot, "a()".toList, []⟩]
    ∧ methodRecordMatches
        (run qtSample idsSample objSample
          [Op.addMethod MethodType.Slot "a()".toList [],
           Op.addMethod MethodType.Signal "b()".toList [],
           Op.update]).d_data
        (run qtSample idsSample objSample
          [Op.addMethod MethodType.Slot "a()".toList [],
           Op.addMethod MethodType.Signal "b()".toList [],
           Op.update]).d_strings
        0 ⟨MethodType.Slot, "a()".toList, []⟩ = false := by
  decide

/-- Registration and removal alone move no entry: along every sequence of
`addMethod`, `removeMethod`, `addProperty`, `addInfo` and `update` operations
in which no rebuild finds a Slot entry in front of a Signal entry, a valid
method entry that no `removeMethod` of the sequence names stays at its position
`p`; and a rebuild of the resulting object, when its list again has no Slot
entry in front of a Signal entry, keeps the entry at `p` and serializes at
position `p` of the method section the record of that entry (name, parameter
count, kind flag).  The sort of the rebuild is the one step that moves
entries. -/
theorem entries_keep_position_in_order (qt : QtMeta) (ids : MetaTypeIds) (o : DynamicQMetaObject)
    (ops : List Op) (p : Nat) (e : MethodData)
    (hp : o.m_d.m_methods[p]? = some e) (hv : e.isValid = true)
    (hr : ∀ op ∈ ops, removes op e = false)
    (ho : rebuildsInOrder qt ids o ops = true) :
    (run qt ids o ops).m_d.m_methods[p]? = some e
    ∧ (noSlotBeforeSignal (run qt ids o ops).m_d.m_methods = true →
        (updateMetaObject qt ids (run qt ids o ops)).object.m_d.m_methods[p]? = some e
        ∧ methodRecordMatches (updateMetaObject qt ids (run qt ids o ops)).object.d_data
            (updateMetaObject qt ids (run qt ids o ops)).object.d_strings p e = true) := by
  have h1 := run_keeps_valid qt ids o ops p e hp hv hr ho
  refine ⟨h1, fun hord => ?_⟩
  have hs := stageSorted_in_order (run qt ids o ops) hord
  have h2 : (stageSorted (run qt ids o ops))[p]? = some e := by rw [hs]; exact h1
  exact ⟨h2, updateMetaObject_method_record qt ids _ p e h2 hv⟩

/-- An input at which every rebuild finds the list in order: the signal `b()`
at position 0, then `addSlot` of `a()`, `update`, `addSlot` of `c()` and the
removal of `a()`; the final list has no Slot entry in front of a Signal
entry. -/
theorem entries_keep_position_in_order_sample :
    (run qtSample idsSample (addMethod qtSample objSample MethodType.Signal "b()".toList []).2
        [Op.addMethod MethodType.Slot "a()".toList [], Op.update,
         Op.addMethod MethodType.Slot "c()".toList [],
         Op.removeMethod MethodType.Slot "a()".toList]).m_d.m_methods[0]?
      = some ⟨MethodType.Signal, "b()".toList, []⟩
    ∧ (updateMetaObject qtSample idsSample
        (run qtSample idsSample
          (addMethod qtSample objSample MethodType.Signal "b()".toList []).2
          [Op.addMethod MethodType.Slot "a()".toList [], Op.update,
           Op.addMethod MethodType.Slot "c()".toList [],
           Op.removeMethod MethodType.Slot "a()".toList])).object.m_d.m_methods[0]?
        = some ⟨MethodType.Signal, "b()".toList, []⟩
    ∧ methodRecordMatches
        (updateMetaObject qtSample idsSample
          (run qtSample idsSample
            (addMethod qtSample objSample MethodType.Signal "b()".toList []).2
            [Op.addMethod MethodType.Slot "a()".toList [], Op.update,
             Op.addMethod MethodType.Slot "c()".toList [],
             Op.removeMethod MethodType.Slot "a()".toList])).object.d_data
        (updateMetaObject qtSample idsSample
          (run qtSample idsSample
            (addMethod qtSample objSample MethodType.Signal "b()".toList []).2
            [Op.addMethod MethodType.Slot "a()".toList [], Op.update,
             Op.addMethod MethodType.Slot "c()".toList [],
             Op.removeMethod MethodType.Slot "a()".toList])).object.d_strings
        0 ⟨MethodType.Signal, "b()".toList, []⟩ = true :=
  ⟨(entries_keep_position_in_order qtSample idsSample
      (addMethod qtSample objSample MethodType.Signal "b()".toList []).2
      [Op.addMethod MethodType.Slot "a()".toList [], Op.update,
       Op.addMethod MethodType.Slot "c()".toList [],
       Op.removeMethod MethodType.Slot "a()".toList]
      0 ⟨MethodType.Signal, "b()".toList, []⟩
      (by decide) (by decide) (by decide) (by decide)).1,
    (entries_keep_position_in_order qtSample idsSample
      (addMethod qtSample objSample MethodType.Signal "b()".toList []).2
      [Op.addMethod MethodType.Slot "a()".toList [], Op.update,
       Op.addMethod MethodType.Slot "c()".toList [],
       Op.removeMethod MethodType.Slot "a()".toList]
      0 ⟨MethodType.Signal, "b()".toList, []⟩
      (by decide) (by decide) (by decide) (by decide)).2 (by decide)⟩

/-! ## The recursion bounds are enough -/

section Fuel
variable {α : Type}

theorem qLowerBoundLoop_fuel (lessThan : α → α → Bool) (xs : List α) (value : α)
    (f1 f2 start n : Nat) (h1 : n ≤ f1) (h2 : n ≤ f2) :
    qLowerBoundLoop lessThan xs value f1 start n
      = qLowerBoundLoop lessThan xs value f2 start n := by
  induction f1 generalizing f2 start n with
  | zero =>
    have hn : n = 0 := by omega
    subst hn
    cases f2 with
    | zero => rfl
    | succ m => simp [qLowerBoundLoop]
  | succ k ih =>
    cases f2 with
    | zero =>
      have hn : n = 0 := by omega
      subst hn
      simp [qLowerBoundLoop]
    | succ m =>
      unfold qLowerBoundLoop
      split
      · simp only
        split
        · split
          · exact ih _ _ _ (by omega) (by omega)
          · exact ih _ _ _ (by omega) (by omega)
        · rfl
      · rfl

theorem qUpperBoundLoop_fuel (lessThan : α → α → Bool) (xs : List α) (value : α)
    (f1 f2 start n : Nat) (h1 : n ≤ f1) (h2 : n ≤ f2) :
    qUpperBoundLoop lessThan xs value f1 start n
      = qUpperBoundLoop lessThan xs value f2 start n := by
  induction f1 generalizing f2 start n with
  | zero =>
    have hn : n = 0 := by omega
    subst hn
    cases f2 with
    | zero => rfl
    | succ m => simp [qUpperBoundLoop]
  | succ k ih =>
    cases f2 with
    | zero =>
      have hn : n = 0 := by omega
      subst hn
      simp [qUpperBoundLoop]
    | succ m =>
      unfold qUpperBoundLoop
      split
      · simp only
        split
        · split
          · exact ih _ _ _ (by omega) (by omega)
          · exact ih _ _ _ (by omega) (by omega)
        · rfl
      · rfl

theorem qMerge_fuel (lessThan : α → α → Bool) (f1 f2 : Nat) (a b : List α)
    (h1 : a.length + b.length ≤ f1) (h2 : a.length + b.length ≤ f2) :
    qMerge lessThan f1 a b = qMerge lessThan f2 a b := by
  induction f1 generalizing f2 a b with
  | zero =>
    have ha : a = [] := List.length_eq_zero.mp (by omega)
    have hb : b = [] := List.length_eq_zero.mp (by omega)
    subst ha hb
    cases f2 with
    | zero => rfl
    | succ m => simp [qMerge]
  | succ k ih =>
    cases f2 with
    | zero =>
      have ha : a = [] := List.length_eq_zero.mp (by omega)
      have hb : b = [] := List.length_eq_zero.mp (by omega)
      subst ha hb
      simp [qMerge]
    | succ m =>
      unfold qMerge
      simp only
      split
      · rfl
      · rename_i hz
        split
        · rfl
        · split
          · split
            · rw [ih m _ _ (by simp only [List.length_take]; omega)
                  (by simp only [List.length_take]; omega),
                ih m _ _ (by simp only [List.length_drop]; omega)
                  (by simp only [List.length_drop]; omega)]
            · rfl
          · split
            · rw [ih m _ _ (by simp only [List.length_take]; omega)
                  (by simp only [List.length_take]; omega),
                ih m _ _ (by simp only [List.length_drop]; omega)
                  (by simp only [List.length_drop]; omega)]
            · rfl

theorem qStableSortHelper_length (lessThan : α → α → Bool) (fuel : Nat) (xs : List α) :
    (qStableSortHelper lessThan fuel xs).length = xs.length :=
  (qStableSortHelper_perm lessThan fuel xs).length_eq

theorem qStableSortHelper_fuel (lessThan : α → α → Bool) (f1 f2 : Nat) (xs : List α)
    (h1 : xs.length ≤ f1) (h2 : xs.length ≤ f2) :
    qStableSortHelper lessThan f1 xs = qStableSortHelper lessThan f2 xs := by
  induction f1 generalizing f2 xs with
  | zero =>
    have hx : xs = [] := List.length_eq_zero.mp (by omega)
    subst hx
    cases f2 with
    | zero => rfl
    | succ m => simp [qStableSortHelper]
  | succ k ih =>
    cases f2 with
    | zero =>
      have hx : xs = [] := List.length_eq_zero.mp (by omega)
      subst hx
      simp [qStableSortHelper]
    | succ m =>
      unfold qStableSortHelper
      simp only
      split
      · rfl
      · rw [ih m (xs.take (xs.length / 2)) (by simp only [List.length_take]; omega)
            (by simp only [List.length_take]; omega),
          ih m (xs.drop (xs.length / 2)) (by simp only [List.length_drop]; omega)
            (by simp only [List.length_drop]; omega)]

end Fuel

theorem scanParameter_rest_length (level : Int) (s : List Char) :
    (MethodData.scanParameter level s).2.length ≤ s.length := by
  induction s generalizing level with
  | nil => simp [MethodData.scanParameter]
  | cons c rest ih =>
    unfold MethodData.scanParameter
    split
    · simp only [List.length_cons]
      have := ih (if c = '<' then level + 1 else if c = '>' then level - 1 else level)
      omega
    · simp

theorem parameterLoop_fuel (f1 f2 : Nat) (s : List Char) (h1 : s.length ≤ f1)
    (h2 : s.length ≤ f2) :
    MethodData.parameterLoop f1 s = MethodData.parameterLoop f2 s := by
  induction f1 generalizing f2 s with
  | zero =>
    have hs : s = [] := List.length_eq_zero.mp (by omega)
    subst hs
    cases f2 with
    | zero => rfl
    | succ m => simp [MethodData.parameterLoop]
  | succ k ih =>
    cases f2 with
    | zero =>
      have hs : s = [] := List.length_eq_zero.mp (by omega)
      subst hs
      simp [MethodData.parameterLoop]
    | succ m =>
      unfold MethodData.parameterLoop
      split
      · rfl
      · rename_i c next
        simp only [List.length_cons] at h1 h2
        split
        · rfl
        · split
          · rfl
          · have hr := scanParameter_rest_length 0 next
            simp only
            rw [ih m _ (by omega) (by omega)]

/-! ## Claims on class info, repeated rebuilds and the string pool -/

/-- C13 (the code departs from the claim): on an object whose table is up to
date, `addInfo("k", "v")` leaves `m_updated` set, so the next `update` does not
rebuild and the class-info count word stays 0 with one pair registered; the
map form of `addInfo` clears `m_updated` and the next `update` writes the
pair. -/
theorem C13_single_pair_not_marked_dirty :
    (run qtSample idsSample objSample
        [Op.update, Op.addInfo "k".toList "v".toList]).m_d.m_updated = true
    ∧ (run qtSample idsSample objSample
        [Op.update, Op.addInfo "k".toList "v".toList, Op.update]).m_d.m_info
        = [("k".toList, "v".toList)]
    ∧ (run qtSample idsSample objSample
        [Op.update, Op.addInfo "k".toList "v".toList, Op.update]).d_data.getD 2 0 = 0
    ∧ (run qtSample idsSample objSample
        [Op.update, Op.addInfoMap [("k".toList, "v".toList)]]).m_d.m_updated = false
    ∧ (run qtSample idsSample objSample
        [Op.update, Op.addInfoMap [("k".toList, "v".toList)], Op.update]).d_data.getD 2 0
        = 1 := by
  decide

/-- C14 (the code departs from the claim): with the one slot `m()` registered,
the first rebuild interns `0()` and gives `m` the string index 3; a second
rebuild of the unchanged registry finds `m_emptyMethod` set, does not intern
`0()`, and gives `m` the string index 2: the tables and the pools differ. -/
theorem C14_second_rebuild_differs :
    (updateMetaObject qtSample idsSample
        (run qtSample idsSample objSample
          [Op.addMethod MethodType.Slot "m()".toList []])).object.d_strings
      = ["Foo".toList, [], "0()".toList, "m".toList]
    ∧ (updateMetaObject qtSample idsSample
        (updateMetaObject qtSample idsSample
          (run qtSample idsSample objSample
            [Op.addMethod MethodType.Slot "m()".toList []])).object).object.d_strings
      = ["Foo".toList, [], "m".toList]
    ∧ (updateMetaObject qtSample idsSample
        (run qtSample idsSample objSample
          [Op.addMethod MethodType.Slot "m()".toList []])).object.d_data.getD 14 0 = 3
    ∧ (updateMetaObject qtSample idsSample
        (updateMetaObject qtSample idsSample
          (run qtSample idsSample objSample
            [Op.addMethod MethodType.Slot "m()".toList []])).object).object.d_data.getD 14 0
      = 2
    ∧ (updateMetaObject qtSample idsSample
        (updateMetaObject qtSample idsSample
          (run qtSample idsSample objSample
            [Op.addMethod MethodType.Slot "m()".toList []])).object).object.m_d.m_methods
      = (updateMetaObject qtSample idsSample
        (run qtSample idsSample objSample
          [Op.addMethod MethodType.Slot "m()".toList []])).object.m_d.m_methods := by
  decide

theorem findString_none_append (s : QByteArray) (l : List QByteArray) (idx : Nat)
    (h : findString s l idx = none) :
    findString s (l ++ [s]) idx = some (idx + l.length) := by
  induction l generalizing idx with
  | nil => simp [findString]
  | cons x xs ih =>
    unfold findString at h
    split at h
    · cases h
    · rename_i hx
      simp only [List.cons_append, findString, hx, ↓reduceIte, List.length_cons]
      have h2 := ih _ h
      rw [show xs.append [s] = xs ++ [s] from rfl, h2]
      congr 1
      omega

theorem findString_none_iff (s : QByteArray) (l : List QByteArray) (idx : Nat) :
    findString s l idx = none ↔ ∀ e ∈ l, cstr e ≠ cstr s := by
  induction l generalizing idx with
  | nil => simp [findString]
  | cons x xs ih =>
    unfold findString
    split
    · rename_i hx
      simp [hx]
    · rename_i hx
      rw [ih]
      simp [hx]

/-- The scan of `registerString` stops at the first pool entry with the C
string of `s`. -/
theorem findString_first (s : QByteArray) (l : List QByteArray) (idx i : Nat)
    (h : findString s l idx = some i) :
    idx ≤ i ∧ i - idx < l.length
      ∧ ∀ j e, j < i - idx → l[j]? = some e → cstr e ≠ cstr s := by
  induction l generalizing idx with
  | nil => simp [findString] at h
  | cons x xs ih =>
    unfold findString at h
    split at h
    · simp only [Option.some.injEq] at h
      subst h
      simp
    · rename_i hx
      obtain ⟨h1, h2, h3⟩ := ih _ h
      refine ⟨by omega, by simp only [List.length_cons]; omega, ?_⟩
      intro j e hj he
      cases j with
      | zero =>
        simp only [List.getElem?_cons_zero, Option.some.injEq] at he
        subst he
        exact hx
      | succ k =>
        simp only [List.getElem?_cons_succ] at he
        exact h3 k e (by omega) he

/-- C17: interning a byte string twice in a row with `registerString` returns
the same index both times, and the second call leaves the pool as the first
call left it. -/
theorem C17_intern_twice (s : QByteArray) (strings : List QByteArray) :
    (registerString s (registerString s strings).2).1 = (registerString s strings).1
    ∧ (registerString s (registerString s strings).2).2 = (registerString s strings).2 := by
  cases h : findString s strings 0 with
  | some idx => simp [registerString, h]
  | none =>
    have h2 := findString_none_append s strings 0 h
    simp [registerString, h, h2]

set_option maxRecDepth 8000 in
/-- C18 (the code departs from the claim): the lookup of `registerString`
compares C strings while the pool is serialized with full byte lengths.  With
`a` in the pool, `registerString` of the three bytes `a`, NUL, `b` returns
index 0 and appends nothing, and entry 0 is `a`; with the three bytes in the
pool, `registerString` of `a` returns their index.  Through the operations:
after `addInfo` of a map with the key `a`, NUL, `b` and `addSlot` of `a()`, the
rebuild gives the method, whose name is `a`, the name index 3, pool entry 3 is
the three-byte key, and descriptor 3 of the string blob has length 3. -/
theorem C18_lookup_by_c_string_aliases :
    registerString ['a', NUL, 'b'] [['a']] = (0, [['a']])
    ∧ [['a']][(registerString ['a', NUL, 'b'] [['a']]).1]? ≠ some ['a', NUL, 'b']
    ∧ registerString ['a'] [['a', NUL, 'b']] = (0, [['a', NUL, 'b']])
    ∧ (run qtSample idsSample objSample
        [Op.addInfoMap [(['a', NUL, 'b'], "v".toList)],
         Op.addMethod MethodType.Slot "a()".toList [],
         Op.update]).m_d.m_methods.map MethodData.name = [['a']]
    ∧ (run qtSample idsSample objSample
        [Op.addInfoMap [(['a', NUL, 'b'], "v".toList)],
         Op.addMethod MethodType.Slot "a()".toList [],
         Op.update]).d_strings
        = ["Foo".toList, [], "v".toList, ['a', NUL, 'b'], "0()".toList]
    ∧ (run qtSample idsSample objSample
        [Op.addInfoMap [(['a', NUL, 'b'], "v".toList)],
         Op.addMethod MethodType.Slot "a()".toList [],
         Op.update]).d_data.getD
          ((run qtSample idsSample objSample
            [Op.addInfoMap [(['a', NUL, 'b'], "v".toList)],
             Op.addMethod MethodType.Slot "a()".toList [],
             Op.update]).d_data.getD 5 0) 0 = 3
    ∧ ∃ blob,
        stringBlob 24 ["Foo".toList, [], "v".toList, ['a', NUL, 'b'], "0()".toList]
          = some blob
        ∧ blob[3 * 24]? = some (Cell.header ⟨3, 55⟩ 0) := by
  refine ⟨?_, ?_, ?_, ?_, ?_, ?_, _, rfl, ?_⟩
  · decide
  · decide
  · decide
  · decide
  · decide
  · decide
  · decide

/-- What the lookup of `registerString` does: it returns an index whose entry
in the resulting pool has the C string of `s` (the bytes before the first NUL),
and is `s` itself when neither `s` nor a pool entry holds a NUL byte; it is the
index of the first pool entry with that C string when there is one, in which
case the pool is unchanged, and otherwise the index of `s` appended at the
end. -/
theorem registerString_by_c_string (s : QByteArray) (strings : List QByteArray) :
    (∃ t, (registerString s strings).2[(registerString s strings).1]? = some t
        ∧ cstr t = cstr s
        ∧ (NUL ∉ s → (∀ e ∈ strings, NUL ∉ e) → t = s))
    ∧ ((∃ e ∈ strings, cstr e = cstr s) →
        (registerString s strings).2 = strings
        ∧ (registerString s strings).1 < strings.length
        ∧ ∀ j e, j < (registerString s strings).1 → strings[j]? = some e → cstr e ≠ cstr s)
    ∧ ((∀ e ∈ strings, cstr e ≠ cstr s) →
        registerString s strings = (strings.length, strings ++ [s])) := by
  have hc : ∀ u : QByteArray, NUL ∉ u → cstr u = u := by
    intro u hu
    unfold cstr
    rw [List.takeWhile_eq_self_iff]
    intro c hcu
    have : c ≠ NUL := fun hcn => hu (hcn ▸ hcu)
    simpa using this
  refine ⟨?_, ?_, ?_⟩
  · obtain ⟨⟨ext, hext⟩, t, ht, hct⟩ := registerString_spec s strings
    refine ⟨t, ht, hct, ?_⟩
    intro hs hpool
    have htm : t ∈ (registerString s strings).2 := List.getElem?_mem ht
    have hmem : ∀ e ∈ (registerString s strings).2, NUL ∉ e := by
      intro e he
      unfold registerString at he
      split at he
      · exact hpool e he
      · simp only [List.mem_append, List.mem_singleton] at he
        rcases he with he | he
        · exact hpool e he
        · rw [he]
          exact hs
    rw [← hc t (hmem t htm), ← hc s hs]
    exact hct
  · intro hex
    cases h : findString s strings 0 with
    | none =>
      obtain ⟨e, he, hce⟩ := hex
      exact absurd hce ((findString_none_iff s strings 0).mp h e he)
    | some idx =>
      obtain ⟨_, h2, h3⟩ := findString_first s strings 0 idx h
      simp only [registerString, h]
      exact ⟨trivial, by simpa using h2, fun j e hj he => h3 j e (by simpa using hj) he⟩
  · intro hall
    have h := (findString_none_iff s strings 0).mpr hall
    simp [registerString, h]

/-! ## `parameterTypes` on a well-formed signature -/

theorem nestedType_chars (level : Int) (t : List Char) (h : nestedType level t = true) :
    ∀ c ∈ t, c ≠ '(' ∧ c ≠ ')' ∧ c ≠ NUL := by
  induction t generalizing level with
  | nil => simp
  | cons x xs ih =>
    simp only [nestedType, Bool.and_eq_true, bne_iff_ne, ne_eq] at h
    intro c hc
    rcases List.mem_cons.mp hc with hc | hc
    · subst hc
      exact ⟨h.1.1.1.1, h.1.1.1.2, h.1.1.2⟩
    · exact ih _ h.2 c hc

/-- The inner loop of `parameterTypes` reads a type whose commas are nested
up to the `,` or `)` that follows it. -/
theorem scanParameter_type (level : Int) (t rest : List Char) (d : Char)
    (h : nestedType level t = true) (hd : d = ',' ∨ d = ')') :
    MethodData.scanParameter level (t ++ d :: rest) = (t, d :: rest) := by
  induction t generalizing level with
  | nil =>
    simp only [nestedType, decide_eq_true_eq] at h
    simp only [List.nil_append, MethodData.scanParameter]
    rcases hd with hd | hd
    · subst hd
      have : ¬ level > 0 := by omega
      simp [this]
    · subst hd
      simp
  | cons x xs ih =>
    simp only [nestedType, Bool.and_eq_true, bne_iff_ne, ne_eq, Bool.or_eq_true,
      decide_eq_true_eq] at h
    obtain ⟨⟨⟨⟨_, hx2⟩, _⟩, hx4⟩, hrest⟩ := h
    simp only [List.cons_append, MethodData.scanParameter]
    have hcond : ((decide (level > 0) || x != ',') && x != ')') = true := by
      simp only [Bool.and_eq_true, Bool.or_eq_true, decide_eq_true_eq, bne_iff_ne, ne_eq]
      exact ⟨hx4.symm, hx2⟩
    rw [if_pos hcond]
    have h2 := ih _ hrest
    rw [show xs.append (d :: rest) = xs ++ d :: rest from rfl, h2]

theorem cstr_of_no_nul (u : QByteArray) (hu : NUL ∉ u) : cstr u = u := by
  unfold cstr
  rw [List.takeWhile_eq_self_iff]
  intro c hcu
  have : c ≠ NUL := fun hcn => hu (hcn ▸ hcu)
  simpa using this

theorem dropWhile_name (name rest : List Char) (h : '(' ∉ name) :
    (name ++ '(' :: rest).dropWhile (fun c => c != '(') = '(' :: rest := by
  induction name with
  | nil => simp [List.dropWhile]
  | cons x xs ih =>
    have hx : x ≠ '(' := fun hx => h (hx ▸ List.mem_cons_self _ _)
    have hxs : '(' ∉ xs := fun hm => h (List.mem_cons_of_mem _ hm)
    simp only [List.cons_append, List.dropWhile_cons, bne_iff_ne, ne_eq, hx, not_false_eq_true,
      decide_True, ↓reduceIte]
    exact ih hxs

/-- The outer loop of `parameterTypes`, standing on the `(` or a `,` in front
of the types `ts`, returns `ts`. -/
theorem parameterLoop_types (ts : List QByteArray) (hts : ts ≠ [])
    (ht : ∀ t ∈ ts, t ≠ [] ∧ nestedType 0 t = true) (c : Char) (hc : c ≠ ')')
    (fuel : Nat) (hf : (c :: (joinParameters ts ++ [')'])).length ≤ fuel) :
    MethodData.parameterLoop fuel (c :: (joinParameters ts ++ [')'])) = ts := by
  induction ts generalizing c fuel with
  | nil => exact absurd rfl hts
  | cons t rest ih =>
    obtain ⟨htne, htn⟩ := ht t (List.mem_cons_self _ _)
    obtain ⟨x, xs, hx⟩ := List.exists_cons_of_ne_nil htne
    have hxp : x ≠ ')' := by
      have := nestedType_chars 0 t htn x (by rw [hx]; exact List.mem_cons_self _ _)
      exact this.2.1
    cases fuel with
    | zero => simp at hf
    | succ f =>
      cases rest with
      | nil =>
        simp only [joinParameters]
        unfold MethodData.parameterLoop
        simp only [hc, ↓reduceIte]
        have hs := scanParameter_type 0 t [] ')' htn (Or.inr rfl)
        rw [hx] at hs ⊢
        simp only [List.cons_append] at hs ⊢
        split
        · rename_i heq
          simp only [List.cons.injEq] at heq
          exact absurd heq.1 hxp
        · rw [hs]
          simp only [List.cons.injEq, true_and]
          cases f with
          | zero => rfl
          | succ g => simp [MethodData.parameterLoop]
      | cons t2 rest2 =>
        have hstep : joinParameters (t :: t2 :: rest2) ++ [')']
            = t ++ ',' :: (joinParameters (t2 :: rest2) ++ [')']) := by
          simp [joinParameters]
        rw [hstep] at hf ⊢
        unfold MethodData.parameterLoop
        simp only [hc, ↓reduceIte]
        have hs := scanParameter_type 0 t (joinParameters (t2 :: rest2) ++ [')']) ',' htn
          (Or.inl rfl)
        rw [hx] at hs hf ⊢
        simp only [List.cons_append] at hs hf ⊢
        split
        · rename_i heq
          simp only [List.cons.injEq] at heq
          exact absurd heq.1 hxp
        · rw [hs]
          simp only [List.cons.injEq, true_and]
          refine ih (by simp) (fun u hu => ht u (List.mem_cons_of_mem _ hu)) ',' (by decide) f ?_
          simp only [List.length_cons, List.length_append] at hf ⊢
          omega

theorem joinParameters_chars (ts : List QByteArray) :
    ∀ c ∈ joinParameters ts, c = ',' ∨ ∃ t ∈ ts, c ∈ t := by
  induction ts with
  | nil => simp [joinParameters]
  | cons t rest ih =>
    cases rest with
    | nil =>
      intro c hc
      exact Or.inr ⟨t, List.mem_cons_self _ _, by simpa [joinParameters] using hc⟩
    | cons t2 rest2 =>
      intro c hc
      simp only [joinParameters, List.mem_append, List.mem_cons] at hc
      rcases hc with hc | hc | hc
      · exact Or.inr ⟨t, List.mem_cons_self _ _, hc⟩
      · exact Or.inl hc
      · rcases ih c hc with h1 | ⟨u, hu, hcu⟩
        · exact Or.inl h1
        · exact Or.inr ⟨u, List.mem_cons_of_mem _ hu, hcu⟩

/-- C19: for a method name without `(` and a non-empty list `ts` of non-empty
parameter types without parentheses whose commas all stand inside angle
brackets (name and types being C strings, without NUL), `parameterTypes` of
the signature `name(t1,...,tn)` is exactly `ts` and `parameterCount` is its
length; for `name()` the count is 0. -/
theorem C19_parameterTypes_of_signature (m : MethodData) (name : QByteArray)
    (ts : List QByteArray)
    (hname : '(' ∉ name) (hnul : NUL ∉ name) (hts : ts ≠ [])
    (ht : ∀ t ∈ ts, t ≠ [] ∧ nestedType 0 t = true)
    (hsig : m.m_signature = name ++ '(' :: (joinParameters ts ++ [')'])) :
    m.parameterTypes = ts ∧ m.parameterCount = ts.length
    ∧ ∀ m0 : MethodData, m0.m_signature = name ++ ['(', ')'] → m0.parameterCount = 0 := by
  have hsn : NUL ∉ name ++ '(' :: (joinParameters ts ++ [')']) := by
    intro hmem
    simp only [List.mem_append, List.mem_cons, List.mem_singleton, List.not_mem_nil,
      or_false] at hmem
    rcases hmem with h | h | h | h
    · exact hnul h
    · exact absurd h (by decide)
    · rcases joinParameters_chars ts _ h with h1 | ⟨t, htm, hct⟩
      · exact absurd h1 (by decide)
      · exact (nestedType_chars 0 t (ht t htm).2 _ hct).2.2 rfl
    · exact absurd h (by decide)
  have hp : m.parameterTypes = ts := by
    unfold MethodData.parameterTypes
    simp only
    rw [hsig, cstr_of_no_nul _ hsn, dropWhile_name _ _ hname]
    exact parameterLoop_types ts hts ht '(' (by decide) _ (Nat.le_refl _)
  refine ⟨hp, by rw [MethodData.parameterCount, hp], ?_⟩
  intro m0 h0
  have h0n : NUL ∉ name ++ ['(', ')'] := by
    intro hmem
    simp only [List.mem_append, List.mem_cons, List.mem_singleton, List.not_mem_nil,
      or_false] at hmem
    rcases hmem with h | h | h
    · exact hnul h
    · exact absurd h (by decide)
    · exact absurd h (by decide)
  unfold MethodData.parameterCount MethodData.parameterTypes
  simp only
  rw [h0, cstr_of_no_nul _ h0n, dropWhile_name _ _ hname]
  rfl

/-- C19, at an input: the signature `foo(int,QMap<int,QString>)` has the two
parameter types `int` and `QMap<int,QString>`, and `foo()` has none. -/
theorem C19_parameterTypes_of_signature_witness :
    (MethodData.mk MethodType.Slot "foo(int,QMap<int,QString>)".toList []).parameterTypes
      = ["int".toList, "QMap<int,QString>".toList]
    ∧ (MethodData.mk MethodType.Slot "foo(int,QMap<int,QString>)".toList []).parameterCount
      = ["int".toList, "QMap<int,QString>".toList].length
    ∧ (MethodData.mk MethodType.Slot "foo()".toList []).parameterCount = 0 :=
  ⟨(C19_parameterTypes_of_signature
      (MethodData.mk MethodType.Slot "foo(int,QMap<int,QString>)".toList [])
      "foo".toList ["int".toList, "QMap<int,QString>".toList]
      (by decide) (by decide) (by decide) (by decide) (by decide)).1,
    (C19_parameterTypes_of_signature
      (MethodData.mk MethodType.Slot "foo(int,QMap<int,QString>)".toList [])
      "foo".toList ["int".toList, "QMap<int,QString>".toList]
      (by decide) (by decide) (by decide) (by decide) (by decide)).2.1,
    (C19_parameterTypes_of_signature
      (MethodData.mk MethodType.Slot "foo(int,QMap<int,QString>)".toList [])
      "foo".toList ["int".toList, "QMap<int,QString>".toList]
      (by decide) (by decide) (by decide) (by decide) (by decide)).2.2
      (MethodData.mk MethodType.Slot "foo()".toList []) (by decide)⟩

/-! ## Lemmas on the string blob -/

theorem memWrite_ok (cells out : List Cell) (addr : Nat)
    (h : addr + cells.length ≤ out.length) :
    ∃ out1, memWrite out addr cells = some out1 ∧ out1.length = out.length
      ∧ (∀ a, a < addr ∨ addr + cells.length ≤ a → out1[a]? = out[a]?)
      ∧ (∀ k c, cells[k]? = some c → out1[addr + k]? = some c) := by
  induction cells generalizing out addr with
  | nil => exact ⟨out, rfl, rfl, fun _ _ => rfl, fun k c hk => by simp at hk⟩
  | cons x xs ih =>
    simp only [List.length_cons] at h
    obtain ⟨out1, h1, h2, h3, h4⟩ := ih (out.set addr x) (addr + 1)
      (by simp only [List.length_set]; omega)
    refine ⟨out1, ?_, ?_, ?_, ?_⟩
    · unfold memWrite
      rw [if_pos (by omega)]
      exact h1
    · rw [h2, List.length_set]
    · intro a ha
      simp only [List.length_cons] at ha
      rw [h3 a (by omega), List.getElem?_set_ne (by omega)]
    · intro k c hk
      cases k with
      | zero =>
        simp only [List.getElem?_cons_zero, Option.some.injEq] at hk
        subst hk
        rw [Nat.add_zero, h3 addr (Or.inl (by omega)), List.getElem?_set_self (by omega)]
      | succ j =>
        simp only [List.getElem?_cons_succ] at hk
        have := h4 j c hk
        rw [show addr + (j + 1) = addr + 1 + j by omega]
        exact this

theorem blobSize_eq (width : Nat) (strings : List QByteArray) :
    blobSize width strings
      = strings.length * width + (strings.map (fun s => s.length + 1)).sum := by
  unfold blobSize
  simp only
  congr 1
  suffices h : ∀ acc : QByteArray,
      (strings.foldl (fun str field => str ++ field ++ [NUL]) acc).length
        = acc.length + (strings.map (fun s => s.length + 1)).sum by simpa using h []
  induction strings with
  | nil => simp
  | cons x xs ih =>
    intro acc
    simp only [List.foldl_cons, List.map_cons, List.sum_cons]
    rw [ih]
    simp only [List.length_append, List.length_singleton]
    omega

/-- One call of `writeString` with room for the descriptor below the character
part and for the string and its NUL in the buffer: the descriptor cells, the
characters and the NUL are where they belong, and nothing else changes. -/
theorem writeString_ok (width : Nat) (out : List Cell) (i : Nat) (str : QByteArray)
    (base sdo : Nat) (h1 : i * width + width ≤ base)
    (h2 : base + sdo + str.length + 1 ≤ out.length) :
    ∃ out1, writeString width out i str base sdo = some (out1, sdo + (str.length + 1))
      ∧ out1.length = out.length
      ∧ (∀ b, b < width → out1[i * width + b]?
          = some (Cell.header ⟨str.length, (base : Int) + (sdo : Int) - ((i * width : Nat) : Int)⟩
              b))
      ∧ (∀ j c, str[j]? = some c → out1[base + sdo + j]? = some (Cell.char c))
      ∧ out1[base + sdo + str.length]? = some (Cell.char NUL)
      ∧ (∀ a, (a < i * width ∨ i * width + width ≤ a)
          → (a < base + sdo ∨ base + sdo + str.length + 1 ≤ a) → out1[a]? = out[a]?) := by
  obtain ⟨o1, e1, l1, f1, w1⟩ := memWrite_ok
    ((List.range width).map
      (Cell.header ⟨str.length, (base : Int) + (sdo : Int) - ((i * width : Nat) : Int)⟩))
    out (i * width) (by simp only [List.length_map, List.length_range]; omega)
  obtain ⟨o2, e2, l2, f2, w2⟩ := memWrite_ok (str.map Cell.char) o1 (base + sdo)
    (by simp only [List.length_map]; omega)
  obtain ⟨o3, e3, l3, f3, w3⟩ := memWrite_ok [Cell.char NUL] o2 (base + sdo + str.length)
    (by simp only [List.length_singleton]; omega)
  simp only [List.length_map, List.length_range, List.length_singleton] at f1 f2 f3
  refine ⟨o3, ?_, by omega, ?_, ?_, ?_, ?_⟩
  · unfold writeString
    simp only [e1, e2, e3]
  · intro b hb
    rw [f3 _ (Or.inl (by omega)), f2 _ (Or.inl (by omega))]
    exact w1 b _ (by simp [hb])
  · intro j c hj
    have hjl : j < str.length := by
      rcases Nat.lt_or_ge j str.length with h | h
      · exact h
      · rw [List.getElem?_eq_none h] at hj
        cases hj
    rw [f3 _ (Or.inl (by omega))]
    exact w2 j _ (by simp [hj])
  · have := w3 0 (Cell.char NUL) rfl
    simpa using this
  · intro a ha hb
    rw [f3 a (by omega), f2 a (by omega), f1 a (by omega)]

theorem stringStart_zero (strings : List QByteArray) : stringStart strings 0 = 0 := by
  simp [stringStart]

theorem stringStart_succ (s : QByteArray) (rest : List QByteArray) (k : Nat) :
    stringStart (s :: rest) (k + 1) = s.length + 1 + stringStart rest k := by
  simp [stringStart]

/-- The loop of `writeStringData` from string number `i` on, with room for the
remaining descriptors below the character part and for the remaining strings
in the buffer: every remaining string gets its descriptor, its characters and
its NUL, and no other byte changes. -/
theorem writeStringLoop_ok (width base : Nat) (rest : List QByteArray) (out : List Cell)
    (i sdo : Nat) (h1 : i * width + rest.length * width ≤ base)
    (h2 : base + sdo + (rest.map (fun s => s.length + 1)).sum ≤ out.length) :
    ∃ out1, writeStringLoop width base rest out i sdo = some out1
      ∧ out1.length = out.length
      ∧ (∀ k s, rest[k]? = some s →
          (∀ b, b < width → out1[(i + k) * width + b]?
            = some (Cell.header ⟨s.length, (base : Int) + ((sdo + stringStart rest k : Nat) : Int)
                - (((i + k) * width : Nat) : Int)⟩ b))
          ∧ (∀ j c, s[j]? = some c →
              out1[base + (sdo + stringStart rest k) + j]? = some (Cell.char c))
          ∧ out1[base + (sdo + stringStart rest k) + s.length]? = some (Cell.char NUL))
      ∧ (∀ a, (a < i * width ∨ i * width + rest.length * width ≤ a)
          → (a < base + sdo ∨ base + sdo + (rest.map (fun s => s.length + 1)).sum ≤ a)
          → out1[a]? = out[a]?) := by
  induction rest generalizing out i sdo with
  | nil =>
    exact ⟨out, rfl, rfl, fun k s hk => by simp at hk, fun _ _ _ => rfl⟩
  | cons s rest ih =>
    simp only [List.length_cons, List.map_cons, List.sum_cons, Nat.succ_mul] at h1 h2
    obtain ⟨o1, e1, l1, d1, c1, n1, f1⟩ := writeString_ok width out i s base sdo
      (by omega) (by omega)
    obtain ⟨o2, e2, l2, r2, f2⟩ := ih o1 (i + 1) (sdo + (s.length + 1))
      (by rw [Nat.succ_mul]; omega) (by omega)
    rw [Nat.succ_mul] at f2
    refine ⟨o2, ?_, by omega, ?_, ?_⟩
    · unfold writeStringLoop
      rw [e1]
      exact e2
    · intro k t hk
      cases k with
      | zero =>
        simp only [List.getElem?_cons_zero, Option.some.injEq] at hk
        subst hk
        simp only [stringStart_zero, Nat.add_zero]
        refine ⟨?_, ?_, ?_⟩
        · intro b hb
          rw [f2 _ (Or.inl (by omega)) (Or.inl (by omega))]
          exact d1 b hb
        · intro j c hj
          have hjl : j < s.length := by
            rcases Nat.lt_or_ge j s.length with h | h
            · exact h
            · rw [List.getElem?_eq_none h] at hj
              cases hj
          rw [f2 _ (Or.inr (by omega)) (Or.inl (by omega))]
          exact c1 j c hj
        · rw [f2 _ (Or.inr (by omega)) (Or.inl (by omega))]
          exact n1
      | succ k =>
        simp only [List.getElem?_cons_succ] at hk
        obtain ⟨rd, rc, rn⟩ := r2 k t hk
        rw [stringStart_succ]
        have ei : i + 1 + k = i + (k + 1) := by omega
        have es : sdo + (s.length + 1) + stringStart rest k
            = sdo + (s.length + 1 + stringStart rest k) := by omega
        rw [ei, es] at rd
        rw [es] at rc rn
        exact ⟨rd, rc, rn⟩
    · intro a ha hb
      simp only [List.length_cons, List.map_cons, List.sum_cons, Nat.succ_mul] at ha hb
      rw [f2 a (by omega) (by omega), f1 a (by omega) (by omega)]

/-- The member `writeStringData` on a buffer of `blobSize` bytes: it stays
inside the buffer, and string `i` of the pool gets the descriptor
`(length, blob offset of its first byte - i * width)` at byte `i * width`, its
bytes at blob offset `strings.length * width + stringStart strings i`, and a
NUL after them. -/
theorem writeStringData_ok (width : Nat) (strings : List QByteArray) (out : List Cell)
    (hout : out.length = blobSize width strings) :
    ∃ blob, writeStringData width out strings = some blob
      ∧ blob.length = blobSize width strings
      ∧ (∀ i s, strings[i]? = some s →
          (∀ b, b < width → blob[i * width + b]?
            = some (Cell.header ⟨s.length,
                ((strings.length * width + stringStart strings i : Nat) : Int)
                  - ((i * width : Nat) : Int)⟩ b))
          ∧ (∀ j c, s[j]? = some c →
              blob[strings.length * width + stringStart strings i + j]? = some (Cell.char c))
          ∧ blob[strings.length * width + stringStart strings i + s.length]?
              = some (Cell.char NUL)) := by
  rw [blobSize_eq] at hout
  obtain ⟨blob, e1, l1, r1, _⟩ := writeStringLoop_ok width (strings.length * width) strings
    out 0 0 (by omega) (by omega)
  refine ⟨blob, e1, by rw [l1, hout, blobSize_eq], ?_⟩
  intro i s hi
  obtain ⟨rd, rc, rn⟩ := r1 i s hi
  simp only [Nat.zero_add] at rd rc rn
  refine ⟨?_, rc, rn⟩
  intro b hb
  rw [rd b hb]
  congr 3

/-- C15: on a buffer of `blobSize(pool)` bytes `writeStringData` writes no byte
outside the buffer, and for every string `i` of the pool descriptor `i` (the
`width` bytes at `i * width`) holds the byte length of the string and an
offset that, added to the address of descriptor `i`, is the place of the bytes
of the string, which are followed by a NUL byte. -/
theorem C15_string_blob_round_trip (width : Nat) (strings : List QByteArray)
    (out : List Cell) (i : Nat) (s : QByteArray)
    (hout : out.length = blobSize width strings) (hi : strings[i]? = some s) :
    ∃ blob d, writeStringData width out strings = some blob
      ∧ blob.length = blobSize width strings
      ∧ blobSize width strings
          = strings.length * width + (strings.map (fun t => t.length + 1)).sum
      ∧ (∀ b, b < width → blob[i * width + b]? = some (Cell.header d b))
      ∧ d.size = s.length
      ∧ (∀ j c, s[j]? = some c →
          blob[(((i * width : Nat) : Int) + d.offset).toNat + j]? = some (Cell.char c))
      ∧ blob[(((i * width : Nat) : Int) + d.offset).toNat + s.length]?
          = some (Cell.char NUL) := by
  obtain ⟨blob, e1, l1, r1⟩ := writeStringData_ok width strings out hout
  obtain ⟨rd, rc, rn⟩ := r1 i s hi
  have hoff : (((i * width : Nat) : Int)
      + (((strings.length * width + stringStart strings i : Nat) : Int)
        - ((i * width : Nat) : Int))).toNat
      = strings.length * width + stringStart strings i := by
    omega
  refine ⟨blob, _, e1, l1, blobSize_eq width strings, rd, rfl, ?_, ?_⟩
  · intro j c hj
    simp only [hoff]
    exact rc j c hj
  · simp only [hoff]
    exact rn

/-- C15, at an input: descriptors of 24 bytes, the pool `Foo`, empty string,
`m`, and string 2. -/
theorem C15_string_blob_round_trip_witness :
    ∃ blob d, writeStringData 24
        (List.replicate (blobSize 24 ["Foo".toList, [], "m".toList]) Cell.raw)
        ["Foo".toList, [], "m".toList] = some blob
      ∧ blob.length = blobSize 24 ["Foo".toList, [], "m".toList]
      ∧ blobSize 24 ["Foo".toList, [], "m".toList]
          = ["Foo".toList, [], "m".toList].length * 24
            + (["Foo".toList, [], "m".toList].map (fun t => t.length + 1)).sum
      ∧ (∀ b, b < 24 → blob[2 * 24 + b]? = some (Cell.header d b))
      ∧ d.size = "m".toList.length
      ∧ (∀ j c, "m".toList[j]? = some c →
          blob[(((2 * 24 : Nat) : Int) + d.offset).toNat + j]? = some (Cell.char c))
      ∧ blob[(((2 * 24 : Nat) : Int) + d.offset).toNat + "m".toList.length]?
          = some (Cell.char NUL) :=
  C15_string_blob_round_trip 24 ["Foo".toList, [], "m".toList]
    (List.replicate (blobSize 24 ["Foo".toList, [], "m".toList]) Cell.raw) 2 "m".toList
    (by decide) (by decide)

/-- C16 (as stated, refuted): with descriptors of 24 bytes and the pool `Foo`,
`m`, the string `m` starts at byte 52 of the blob, and descriptor 1 holds the
offset 28, the distance from descriptor 1, not 52. -/
theorem C16_counterexample :
    ∃ blob, stringBlob 24 ["Foo".toList, "m".toList] = some blob
      ∧ blob[52]? = some (Cell.char 'm')
      ∧ blob[24]? = some (Cell.header ⟨1, 28⟩ 0)
      ∧ blob[24]? ≠ some (Cell.header ⟨1, 52⟩ 0) := by
  refine ⟨_, rfl, ?_, ?_, ?_⟩ <;> decide

/-- C16 (amended): for every string `i` of the pool, descriptor `i` of the blob
is the pair of the byte length of the string and the byte offset of its first
character measured from the start of descriptor `i`: the offset from the
start of the blob, `strings.length * width + stringStart strings i`, where the
bytes of the string stand, less `i * width`. -/
theorem C16_descriptor_offset_from_descriptor (width : Nat) (strings : List QByteArray)
    (out : List Cell) (i : Nat) (s : QByteArray)
    (hout : out.length = blobSize width strings) (hi : strings[i]? = some s) :
    ∃ blob, writeStringData width out strings = some blob
      ∧ (∀ b, b < width → blob[i * width + b]?
          = some (Cell.header ⟨s.length,
              ((strings.length * width + stringStart strings i : Nat) : Int)
                - ((i * width : Nat) : Int)⟩ b))
      ∧ (∀ j c, s[j]? = some c →
          blob[strings.length * width + stringStart strings i + j]? = some (Cell.char c)) := by
  obtain ⟨blob, e1, _, r1⟩ := writeStringData_ok width strings out hout
  obtain ⟨rd, rc, _⟩ := r1 i s hi
  exact ⟨blob, e1, rd, rc⟩

/-- C16, at an input: descriptors of 24 bytes, the pool `Foo`, `m`, and
string 1. -/
theorem C16_descriptor_offset_from_descriptor_witness :
    ∃ blob, writeStringData 24
        (List.replicate (blobSize 24 ["Foo".toList, "m".toList]) Cell.raw)
        ["Foo".toList, "m".toList] = some blob
      ∧ (∀ b, b < 24 → blob[1 * 24 + b]?
          = some (Cell.header ⟨"m".toList.length,
              ((["Foo".toList, "m".toList].length * 24
                  + stringStart ["Foo".toList, "m".toList] 1 : Nat) : Int)
                - ((1 * 24 : Nat) : Int)⟩ b))
      ∧ (∀ j c, "m".toList[j]? = some c →
          blob[["Foo".toList, "m".toList].length * 24
              + stringStart ["Foo".toList, "m".toList] 1 + j]? = some (Cell.char c)) :=
  C16_descriptor_offset_from_descriptor 24 ["Foo".toList, "m".toList]
    (List.replicate (blobSize 24 ["Foo".toList, "m".toList]) Cell.raw) 1 "m".toList
    (by decide) (by decide)

/-! ## The property section of a rebuilt table -/

/-- A fold whose rounds write records of `c` words: the word at offset `off`
of record `k` is the value `g` of entry `k`. -/
theorem foldl_record_word {β : Type} (f : Writer → β → Writer) (c off : Nat) (g : β → Nat)
    (hidx : ∀ w x, (f w x).index = w.index + c)
    (hlen : ∀ w x, (f w x).data.length = w.data.length)
    (hkeep : ∀ w x j, j < w.index → (f w x).data.getD j 0 = w.data.getD j 0)
    (hword : ∀ w x, w.index + c ≤ w.data.length → (f w x).data.getD (w.index + off) 0 = g x)
    (hoff : off < c) (l : List β) (w : Writer) (k : Nat) (x : β) (hk : l[k]? = some x)
    (hroom : w.index + c * l.length ≤ w.data.length) :
    (l.foldl f w).data.getD (w.index + c * k + off) 0 = g x := by
  induction l generalizing w k with
  | nil => simp at hk
  | cons y ys ih =>
    simp only [List.length_cons, Nat.mul_succ] at hroom
    simp only [List.foldl_cons]
    cases k with
    | zero =>
      simp only [List.getElem?_cons_zero, Option.some.injEq] at hk
      subst hk
      rw [Nat.mul_zero, Nat.add_zero,
        foldl_getD f _ (fun w x => by rw [hidx]; omega) (fun w x hw => hkeep w x _ hw) ys _
          (by rw [hidx]; omega)]
      exact hword w y (by omega)
    | succ j =>
      simp only [List.getElem?_cons_succ] at hk
      have h := ih (f w y) j hk (by rw [hidx, hlen]; omega)
      rw [hidx] at h
      rw [show w.index + c * (j + 1) + off = w.index + c + c * j + off by
        rw [Nat.mul_succ]; omega]
      exact h

theorem writePropertyStep_flags (qt : QtMeta) (ids : MetaTypeIds) (n : Nat) (w : Writer)
    (i : PropertyData) (h : w.index + 3 ≤ w.data.length) :
    (writePropertyStep qt ids n w i).data.getD (w.index + 2) 0 = i.flags qt ids := by
  unfold writePropertyStep
  cases i.isValid
  · simp only [Bool.false_eq_true, ↓reduceIte, Writer.put, getD_set, List.length_set]
    simp only [true_and]
    rw [if_pos (by omega)]
  · simp only [↓reduceIte, Writer.put, Writer.putString, getD_set, List.length_set]
    simp only [true_and]
    rw [if_pos (by omega)]

theorem writeNotifyStep_word (w : Writer) (i : PropertyData)
    (h : w.index + 1 ≤ w.data.length) :
    (writeNotifyStep w i).data.getD (w.index + 0) 0
      = (if i.notifyId ≥ 0 then i.notifyId.toNat else 0) := by
  simp only [writeNotifyStep, Writer.put, getD_set, Nat.add_zero, true_and]
  rw [if_pos (by omega)]

theorem stageInfo_getD_seven (o : DynamicQMetaObject) : (stageInfo o).data.getD 7 0 = 0 := by
  rw [stageInfo_getD o 7 (by decide) (by decide), stageStart_getD o 7 (by decide)]
  rfl

/-- The writer after the property section, for a property list that holds
entry `pd` at position `k`: word 7 is the cursor at which the section began,
the third word of record `k` is the flags word of `pd`, and word `k` after the
records is its notify index, or 0 when it is negative. -/
theorem stageProperties_record (qt : QtMeta) (ids : MetaTypeIds) (o : DynamicQMetaObject)
    (k : Nat) (pd : PropertyData) (hk : o.m_d.m_properties[k]? = some pd) :
    (stageProperties qt ids o).data.getD 7 0 = (stageInfo o).index
    ∧ (stageProperties qt ids o).data.getD ((stageInfo o).index + 3 * k + 2) 0
        = pd.flags qt ids
    ∧ (stageProperties qt ids o).data.getD
        ((stageInfo o).index + 3 * o.m_d.m_properties.length + k) 0
        = (if pd.notifyId ≥ 0 then pd.notifyId.toNat else 0) := by
  have hklt : k < o.m_d.m_properties.length := by
    rcases Nat.lt_or_ge k o.m_d.m_properties.length with h | h
    · exact h
    · rw [List.getElem?_eq_none h] at hk
      cases hk
  have hne : o.m_d.m_properties.length ≠ 0 := by omega
  have hil := stageInfo_length o
  have hii := stageInfo_index o
  have hds : dataSize o.m_d = HEADER_LENGHT + o.m_d.m_info.length * 2
      + o.m_d.m_methods.length * 5 + o.m_d.m_properties.length * 4 + 1
      + aggregateParameterCount o.m_d.m_methods := rfl
  have h14 : HEADER_LENGHT = 14 := rfl
  unfold stageProperties
  rw [if_pos hne, if_pos (stageInfo_getD_seven o)]
  have hp1i : ∀ w : Writer,
      (o.m_d.m_properties.foldl (writePropertyStep qt ids (stageNullIndex o)) w).index
        = w.index + 3 * o.m_d.m_properties.length := by
    intro w
    rw [foldl_index _ (fun _ => 3) (writePropertyStep_index qt ids (stageNullIndex o))]
    simp [Nat.mul_comm]
  have hp1l : ∀ w : Writer,
      (o.m_d.m_properties.foldl (writePropertyStep qt ids (stageNullIndex o)) w).data.length
        = w.data.length :=
    fun w => foldl_length _ (writePropertyStep_length qt ids (stageNullIndex o)) _ w
  have keep2 : ∀ (w : Writer) (j : Nat), j < w.index →
      (o.m_d.m_properties.foldl writeNotifyStep w).data.getD j 0 = w.data.getD j 0 :=
    fun w j hj => foldl_getD writeNotifyStep j
      (fun w x => by rw [writeNotifyStep_index]; omega)
      (fun w x hw => writeNotifyStep_getD w x j hw) _ w hj
  have keep1 : ∀ (w : Writer) (j : Nat), j < w.index →
      (o.m_d.m_properties.foldl (writePropertyStep qt ids (stageNullIndex o)) w).data.getD j 0
        = w.data.getD j 0 :=
    fun w j hj => foldl_getD _ j
      (fun w x => by rw [writePropertyStep_index]; omega)
      (fun w x hw => writePropertyStep_getD qt ids _ w x j hw) _ w hj
  refine ⟨?_, ?_, ?_⟩
  · rw [keep2 _ 7 (by rw [hp1i]; simp only; omega), keep1 _ 7 (by simp only; omega)]
    exact set_getD_self _ _ _ (by omega)
  · rw [keep2 _ _ (by rw [hp1i]; simp only; omega)]
    exact foldl_record_word (writePropertyStep qt ids (stageNullIndex o)) 3 2
      (fun pd => pd.flags qt ids)
      (writePropertyStep_index qt ids _) (writePropertyStep_length qt ids _)
      (fun w x j hj => writePropertyStep_getD qt ids _ w x j hj)
      (fun w x hw => writePropertyStep_flags qt ids _ w x hw) (by decide)
      o.m_d.m_properties _ k pd hk (by simp only [List.length_set]; omega)
  · have h := foldl_record_word writeNotifyStep 1 0
      (fun pd => if pd.notifyId ≥ 0 then pd.notifyId.toNat else 0)
      writeNotifyStep_index writeNotifyStep_length
      (fun w x j hj => writeNotifyStep_getD w x j hj)
      (fun w x hw => writeNotifyStep_word w x hw) (by decide)
      o.m_d.m_properties
      (o.m_d.m_properties.foldl (writePropertyStep qt ids (stageNullIndex o))
        { stageInfo o with data := (stageInfo o).data.set 7 (stageInfo o).index })
      k pd hk (by rw [hp1i, hp1l]; simp only [List.length_set]; omega)
    rw [hp1i] at h
    simpa using h

theorem stageMethods_getD_below (qt : QtMeta) (ids : MetaTypeIds) (o : DynamicQMetaObject)
    (j : Nat) (hj : j < (stageProperties qt ids o).index) (h5 : j ≠ 5) (h13 : j ≠ 13) :
    (stageMethods qt ids o).1.data.getD j 0 = (stageProperties qt ids o).data.getD j 0 := by
  have hl : 13 < (stageProperties qt ids o).data.length := by
    rw [stageProperties_length]
    unfold dataSize HEADER_LENGHT
    omega
  unfold stageMethods
  split
  · rw [writeMethodsData_getD, if_neg h13, Nat.add_zero]
    · split
      · exact set_getD_ne _ _ _ _ h5
      · rfl
    · split <;> exact hj
    · split
      · simpa using hl
      · exact hl
  · rfl

/-- The words below the end of the property section, apart from words 5 and
13, are in the rebuilt table as the property section left them. -/
theorem updateMetaObject_getD_below (qt : QtMeta) (ids : MetaTypeIds)
    (o : DynamicQMetaObject) (j : Nat) (hj : j < (stageProperties qt ids o).index)
    (h5 : j ≠ 5) (h13 : j ≠ 13) :
    (updateMetaObject qt ids o).object.d_data.getD j 0
      = (stageProperties qt ids o).data.getD j 0 := by
  have hpi := stageProperties_index qt ids o
  have hmi := stageMethods_index qt ids o
  have hsi := stageParameters_index qt ids o
  rw [updateMetaObject_stages]
  simp only
  rw [put_getD _ _ _ (by omega), stageParameters_getD_below qt ids o j (by omega),
    stageMethods_getD_below qt ids o j hj h5 h13]

/-- In the rebuilt table, the flags word of property `k` is the flags word of
the entry at position `k`, and its notify word is the notify index of that
entry, or 0 when the index is negative. -/
theorem updateMetaObject_property_words (qt : QtMeta) (ids : MetaTypeIds)
    (o : DynamicQMetaObject) (k : Nat) (pd : PropertyData)
    (hk : o.m_d.m_properties[k]? = some pd) :
    propertyFlagsWord (updateMetaObject qt ids o).object.d_data k = pd.flags qt ids
    ∧ propertyNotifyWord (updateMetaObject qt ids o).object.d_data
        o.m_d.m_properties.length k
      = (if pd.notifyId ≥ 0 then pd.notifyId.toNat else 0) := by
  have hklt : k < o.m_d.m_properties.length := by
    rcases Nat.lt_or_ge k o.m_d.m_properties.length with h | h
    · exact h
    · rw [List.getElem?_eq_none h] at hk
      cases hk
  obtain ⟨r7, rf, rn⟩ := stageProperties_record qt ids o k pd hk
  have hpi := stageProperties_index qt ids o
  have hii := stageInfo_index o
  have h14 : HEADER_LENGHT = 14 := rfl
  have e7 := updateMetaObject_getD_below qt ids o 7 (by omega) (by decide) (by decide)
  unfold propertyFlagsWord propertyNotifyWord
  rw [e7, r7]
  refine ⟨?_, ?_⟩
  · rw [updateMetaObject_getD_below qt ids o _ (by omega) (by omega) (by omega)]
    exact rf
  · rw [updateMetaObject_getD_below qt ids o _ (by omega) (by omega) (by omega)]
    exact rn

/-! ## The notify bit of the flags word -/

theorem capability_testBit (p : PropertyData) (query : PySideProperty → Bool)
    (bit other : Nat) (h1 : bit.testBit 22 = false) (h2 : other.testBit 22 = false) :
    (p.capability query bit other).testBit 22 = false := by
  unfold PropertyData.capability
  split
  · split
    · exact h1
    · exact h2
  · exact h2

/-- Bit 22 (`Notify`, `0x00400000`) of the flags word tells whether the notify
index of the entry is not `-1`. -/
theorem flags_testBit_notify (qt : QtMeta) (ids : MetaTypeIds) (p : PropertyData) :
    (p.flags qt ids).testBit 22 = (p.m_notifyId != -1) := by
  have hf0 : ∀ x : Nat, ((x <<< 24) % 2 ^ 32).testBit 22 = false := by
    intro x
    rw [Nat.testBit_mod_two_pow]
    simp [Nat.testBit_shiftLeft]
  have hfirst : (if (!isVariantType qt ids p.type) = true then (0x00000008 : Nat)
      else if (!isQRealType p.type) = true
        then (qvariant_nameToType qt ids p.type <<< 24) % 2 ^ 32 else 0).testBit 22
      = false := by
    split
    · decide
    · split
      · exact hf0 _
      · decide
  have hlast : (if (p.m_notifyId != -1) = true then (0x00400000 : Nat) else 0).testBit 22
      = (p.m_notifyId != -1) := by
    split
    · rename_i h
      rw [h]
      decide
    · rename_i h
      simp only [Bool.not_eq_true] at h
      rw [h]
      decide
  unfold PropertyData.flags
  simp only [Nat.testBit_or, hfirst, hlast,
    capability_testBit p _ _ _ (by decide : (0x00000001 : Nat).testBit 22 = false)
      (by decide : (0 : Nat).testBit 22 = false),
    capability_testBit p _ _ _ (by decide : (0x00000002 : Nat).testBit 22 = false)
      (by decide : (0 : Nat).testBit 22 = false),
    capability_testBit p _ _ _ (by decide : (0x00000004 : Nat).testBit 22 = false)
      (by decide : (0 : Nat).testBit 22 = false),
    capability_testBit p _ _ _ (by decide : (0x00001000 : Nat).testBit 22 = false)
      (by decide : (0x00002000 : Nat).testBit 22 = false),
    capability_testBit p _ _ _ (by decide : (0x00004000 : Nat).testBit 22 = false)
      (by decide : (0x00008000 : Nat).testBit 22 = false),
    capability_testBit p _ _ _ (by decide : (0x00010000 : Nat).testBit 22 = false)
      (by decide : (0x00020000 : Nat).testBit 22 = false),
    capability_testBit p _ _ _ (by decide : (0x00100000 : Nat).testBit 22 = false)
      (by decide : (0x00200000 : Nat).testBit 22 = false),
    capability_testBit p _ _ _ (by decide : (0x00000400 : Nat).testBit 22 = false)
      (by decide : (0 : Nat).testBit 22 = false),
    capability_testBit p _ _ _ (by decide : (0x00000800 : Nat).testBit 22 = false)
      (by decide : (0 : Nat).testBit 22 = false),
    (by decide : (0x00080000 : Nat).testBit 22 = false), Bool.false_or, Bool.or_false]

/-! ## `addProperty` on an object built through the operations -/

theorem indexOf_none {α : Type} (eq : α → Bool) (l : List α) (i : Int)
    (h : ∀ x ∈ l, eq x = false) : indexOf eq l i = -1 := by
  induction l generalizing i with
  | nil => rfl
  | cons x xs ih =>
    unfold indexOf
    rw [h x (List.mem_cons_self _ _)]
    simp only [Bool.false_eq_true, ↓reduceIte]
    exact ih _ (fun y hy => h y (List.mem_cons_of_mem _ hy))

theorem same_null_handle (p other : PropertyData) (hp : p.m_data.isSome = true)
    (ho : other.m_data = none) : p.same other = false := by
  unfold PropertyData.same
  rw [ho]
  cases hd : p.m_data with
  | none => rw [hd] at hp; cases hp
  | some d => rfl

/-- On an object whose property entries all carry a handle, `addProperty`
appends the new entry and returns the property offset plus the new length. -/
theorem addProperty_appends (qt : QtMeta) (o : DynamicQMetaObject) (name : QByteArray)
    (property : PySideProperty)
    (hdata : ∀ pd ∈ o.m_d.m_properties, pd.m_data.isSome = true) :
    (addProperty qt o name property).1
      = o.m_d.m_propertyOffset + ((o.m_d.m_properties.length : Int) + 1)
    ∧ (addProperty qt o name property).2.m_d.m_properties
      = o.m_d.m_properties ++
        [{ m_name := cstr name
           m_notifyId :=
            if property.notify then
              match property.notifyName with
              | some signalNotify =>
                indexOf (fun m => m.same (MethodData.create qt MethodType.Signal signalNotify []))
                  o.m_d.m_methods 0
              | none => -1
            else -1
           m_data := some property }]
    ∧ (addProperty qt o name property).2.m_d.m_methods = o.m_d.m_methods := by
  have h1 : indexOf (fun p : PropertyData =>
      p.same { m_name := cstr name, m_notifyId := 0, m_data := none }) o.m_d.m_properties 0
      = -1 :=
    indexOf_none _ _ _ (fun pd hpd => same_null_handle pd _ (hdata pd hpd) rfl)
  have h2 : indexOf (fun p : PropertyData => p.same PropertyData.blank) o.m_d.m_properties 0
      = -1 :=
    indexOf_none _ _ _ (fun pd hpd => same_null_handle pd _ (hdata pd hpd) rfl)
  unfold addProperty
  simp only [h1, h2, ne_eq, not_true_eq_false, ↓reduceIte, List.length_append,
    List.length_singleton, Nat.cast_add, Nat.cast_one, and_self]

theorem properties_have_handle (qt : QtMeta) (ids : MetaTypeIds) (o : DynamicQMetaObject)
    (ops : List Op) (h : ∀ pd ∈ o.m_d.m_properties, pd.m_data.isSome = true) :
    ∀ pd ∈ (run qt ids o ops).m_d.m_properties, pd.m_data.isSome = true := by
  unfold run
  induction ops generalizing o with
  | nil => exact h
  | cons op rest ih =>
    simp only [List.foldl_cons]
    apply ih
    cases op with
    | addMethod mt sig ty =>
      simp only [applyOp, addMethod]
      split
      · exact h
      · split <;> exact h
    | removeMethod mt sig => exact h
    | addProperty name property =>
      simp only [applyOp]
      rw [(addProperty_appends qt o name property h).2.1]
      intro pd hpd
      rcases List.mem_append.mp hpd with hpd | hpd
      · exact h pd hpd
      · rw [List.mem_singleton.mp hpd]
        rfl
    | addInfo key value => exact h
    | addInfoMap info => exact h
    | update =>
      simp only [applyOp, update]
      split
      · exact h
      · exact h

theorem applyOp_propertyOffset (qt : QtMeta) (ids : MetaTypeIds) (o : DynamicQMetaObject)
    (op : Op) : (applyOp qt ids o op).m_d.m_propertyOffset = o.m_d.m_propertyOffset := by
  cases op with
  | addMethod mt sig ty =>
    simp only [applyOp, addMethod]
    split
    · rfl
    · split <;> rfl
  | removeMethod mt sig => rfl
  | addProperty name property =>
    simp only [applyOp, addProperty]
    split
    · rfl
    · split <;> rfl
  | addInfo key value => rfl
  | addInfoMap info => rfl
  | update =>
    simp only [applyOp, update]
    split <;> rfl

theorem run_propertyOffset (qt : QtMeta) (ids : MetaTypeIds) (o : DynamicQMetaObject)
    (ops : List Op) : (run qt ids o ops).m_d.m_propertyOffset = o.m_d.m_propertyOffset := by
  unfold run
  induction ops generalizing o with
  | nil => rfl
  | cons op rest ih =>
    simp only [List.foldl_cons]
    rw [ih, applyOp_propertyOffset]

/-! ## Claims on the notify reference of a property -/

/-- C11 (the code departs from the claim): after `addSlot` of `a()` and
`addSignal` of `b()`, `addProperty` of `value` with the notify signal `b()`
stores the notify index 1, the position of `b()` at that time; the rebuild
sorts the list to `b()`, `a()`, so the notify word 1 of the table points at
the record of the slot `a()` and not at the signal `b()`, which is record 0.
The notify bit of the flags word is set. -/
theorem C11_notify_index_stale :
    (run qtSample idsSample objSample
        [Op.addMethod MethodType.Slot "a()".toList [],
         Op.addMethod MethodType.Signal "b()".toList [],
         Op.addProperty "value".toList (propSample "b()".toList)]).m_d.m_properties.map
        (fun pd => pd.m_notifyId) = [1]
    ∧ (updateMetaObject qtSample idsSample
        (run qtSample idsSample objSample
          [Op.addMethod MethodType.Slot "a()".toList [],
           Op.addMethod MethodType.Signal "b()".toList [],
           Op.addProperty "value".toList (propSample "b()".toList)])).object.m_d.m_methods
        = [⟨MethodType.Signal, "b()".toList, []⟩, ⟨MethodType.Slot, "a()".toList, []⟩]
    ∧ propertyNotifyWord (updateMetaObject qtSample idsSample
        (run qtSample idsSample objSample
          [Op.addMethod MethodType.Slot "a()".toList [],
           Op.addMethod MethodType.Signal "b()".toList [],
           Op.addProperty "value".toList (propSample "b()".toList)])).object.d_data 1 0 = 1
    ∧ methodRecordIsSignal (updateMetaObject qtSample idsSample
        (run qtSample idsSample objSample
          [Op.addMethod MethodType.Slot "a()".toList [],
           Op.addMethod MethodType.Signal "b()".toList [],
           Op.addProperty "value".toList (propSample "b()".toList)])).object.d_data 1 = false
    ∧ methodRecordMatches (updateMetaObject qtSample idsSample
        (run qtSample idsSample objSample
          [Op.addMethod MethodType.Slot "a()".toList [],
           Op.addMethod MethodType.Signal "b()".toList [],
           Op.addProperty "value".toList (propSample "b()".toList)])).object.d_data
        (updateMetaObject qtSample idsSample
        (run qtSample idsSample objSample
          [Op.addMethod MethodType.Slot "a()".toList [],
           Op.addMethod MethodType.Signal "b()".toList [],
           Op.addProperty "value".toList (propSample "b()".toList)])).object.d_strings
        1 ⟨MethodType.Slot, "a()".toList, []⟩ = true
    ∧ (propertyFlagsWord (updateMetaObject qtSample idsSample
        (run qtSample idsSample objSample
          [Op.addMethod MethodType.Slot "a()".toList [],
           Op.addMethod MethodType.Signal "b()".toList [],
           Op.addProperty "value".toList (propSample "b()".toList)])).object.d_data 0).testBit 22
        = true := by
  refine ⟨by decide, by decide, by decide, by decide, by decide, ?_⟩
  rw [(updateMetaObject_property_words qtSample idsSample _ 0
    ⟨"value".toList, 1, some (propSample "b()".toList)⟩ (by decide)).1, flags_testBit_notify]
  decide

/-- C12: on an object built from the constructor by any operations,
`addProperty` of a property whose notify name matches no registered Signal
entry still registers it: the entry is appended with the notify index `-1`
(none) and the property offset plus the new length is returned; after a
rebuild its notify word is 0 and bit 22 (`0x00400000`, the notify bit) of its
flags word is clear. -/
theorem C12_unmatched_notify_is_none (qt : QtMeta) (ids : MetaTypeIds)
    (className : QByteArray) (c pc : Int) (ops : List Op) (name : QByteArray)
    (property : PySideProperty)
    (hno : ∀ sig, property.notifyName = some sig →
      ∀ m ∈ (run qt ids (DynamicQMetaObject.create className c pc) ops).m_d.m_methods,
        m.same (MethodData.create qt MethodType.Signal sig []) = false) :
    (addProperty qt (run qt ids (DynamicQMetaObject.create className c pc) ops)
        name property).1
      = (pc - 1) + (((run qt ids (DynamicQMetaObject.create className c pc)
          ops).m_d.m_properties.length : Int) + 1)
    ∧ (addProperty qt (run qt ids (DynamicQMetaObject.create className c pc) ops)
        name property).2.m_d.m_properties
      = (run qt ids (DynamicQMetaObject.create className c pc) ops).m_d.m_properties
          ++ [{ m_name := cstr name, m_notifyId := -1, m_data := some property }]
    ∧ propertyNotifyWord
        (updateMetaObject qt ids
          (addProperty qt (run qt ids (DynamicQMetaObject.create className c pc) ops)
            name property).2).object.d_data
        ((run qt ids (DynamicQMetaObject.create className c pc)
          ops).m_d.m_properties.length + 1)
        (run qt ids (DynamicQMetaObject.create className c pc) ops).m_d.m_properties.length
      = 0
    ∧ (propertyFlagsWord
        (updateMetaObject qt ids
          (addProperty qt (run qt ids (DynamicQMetaObject.create className c pc) ops)
            name property).2).object.d_data
        (run qt ids (DynamicQMetaObject.create className c pc)
          ops).m_d.m_properties.length).testBit 22 = false := by
  have hdata := properties_have_handle qt ids (DynamicQMetaObject.create className c pc) ops
    (fun pd hpd => by simp [DynamicQMetaObject.create] at hpd)
  obtain ⟨h1, h2, _⟩ := addProperty_appends qt
    (run qt ids (DynamicQMetaObject.create className c pc) ops) name property hdata
  have hnid : (if property.notify then
      match property.notifyName with
      | some signalNotify =>
        indexOf (fun m => m.same (MethodData.create qt MethodType.Signal signalNotify []))
          (run qt ids (DynamicQMetaObject.create className c pc) ops).m_d.m_methods 0
      | none => -1
      else -1) = (-1 : Int) := by
    split
    · split
      · rename_i sig hsig
        exact indexOf_none _ _ _ (hno sig hsig)
      · rfl
    · rfl
  rw [hnid] at h2
  have hk : (addProperty qt (run qt ids (DynamicQMetaObject.create className c pc) ops)
      name property).2.m_d.m_properties[
        (run qt ids (DynamicQMetaObject.create className c pc) ops).m_d.m_properties.length]?
      = some { m_name := cstr name, m_notifyId := -1, m_data := some property } := by
    rw [h2, List.getElem?_append_right (Nat.le_refl _)]
    simp
  have hlen : (addProperty qt (run qt ids (DynamicQMetaObject.create className c pc) ops)
      name property).2.m_d.m_properties.length
      = (run qt ids (DynamicQMetaObject.create className c pc) ops).m_d.m_properties.length
        + 1 := by
    rw [h2]
    simp
  obtain ⟨wf, wn⟩ := updateMetaObject_property_words qt ids _ _ _ hk
  rw [hlen] at wn
  refine ⟨?_, h2, ?_, ?_⟩
  · rw [h1, run_propertyOffset]
    rfl
  · rw [wn]
    rfl
  · rw [wf, flags_testBit_notify]
    rfl

/-- C12, at an input: over a base with three properties, after `addSignal` of
`valueChanged(int)`, the property `value` with the notify name `other()`. -/
theorem C12_unmatched_notify_is_none_witness :
    (addProperty qtSample
        (run qtSample idsSample (DynamicQMetaObject.create "Foo".toList 5 3)
          [Op.addMethod MethodType.Signal "valueChanged(int)".toList []])
        "value".toList (propSample "other()".toList)).1
      = (3 - 1) + (((run qtSample idsSample (DynamicQMetaObject.create "Foo".toList 5 3)
          [Op.addMethod MethodType.Signal "valueChanged(int)".toList []]
          ).m_d.m_properties.length : Int) + 1)
    ∧ (addProperty qtSample
        (run qtSample idsSample (DynamicQMetaObject.create "Foo".toList 5 3)
          [Op.addMethod MethodType.Signal "valueChanged(int)".toList []])
        "value".toList (propSample "other()".toList)).2.m_d.m_properties
      = (run qtSample idsSample (DynamicQMetaObject.create "Foo".toList 5 3)
          [Op.addMethod MethodType.Signal "valueChanged(int)".toList []]).m_d.m_properties
          ++ [{ m_name := cstr "value".toList, m_notifyId := -1,
                m_data := some (propSample "other()".toList) }]
    ∧ propertyNotifyWord
        (updateMetaObject qtSample idsSample
          (addProperty qtSample
            (run qtSample idsSample (DynamicQMetaObject.create "Foo".toList 5 3)
              [Op.addMethod MethodType.Signal "valueChanged(int)".toList []])
            "value".toList (propSample "other()".toList)).2).object.d_data
        ((run qtSample idsSample (DynamicQMetaObject.create "Foo".toList 5 3)
          [Op.addMethod MethodType.Signal "valueChanged(int)".toList []]
          ).m_d.m_properties.length + 1)
        (run qtSample idsSample (DynamicQMetaObject.create "Foo".toList 5 3)
          [Op.addMethod MethodType.Signal "valueChanged(int)".toList []]
          ).m_d.m_properties.length
      = 0
    ∧ (propertyFlagsWord
        (updateMetaObject qtSample idsSample
          (addProperty qtSample
            (run qtSample idsSample (DynamicQMetaObject.create "Foo".toList 5 3)
              [Op.addMethod MethodType.Signal "valueChanged(int)".toList []])
            "value".toList (propSample "other()".toList)).2).object.d_data
        (run qtSample idsSample (DynamicQMetaObject.create "Foo".toList 5 3)
          [Op.addMethod MethodType.Signal "valueChanged(int)".toList []]
          ).m_d.m_properties.length).testBit 22 = false :=
  C12_unmatched_notify_is_none qtSample idsSample "Foo".toList 5 3
    [Op.addMethod MethodType.Signal "valueChanged(int)".toList []]
    "value".toList (propSample "other()".toList)
    (by
      intro sig hsig
      have hs : sig = "other()".toList := by
        simp only [propSample, Option.some.injEq] at hsig
        exact hsig.symm
      subst hs
      decide)

/-! ## The parameter blocks of a rebuilt table -/

theorem writeMethodStep_params (e n f : Nat) (st : MethodsLoop) (it : MethodData)
    (hlen : st.w.index + 5 ≤ st.w.data.length) (h13 : 13 < st.w.index) :
    (writeMethodStep e n f st it).w.data.getD (st.w.index + 2) 0 = st.paramsIndex
    ∧ (writeMethodStep e n f st it).paramsIndex
        = st.paramsIndex + (2 * it.parameterCount + 1) := by
  have a1 : ¬ (13 = st.w.index + 2) := by omega
  have b1 : st.w.index + 1 + 1 < st.w.data.length := by omega
  have c1 : ¬ (st.w.index + 1 + 1 + 1 = st.w.index + 2) := by omega
  have c2 : ¬ (st.w.index + 1 + 1 + 1 + 1 = st.w.index + 2) := by omega
  have c3 : st.w.index + 1 + 1 = st.w.index + 2 := by omega
  refine ⟨?_, ?_⟩
  · unfold writeMethodStep
    by_cases h1 : (it.signature != EMPTY_META_METHOD) = true <;>
      by_cases h2 : it.methodType = MethodType.Signal
    all_goals
      simp only [h1, h2, ↓reduceIte, Writer.put, Writer.putString, getD_set, List.length_set,
        a1, b1, c1, c2, c3, false_and, true_and, and_self, if_false, if_true,
        Bool.false_eq_true]
  · unfold writeMethodStep
    simp only
    omega

theorem foldl_writeMethodStep_params (e n f : Nat) (l : List MethodData) (st : MethodsLoop)
    (k : Nat) (it : MethodData) (hk : l[k]? = some it)
    (hlen : st.w.index + 5 * l.length ≤ st.w.data.length) (h13 : 13 < st.w.index) :
    (l.foldl (writeMethodStep e n f) st).w.data.getD (st.w.index + 5 * k + 2) 0
      = st.paramsIndex + ((l.take k).map (fun m => 2 * m.parameterCount + 1)).sum := by
  induction l generalizing st k with
  | nil => simp at hk
  | cons x xs ih =>
    simp only [List.length_cons] at hlen
    simp only [List.foldl_cons]
    have hi := writeMethodStep_index e n f st x
    have hl := writeMethodStep_length e n f st x
    obtain ⟨r1, r2⟩ := writeMethodStep_params e n f st x (by omega) h13
    cases k with
    | zero =>
      rw [foldl_writeMethodStep_getD e n f xs _ _ (by omega) (by omega),
        if_neg (by omega)]
      simp only [Nat.mul_zero, Nat.add_zero, List.take_zero, List.map_nil, List.sum_nil]
      exact r1
    | succ j =>
      simp only [List.getElem?_cons_succ] at hk
      have h := ih (writeMethodStep e n f st x) j hk (by omega) (by omega)
      rw [hi, r2] at h
      rw [show st.w.index + 5 * (j + 1) + 2 = st.w.index + 5 + 5 * j + 2 by omega, h]
      simp only [List.take_succ_cons, List.map_cons, List.sum_cons]
      omega

theorem typeInfoMatches_append (qt : QtMeta) (strings ext : List QByteArray) (word : Nat)
    (name : QByteArray) (h : typeInfoMatches qt strings word name) :
    typeInfoMatches qt (strings ++ ext) word name := by
  unfold typeInfoMatches at h ⊢
  split
  · rename_i hb
    rw [if_pos hb] at h
    exact h
  · rename_i hb
    rw [if_neg hb] at h
    obtain ⟨idx, t, h1, h2, h3⟩ := h
    exact ⟨idx, t, h1, getElem?_of_append _ _ _ _ h2, h3⟩

theorem writeTypeInfo_word (qt : QtMeta) (w : Writer) (name : QByteArray)
    (h : w.index + 1 ≤ w.data.length) :
    typeInfoMatches qt (writeTypeInfo qt w name).strings
      ((writeTypeInfo qt w name).data.getD w.index 0) name := by
  unfold typeInfoMatches writeTypeInfo
  split
  · simp only [Writer.put, getD_set, true_and]
    rw [if_pos (by omega)]
  · obtain ⟨_, t, ht, hc⟩ := registerString_spec name w.strings
    simp only [Writer.put, getD_set, true_and]
    rw [if_pos (by omega)]
    exact ⟨_, t, rfl, ht, hc⟩

theorem foldl_writeTypeInfo_word (qt : QtMeta) (names : List QByteArray) (w : Writer)
    (t : Nat) (name : QByteArray) (ht : names[t]? = some name)
    (hroom : w.index + names.length ≤ w.data.length) :
    typeInfoMatches qt (names.foldl (writeTypeInfo qt) w).strings
      ((names.foldl (writeTypeInfo qt) w).data.getD (w.index + t) 0) name := by
  induction names generalizing w t with
  | nil => simp at ht
  | cons x xs ih =>
    simp only [List.length_cons] at hroom
    simp only [List.foldl_cons]
    cases t with
    | zero =>
      simp only [List.getElem?_cons_zero, Option.some.injEq] at ht
      subst ht
      obtain ⟨ext, hext⟩ := foldl_strings (writeTypeInfo qt) (writeTypeInfo_strings qt) xs
        (writeTypeInfo qt w x)
      rw [Nat.add_zero, foldl_getD (writeTypeInfo qt) w.index
        (fun w x => by rw [writeTypeInfo_index]; omega)
        (fun w x hw => writeTypeInfo_getD qt w x _ hw) xs _
        (by rw [writeTypeInfo_index]; omega), hext]
      exact typeInfoMatches_append qt _ _ _ _ (writeTypeInfo_word qt w x (by omega))
    | succ j =>
      simp only [List.getElem?_cons_succ] at ht
      have h := ih (writeTypeInfo qt w x) j ht
        (by rw [writeTypeInfo_index, writeTypeInfo_length]; omega)
      rw [writeTypeInfo_index] at h
      rw [show w.index + (j + 1) = w.index + 1 + j by omega]
      exact h

/-- One round of the parameter loop, with room for its words: from the cursor
on stand the type-info words of the return type and of the parameters, then
one null-string word per parameter. -/
theorem writeParametersStep_block (qt : QtMeta) (n : Nat) (w : Writer) (it : MethodData)
    (hroom : w.index + (2 * it.parameterCount + 1) ≤ w.data.length) :
    (∀ t name, (it.returnType :: it.parameterTypes)[t]? = some name →
        typeInfoMatches qt (writeParametersStep qt n w it).strings
          ((writeParametersStep qt n w it).data.getD (w.index + t) 0) name)
    ∧ (∀ t, t < it.parameterCount →
        (writeParametersStep qt n w it).data.getD (w.index + 1 + it.parameterCount + t) 0
          = n) := by
  have hpc : it.parameterTypes.length = it.parameterCount := rfl
  have h1i : ((it.returnType :: it.parameterTypes).foldl (writeTypeInfo qt) w).index
      = w.index + 1 + it.parameterCount := by
    rw [foldl_index (writeTypeInfo qt) (fun _ => 1) (writeTypeInfo_index qt)]
    simp [hpc]
    omega
  have h1l : ((it.returnType :: it.parameterTypes).foldl (writeTypeInfo qt) w).data.length
      = w.data.length := foldl_length _ (writeTypeInfo_length qt) _ _
  unfold writeParametersStep
  simp only
  refine ⟨?_, ?_⟩
  · intro t name ht
    have htl : t < 1 + it.parameterCount := by
      rcases Nat.lt_or_ge t (it.returnType :: it.parameterTypes).length with h | h
      · simp only [List.length_cons, hpc] at h
        omega
      · rw [List.getElem?_eq_none h] at ht
        cases ht
    obtain ⟨ext, hext⟩ := foldl_strings (fun v (_ : QByteArray) => v.put n)
      (fun w _ => ⟨[], by simp [Writer.put]⟩) it.parameterTypes
      ((it.returnType :: it.parameterTypes).foldl (writeTypeInfo qt) w)
    rw [foldl_getD (fun v (_ : QByteArray) => v.put n) (w.index + t)
      (fun w _ => by simp only [put_index]; omega) (fun w _ hw => put_getD w n _ hw)
      _ _ (by rw [h1i]; omega), hext]
    exact typeInfoMatches_append qt _ _ _ _
      (foldl_writeTypeInfo_word qt _ w t name ht (by simp only [List.length_cons, hpc]; omega))
  · intro t ht
    have hg : ∃ x, it.parameterTypes[t]? = some x :=
      ⟨it.parameterTypes[t], List.getElem?_eq_getElem (by rw [hpc]; exact ht)⟩
    obtain ⟨x, hx⟩ := hg
    have h := foldl_record_word (fun v (_ : QByteArray) => v.put n) 1 0 (fun _ => n)
      (fun w _ => rfl) (fun w _ => put_length w n) (fun w _ j hj => put_getD w n j hj)
      (fun w _ hw => by
        simp only [Writer.put, getD_set, Nat.add_zero, true_and]
        rw [if_pos (by omega)])
      (by decide) it.parameterTypes
      ((it.returnType :: it.parameterTypes).foldl (writeTypeInfo qt) w) t x hx
      (by rw [h1i, h1l, hpc]; omega)
    rw [h1i] at h
    simpa using h

/-- After the parameter loop over a list, with room for all its words: the
block of the entry at position `k` begins after the blocks of the entries in
front of it and holds the type-info words and the null-string words of that
entry. -/
theorem foldl_writeParametersStep_block (qt : QtMeta) (n : Nat) (l : List MethodData)
    (w : Writer) (k : Nat) (it : MethodData) (hk : l[k]? = some it)
    (hroom : w.index + (l.map (fun m => 2 * m.parameterCount + 1)).sum ≤ w.data.length) :
    (∀ t name, (it.returnType :: it.parameterTypes)[t]? = some name →
        typeInfoMatches qt (l.foldl (writeParametersStep qt n) w).strings
          ((l.foldl (writeParametersStep qt n) w).data.getD
            (w.index + ((l.take k).map (fun m => 2 * m.parameterCount + 1)).sum + t) 0) name)
    ∧ (∀ t, t < it.parameterCount →
        (l.foldl (writeParametersStep qt n) w).data.getD
          (w.index + ((l.take k).map (fun m => 2 * m.parameterCount + 1)).sum
            + 1 + it.parameterCount + t) 0 = n) := by
  induction l generalizing w k with
  | nil => simp at hk
  | cons x xs ih =>
    simp only [List.map_cons, List.sum_cons] at hroom
    simp only [List.foldl_cons]
    have hi := writeParametersStep_index qt n w x
    have hl := writeParametersStep_length qt n w x
    cases k with
    | zero =>
      simp only [List.getElem?_cons_zero, Option.some.injEq] at hk
      subst hk
      obtain ⟨b1, b2⟩ := writeParametersStep_block qt n w x (by omega)
      obtain ⟨ext, hext⟩ := foldl_strings (writeParametersStep qt n)
        (writeParametersStep_strings qt n) xs (writeParametersStep qt n w x)
      have keep : ∀ j, j < w.index + (2 * x.parameterCount + 1) →
          (xs.foldl (writeParametersStep qt n) (writeParametersStep qt n w x)).data.getD j 0
            = (writeParametersStep qt n w x).data.getD j 0 :=
        fun j hj => foldl_getD (writeParametersStep qt n) j
          (fun w x => by rw [writeParametersStep_index]; omega)
          (fun w x hw => writeParametersStep_getD qt n w x j hw) xs _ (by rw [hi]; exact hj)
      simp only [List.take_zero, List.map_nil, List.sum_nil, Nat.add_zero]
      refine ⟨?_, ?_⟩
      · intro t name ht
        have htl : t < 1 + x.parameterCount := by
          rcases Nat.lt_or_ge t (x.returnType :: x.parameterTypes).length with h | h
          · simp only [List.length_cons] at h
            have hpc : x.parameterTypes.length = x.parameterCount := rfl
            omega
          · rw [List.getElem?_eq_none h] at ht
            cases ht
        rw [keep _ (by omega), hext]
        exact typeInfoMatches_append qt _ _ _ _ (b1 t name ht)
      · intro t ht
        rw [keep _ (by omega)]
        exact b2 t ht
    | succ j =>
      simp only [List.getElem?_cons_succ] at hk
      obtain ⟨r1, r2⟩ := ih (writeParametersStep qt n w x) j hk (by rw [hi, hl]; omega)
      rw [hi] at r1 r2
      simp only [List.take_succ_cons, List.map_cons, List.sum_cons]
      have e0 : w.index + (2 * x.parameterCount + 1
            + ((xs.take j).map (fun m => 2 * m.parameterCount + 1)).sum)
          = w.index + (2 * x.parameterCount + 1)
            + ((xs.take j).map (fun m => 2 * m.parameterCount + 1)).sum := by omega
      rw [e0]
      exact ⟨r1, r2⟩

theorem stageMethods_params (qt : QtMeta) (ids : MetaTypeIds) (o : DynamicQMetaObject)
    (k : Nat) (it : MethodData) (hk : (stageSorted o)[k]? = some it) :
    (stageMethods qt ids o).1.data.getD ((stageProperties qt ids o).index + 5 * k + 2) 0
      = (stageProperties qt ids o).index + 5 * (stageSorted o).length
        + (((stageSorted o).take k).map (fun m => 2 * m.parameterCount + 1)).sum := by
  have hne : (stageSorted o).length ≠ 0 := by
    intro h0
    rw [List.length_eq_zero.mp h0] at hk
    simp at hk
  have hroom := stageProperties_room qt ids o
  have hidx := stageProperties_index qt ids o
  have h14 : 13 < (stageProperties qt ids o).index := by
    rw [hidx]
    unfold HEADER_LENGHT
    omega
  unfold stageMethods
  rw [if_pos hne, if_pos (stageProperties_getD_five qt ids o)]
  unfold writeMethodsData
  simp only
  have h := foldl_writeMethodStep_params
    (if o.m_d.m_emptyMethod = -1
      then ((registerString EMPTY_META_METHOD (stageProperties qt ids o).strings).1 : Int)
      else o.m_d.m_emptyMethod).toNat (stageNullIndex o) AccessPublic (stageSorted o)
    { w := if o.m_d.m_emptyMethod = -1
        then { data := (stageProperties qt ids o).data.set 5 (stageProperties qt ids o).index
               index := (stageProperties qt ids o).index
               strings := (registerString EMPTY_META_METHOD
                 (stageProperties qt ids o).strings).2 }
        else { data := (stageProperties qt ids o).data.set 5 (stageProperties qt ids o).index
               index := (stageProperties qt ids o).index
               strings := (stageProperties qt ids o).strings }
      paramsIndex := (stageProperties qt ids o).index + (stageSorted o).length * 5 }
    k it hk
  by_cases hem : o.m_d.m_emptyMethod = -1
  · simp only [hem, ↓reduceIte] at h ⊢
    rw [h (by simp only [List.length_set]; omega) h14]
    omega
  · simp only [hem, ↓reduceIte] at h ⊢
    rw [h (by simp only [List.length_set]; omega) h14]
    omega

theorem stageMethods_room (qt : QtMeta) (ids : MetaTypeIds) (o : DynamicQMetaObject) :
    (stageMethods qt ids o).1.index
        + ((stageSorted o).map (fun m => 2 * m.parameterCount + 1)).sum + 1
      = (stageMethods qt ids o).1.data.length := by
  have hp : ((stageSorted o).map (fun m => 2 * m.parameterCount + 1)).sum
      = (o.m_d.m_methods.map (fun m => 2 * m.parameterCount + 1)).sum :=
    ((stageSorted_perm o).map _).sum_eq
  rw [stageMethods_index, stageMethods_length, hp, dataSize, aggregateParameterCount_eq]
  omega

/-- The writer after the parameter section: the block of the entry at position
`k` of the sorted list. -/
theorem stageParameters_block (qt : QtMeta) (ids : MetaTypeIds) (o : DynamicQMetaObject)
    (k : Nat) (it : MethodData) (hk : (stageSorted o)[k]? = some it) :
    (∀ t name, (it.returnType :: it.parameterTypes)[t]? = some name →
        typeInfoMatches qt (stageParameters qt ids o).strings
          ((stageParameters qt ids o).data.getD
            ((stageMethods qt ids o).1.index
              + (((stageSorted o).take k).map (fun m => 2 * m.parameterCount + 1)).sum + t) 0)
          name)
    ∧ (∀ t, t < it.parameterCount →
        (stageParameters qt ids o).data.getD
          ((stageMethods qt ids o).1.index
            + (((stageSorted o).take k).map (fun m => 2 * m.parameterCount + 1)).sum
            + 1 + it.parameterCount + t) 0 = stageNullIndex o) := by
  have hne : (stageSorted o).length ≠ 0 := by
    intro h0
    rw [List.length_eq_zero.mp h0] at hk
    simp at hk
  have hroom := stageMethods_room qt ids o
  unfold stageParameters
  rw [if_pos hne]
  exact foldl_writeParametersStep_block qt (stageNullIndex o) (stageSorted o) _ k it hk
    (by omega)

/-! ## The pool through the stages of a rebuild -/

theorem writeInfoStep_strings (w : Writer) (kv : QByteArray × QByteArray) :
    ∃ ext, (writeInfoStep w kv).strings = w.strings ++ ext := by
  obtain ⟨e1, h1⟩ := (registerString_spec kv.2 w.strings).1
  obtain ⟨e2, h2⟩ := (registerString_spec kv.1 (registerString kv.2 w.strings).2).1
  exact ⟨e1 ++ e2, by simp only [writeInfoStep, Writer.put]; rw [h2, h1, List.append_assoc]⟩

theorem writePropertyStep_strings (qt : QtMeta) (ids : MetaTypeIds) (n : Nat) (w : Writer)
    (i : PropertyData) : ∃ ext, (writePropertyStep qt ids n w i).strings = w.strings ++ ext := by
  unfold writePropertyStep
  cases i.isValid
  · exact ⟨[], by simp [Writer.put]⟩
  · obtain ⟨e1, h1⟩ := (registerString_spec i.m_name w.strings).1
    obtain ⟨e2, h2⟩ := (registerString_spec i.type (registerString i.m_name w.strings).2).1
    exact ⟨e1 ++ e2, by
      simp only [↓reduceIte, Writer.put, Writer.putString]
      rw [h2, h1, List.append_assoc]⟩

theorem stageInfo_strings (o : DynamicQMetaObject) :
    ∃ ext, (stageInfo o).strings = (stageStart o).strings ++ ext := by
  unfold stageInfo
  split
  · obtain ⟨ext, h⟩ := foldl_strings writeInfoStep writeInfoStep_strings o.m_d.m_info
      (if (stageStart o).data.getD 3 0 = 0
        then { stageStart o with data := (stageStart o).data.set 3 (stageStart o).index }
        else stageStart o)
    refine ⟨ext, ?_⟩
    rw [h]
    split <;> rfl
  · exact ⟨[], by simp⟩

theorem stageProperties_strings (qt : QtMeta) (ids : MetaTypeIds) (o : DynamicQMetaObject) :
    ∃ ext, (stageProperties qt ids o).strings = (stageInfo o).strings ++ ext := by
  unfold stageProperties
  split
  · obtain ⟨e2, h2⟩ := foldl_strings writeNotifyStep
      (fun w _ => ⟨[], by simp [writeNotifyStep, Writer.put]⟩) o.m_d.m_properties
      (o.m_d.m_properties.foldl (writePropertyStep qt ids (stageNullIndex o))
        (if (stageInfo o).data.getD 7 0 = 0
          then { stageInfo o with data := (stageInfo o).data.set 7 (stageInfo o).index }
          else stageInfo o))
    obtain ⟨e1, h1⟩ := foldl_strings (writePropertyStep qt ids (stageNullIndex o))
      (writePropertyStep_strings qt ids (stageNullIndex o)) o.m_d.m_properties
      (if (stageInfo o).data.getD 7 0 = 0
        then { stageInfo o with data := (stageInfo o).data.set 7 (stageInfo o).index }
        else stageInfo o)
    refine ⟨e1 ++ e2, ?_⟩
    rw [h2, h1, List.append_assoc]
    split <;> rfl
  · exact ⟨[], by simp⟩

theorem stageMethods_strings (qt : QtMeta) (ids : MetaTypeIds) (o : DynamicQMetaObject) :
    ∃ ext, (stageMethods qt ids o).1.strings = (stageProperties qt ids o).strings ++ ext := by
  unfold stageMethods
  split
  · unfold writeMethodsData
    simp only
    obtain ⟨e0, h0⟩ := (registerString_spec EMPTY_META_METHOD
      (stageProperties qt ids o).strings).1
    obtain ⟨e1, h1⟩ := foldl_writeMethodStep_strings
      (if o.m_d.m_emptyMethod = -1
        then ((registerString EMPTY_META_METHOD
          (if (stageProperties qt ids o).data.getD 5 0 = 0
            then { stageProperties qt ids o with
              data := (stageProperties qt ids o).data.set 5 (stageProperties qt ids o).index }
            else stageProperties qt ids o).strings).1 : Int)
        else o.m_d.m_emptyMethod).toNat (stageNullIndex o) AccessPublic (stageSorted o)
      { w := if o.m_d.m_emptyMethod = -1
          then { (if (stageProperties qt ids o).data.getD 5 0 = 0
              then { stageProperties qt ids o with
                data := (stageProperties qt ids o).data.set 5
                  (stageProperties qt ids o).index }
              else stageProperties qt ids o) with
            strings := (registerString EMPTY_META_METHOD
              (if (stageProperties qt ids o).data.getD 5 0 = 0
                then { stageProperties qt ids o with
                  data := (stageProperties qt ids o).data.set 5
                    (stageProperties qt ids o).index }
                else stageProperties qt ids o).strings).2 }
          else (if (stageProperties qt ids o).data.getD 5 0 = 0
            then { stageProperties qt ids o with
              data := (stageProperties qt ids o).data.set 5 (stageProperties qt ids o).index }
            else stageProperties qt ids o)
        paramsIndex := (if (stageProperties qt ids o).data.getD 5 0 = 0
            then { stageProperties qt ids o with
              data := (stageProperties qt ids o).data.set 5 (stageProperties qt ids o).index }
            else stageProperties qt ids o).index + (stageSorted o).length * 5 }
    rw [h1]
    have hs : (if (stageProperties qt ids o).data.getD 5 0 = 0
        then { stageProperties qt ids o with
          data := (stageProperties qt ids o).data.set 5 (stageProperties qt ids o).index }
        else stageProperties qt ids o).strings = (stageProperties qt ids o).strings := by
      split <;> rfl
    by_cases hem : o.m_d.m_emptyMethod = -1
    · simp only [hem, ↓reduceIte]
      rw [hs, h0]
      exact ⟨e0 ++ e1, by rw [List.append_assoc]⟩
    · simp only [hem, ↓reduceIte]
      rw [hs]
      exact ⟨e1, rfl⟩
  · exact ⟨[], by simp⟩

/-- The null-string index of a rebuild holds, in the final pool, a string with
the empty C string. -/
theorem updateMetaObject_nullIndex (qt : QtMeta) (ids : MetaTypeIds) (o : DynamicQMetaObject) :
    (updateMetaObject qt ids o).object.m_d.m_nullIndex = stageNullIndex o
    ∧ ∃ e, (updateMetaObject qt ids o).object.d_strings[stageNullIndex o]? = some e
        ∧ cstr e = [] := by
  refine ⟨rfl, ?_⟩
  obtain ⟨_, e, he, hc⟩ := registerString_spec [] (registerString o.m_d.m_className []).2
  obtain ⟨x1, h1⟩ := stageInfo_strings o
  obtain ⟨x2, h2⟩ := stageProperties_strings qt ids o
  obtain ⟨x3, h3⟩ := stageMethods_strings qt ids o
  obtain ⟨x4, h4⟩ := stageParameters_strings qt ids o
  refine ⟨e, ?_, hc⟩
  rw [updateMetaObject_stages]
  show (stageParameters qt ids o).strings[stageNullIndex o]? = some e
  rw [h4, h3, h2, h1]
  exact getElem?_of_append _ _ _ _ (getElem?_of_append _ _ _ _
    (getElem?_of_append _ _ _ _ (getElem?_of_append _ _ _ _ he)))

theorem take_succ_of_getElem? {α : Type} (l : List α) (k : Nat) (x : α)
    (h : l[k]? = some x) : l.take (k + 1) = l.take k ++ [x] := by
  induction l generalizing k with
  | nil => simp at h
  | cons y ys ih =>
    cases k with
    | zero =>
      simp only [List.getElem?_cons_zero, Option.some.injEq] at h
      subst h
      simp
    | succ j =>
      simp only [List.getElem?_cons_succ] at h
      simp only [List.take_succ_cons, List.cons_append, List.cons.injEq, true_and]
      exact ih j h

theorem sum_take_le {α : Type} (f : α → Nat) (l : List α) (k : Nat) (x : α)
    (h : l[k]? = some x) :
    ((l.take k).map f).sum + f x ≤ (l.map f).sum
    ∧ (l.length = k + 1 → ((l.take k).map f).sum + f x = (l.map f).sum) := by
  induction l generalizing k with
  | nil => simp at h
  | cons y ys ih =>
    cases k with
    | zero =>
      simp only [List.getElem?_cons_zero, Option.some.injEq] at h
      subst h
      refine ⟨by simp, ?_⟩
      intro hl
      simp only [List.length_cons, Nat.zero_add, Nat.add_left_eq_self] at hl
      rw [List.length_eq_zero.mp hl]
      simp
    | succ j =>
      simp only [List.getElem?_cons_succ] at h
      obtain ⟨h1, h2⟩ := ih j h
      simp only [List.take_succ_cons, List.map_cons, List.sum_cons, List.length_cons]
      refine ⟨by omega, ?_⟩
      intro hl
      have := h2 (by omega)
      omega

/-- C20: in a rebuilt table, for the method at position `k` of the serialized
method section, the parameter-offset word of its record is the table index at
which its parameter block begins: the cursor after the method section plus the
sizes `2 * parameterCount + 1` of the blocks in front. From that index on stand
the `1 + parameterCount` type-info words, return type first, then
`parameterCount` words equal to the null-string index, whose pool string is
empty; the block of the next method begins right after, and after the last
block stands only the end word. -/
theorem C20_parameter_block (qt : QtMeta) (ids : MetaTypeIds) (o : DynamicQMetaObject)
    (k : Nat) (it : MethodData)
    (hk : (updateMetaObject qt ids o).object.m_d.m_methods[k]? = some it) :
    parameterOffsetWord (updateMetaObject qt ids o).object.d_data k
      = HEADER_LENGHT + 2 * o.m_d.m_info.length + 4 * o.m_d.m_properties.length
        + 5 * o.m_d.m_methods.length
        + (((updateMetaObject qt ids o).object.m_d.m_methods.take k).map
            (fun m => 2 * m.parameterCount + 1)).sum
    ∧ (∀ t name, (it.returnType :: it.parameterTypes)[t]? = some name →
        typeInfoMatches qt (updateMetaObject qt ids o).object.d_strings
          ((updateMetaObject qt ids o).object.d_data.getD
            (parameterOffsetWord (updateMetaObject qt ids o).object.d_data k + t) 0) name)
    ∧ (∀ t, t < it.parameterCount →
        (updateMetaObject qt ids o).object.d_data.getD
          (parameterOffsetWord (updateMetaObject qt ids o).object.d_data k
            + 1 + it.parameterCount + t) 0
          = (updateMetaObject qt ids o).object.m_d.m_nullIndex)
    ∧ (∃ e, (updateMetaObject qt ids o).object.d_strings[
          (updateMetaObject qt ids o).object.m_d.m_nullIndex]? = some e ∧ cstr e = [])
    ∧ (∀ it2, (updateMetaObject qt ids o).object.m_d.m_methods[k + 1]? = some it2 →
        parameterOffsetWord (updateMetaObject qt ids o).object.d_data (k + 1)
          = parameterOffsetWord (updateMetaObject qt ids o).object.d_data k
            + (2 * it.parameterCount + 1))
    ∧ ((updateMetaObject qt ids o).object.m_d.m_methods.length = k + 1 →
        parameterOffsetWord (updateMetaObject qt ids o).object.d_data k
            + (2 * it.parameterCount + 1) + 1
          = (updateMetaObject qt ids o).index) := by
  have hk2 : (stageSorted o)[k]? = some it := hk
  have hms : (updateMetaObject qt ids o).object.m_d.m_methods = stageSorted o := rfl
  have hpi := stageProperties_index qt ids o
  have hmi := stageMethods_index qt ids o
  have hsi := stageParameters_index qt ids o
  have hsl := stageSorted_length o
  have hroom := stageMethods_room qt ids o
  have hp : ((stageSorted o).map (fun m => 2 * m.parameterCount + 1)).sum
      = (o.m_d.m_methods.map (fun m => 2 * m.parameterCount + 1)).sum :=
    ((stageSorted_perm o).map _).sum_eq
  have h14 : HEADER_LENGHT = 14 := rfl
  have hklt : k < o.m_d.m_methods.length := by
    rw [← hsl]
    rcases Nat.lt_or_ge k (stageSorted o).length with h | h
    · exact h
    · rw [List.getElem?_eq_none h] at hk2
      cases hk2
  have keepM : ∀ j, j < (stageMethods qt ids o).1.index →
      (updateMetaObject qt ids o).object.d_data.getD j 0
        = (stageMethods qt ids o).1.data.getD j 0 := by
    intro j hj
    rw [updateMetaObject_stages]
    simp only
    rw [put_getD _ _ _ (by omega), stageParameters_getD_below qt ids o j hj]
  have keepP : ∀ j, j < (stageParameters qt ids o).index →
      (updateMetaObject qt ids o).object.d_data.getD j 0
        = (stageParameters qt ids o).data.getD j 0 := by
    intro j hj
    rw [updateMetaObject_stages]
    exact put_getD _ _ _ hj
  have h5 : (updateMetaObject qt ids o).object.d_data.getD 5 0
      = (stageProperties qt ids o).index := by
    rw [keepM 5 (by omega)]
    exact (stageMethods_record qt ids o k it hk2).1
  have hword : ∀ j x, (stageSorted o)[j]? = some x →
      parameterOffsetWord (updateMetaObject qt ids o).object.d_data j
        = (stageMethods qt ids o).1.index
          + (((stageSorted o).take j).map (fun m => 2 * m.parameterCount + 1)).sum := by
    intro j x hj
    have hjlt : j < o.m_d.m_methods.length := by
      rw [← hsl]
      rcases Nat.lt_or_ge j (stageSorted o).length with h | h
      · exact h
      · rw [List.getElem?_eq_none h] at hj
        cases hj
    unfold parameterOffsetWord
    rw [h5, keepM _ (by omega), stageMethods_params qt ids o j x hj]
    omega
  obtain ⟨s1, s2⟩ := sum_take_le (fun m : MethodData => 2 * m.parameterCount + 1)
    (stageSorted o) k it hk2
  obtain ⟨b1, b2⟩ := stageParameters_block qt ids o k it hk2
  have hB := hword k it hk2
  refine ⟨?_, ?_, ?_, ?_, ?_, ?_⟩
  · rw [hB, hms]
    omega
  · intro t name ht
    have htl : t < 1 + it.parameterCount := by
      rcases Nat.lt_or_ge t (it.returnType :: it.parameterTypes).length with h | h
      · simp only [List.length_cons] at h
        have hpc : it.parameterTypes.length = it.parameterCount := rfl
        omega
      · rw [List.getElem?_eq_none h] at ht
        cases ht
    rw [hB, keepP _ (by omega)]
    exact b1 t name ht
  · intro t ht
    rw [hB, keepP _ (by omega)]
    exact b2 t ht
  · exact (updateMetaObject_nullIndex qt ids o).2
  · intro it2 h2
    have h2s : (stageSorted o)[k + 1]? = some it2 := h2
    rw [hword (k + 1) it2 h2s, hB, take_succ_of_getElem? _ k it hk2]
    simp only [List.map_append, List.map_cons, List.map_nil, List.sum_append, List.sum_cons,
      List.sum_nil]
    omega
  · intro hl
    have hl2 : (stageSorted o).length = k + 1 := hl
    have := s2 hl2
    rw [hB, updateMetaObject_stages]
    simp only [put_index]
    omega

/-- C20, at an input: with the slots `foo(int,QString)` and `bar()`, the block
of `foo(int,QString)` has `2 * 2 + 1 = 5` words, the block of `bar()` begins
right after it and has `2 * 0 + 1 = 1` word, followed by the end word. -/
theorem C20_parameter_block_witness :
    parameterOffsetWord (updateMetaObject qtSample idsSample
        (run qtSample idsSample objSample
          [Op.addMethod MethodType.Slot "foo(int,QString)".toList "void".toList,
           Op.addMethod MethodType.Slot "bar()".toList []])).object.d_data (0 + 1)
      = parameterOffsetWord (updateMetaObject qtSample idsSample
        (run qtSample idsSample objSample
          [Op.addMethod MethodType.Slot "foo(int,QString)".toList "void".toList,
           Op.addMethod MethodType.Slot "bar()".toList []])).object.d_data 0
        + (2 * (MethodData.mk MethodType.Slot "foo(int,QString)".toList
            "void".toList).parameterCount + 1)
    ∧ (MethodData.mk MethodType.Slot "foo(int,QString)".toList "void".toList).parameterCount
        = 2
    ∧ parameterOffsetWord (updateMetaObject qtSample idsSample
        (run qtSample idsSample objSample
          [Op.addMethod MethodType.Slot "foo(int,QString)".toList "void".toList,
           Op.addMethod MethodType.Slot "bar()".toList []])).object.d_data 1
        + (2 * (MethodData.mk MethodType.Slot "bar()".toList []).parameterCount + 1) + 1
      = (updateMetaObject qtSample idsSample
        (run qtSample idsSample objSample
          [Op.addMethod MethodType.Slot "foo(int,QString)".toList "void".toList,
           Op.addMethod MethodType.Slot "bar()".toList []])).index
    ∧ (MethodData.mk MethodType.Slot "bar()".toList []).parameterCount = 0 :=
  ⟨(C20_parameter_block qtSample idsSample
      (run qtSample idsSample objSample
          [Op.addMethod MethodType.Slot "foo(int,QString)".toList "void".toList,
           Op.addMethod MethodType.Slot "bar()".toList []])
      0 (MethodData.mk MethodType.Slot "foo(int,QString)".toList "void".toList)
      (by decide)).2.2.2.2.1 (MethodData.mk MethodType.Slot "bar()".toList []) (by decide),
    by decide,
    (C20_parameter_block qtSample idsSample
      (run qtSample idsSample objSample
          [Op.addMethod MethodType.Slot "foo(int,QString)".toList "void".toList,
           Op.addMethod MethodType.Slot "bar()".toList []])
      1 (MethodData.mk MethodType.Slot "bar()".toList []) (by decide)).2.2.2.2.2 (by decide),
    by decide⟩

/-! ## Claims on the header offsets and on the string indices -/

/-- C22 (the code departs from the claim): after `addSlot` of `a()`, `update`,
the removal of `a()` and a second `update`, the pool of the second rebuild
holds the two strings `Foo` and the empty string, while the name word of the
blank method record is 2, the index that `0()` had in the pool of the first
rebuild: it is not smaller than the number of strings in the pool. -/
theorem C22_blank_method_name_index_stale :
    (run qtSample idsSample objSample
        [Op.addMethod MethodType.Slot "a()".toList [], Op.update]).d_strings
      = ["Foo".toList, [], "0()".toList, "a".toList]
    ∧ (run qtSample idsSample objSample
        [Op.addMethod MethodType.Slot "a()".toList [], Op.update]).m_d.m_emptyMethod = 2
    ∧ (run qtSample idsSample objSample
        [Op.addMethod MethodType.Slot "a()".toList [], Op.update,
         Op.removeMethod MethodType.Slot "a()".toList, Op.update]).m_d.m_methods
      = [⟨MethodType.Slot, EMPTY_META_METHOD, []⟩]
    ∧ (run qtSample idsSample objSample
        [Op.addMethod MethodType.Slot "a()".toList [], Op.update,
         Op.removeMethod MethodType.Slot "a()".toList, Op.update]).d_strings
      = ["Foo".toList, []]
    ∧ (run qtSample idsSample objSample
        [Op.addMethod MethodType.Slot "a()".toList [], Op.update,
         Op.removeMethod MethodType.Slot "a()".toList, Op.update]).d_data.getD
        ((run qtSample idsSample objSample
          [Op.addMethod MethodType.Slot "a()".toList [], Op.update,
           Op.removeMethod MethodType.Slot "a()".toList, Op.update]).d_data.getD 5 0) 0 = 2
    ∧ ¬ ((run qtSample idsSample objSample
        [Op.addMethod MethodType.Slot "a()".toList [], Op.update,
         Op.removeMethod MethodType.Slot "a()".toList, Op.update]).d_data.getD
        ((run qtSample idsSample objSample
          [Op.addMethod MethodType.Slot "a()".toList [], Op.update,
           Op.removeMethod MethodType.Slot "a()".toList, Op.update]).d_data.getD 5 0) 0
        < (run qtSample idsSample objSample
          [Op.addMethod MethodType.Slot "a()".toList [], Op.update,
           Op.removeMethod MethodType.Slot "a()".toList, Op.update]).d_strings.length) := by
  decide

theorem updateMetaObject_word_three (qt : QtMeta) (ids : MetaTypeIds)
    (o : DynamicQMetaObject) :
    (updateMetaObject qt ids o).object.d_data.getD 3 0
      = if o.m_d.m_info.length ≠ 0 then HEADER_LENGHT else 0 := by
  have h14 : HEADER_LENGHT = 14 := rfl
  have hpi := stageProperties_index qt ids o
  rw [updateMetaObject_getD_below qt ids o 3 (by omega) (by decide) (by decide),
    stageProperties_getD qt ids o 3 (by decide) (by decide)]
  have h0 : (stageStart o).data.getD 3 0 = 0 := by
    rw [stageStart_getD o 3 (by decide)]
    rfl
  have hl : 3 < (stageStart o).data.length := by
    rw [stageStart_length]
    have := dataSize_ge o.m_d
    omega
  unfold stageInfo
  split
  · rw [foldl_getD writeInfoStep 3 (fun w x => by rw [writeInfoStep_index]; omega)
      (fun w x hw => writeInfoStep_getD w x 3 hw) _ _ (by simp only [stageStart_index]; omega)]
    exact set_getD_self _ _ _ hl
  · exact h0

theorem updateMetaObject_word_seven (qt : QtMeta) (ids : MetaTypeIds)
    (o : DynamicQMetaObject) :
    (updateMetaObject qt ids o).object.d_data.getD 7 0
      = if o.m_d.m_properties.length ≠ 0 then HEADER_LENGHT + 2 * o.m_d.m_info.length
        else 0 := by
  have h14 : HEADER_LENGHT = 14 := rfl
  have hpi := stageProperties_index qt ids o
  rw [updateMetaObject_getD_below qt ids o 7 (by omega) (by decide) (by decide)]
  split
  · rename_i hne
    obtain ⟨pd, hpd⟩ : ∃ pd, o.m_d.m_properties[0]? = some pd :=
      ⟨o.m_d.m_properties[0], List.getElem?_eq_getElem (by omega)⟩
    rw [(stageProperties_record qt ids o 0 pd hpd).1, stageInfo_index]
  · rename_i hne
    unfold stageProperties
    rw [if_neg hne]
    exact stageInfo_getD_seven o

theorem updateMetaObject_word_five (qt : QtMeta) (ids : MetaTypeIds)
    (o : DynamicQMetaObject) :
    (updateMetaObject qt ids o).object.d_data.getD 5 0
      = if o.m_d.m_methods.length ≠ 0
        then HEADER_LENGHT + 2 * o.m_d.m_info.length + 4 * o.m_d.m_properties.length
        else 0 := by
  have h14 : HEADER_LENGHT = 14 := rfl
  have hmi := stageMethods_index qt ids o
  have hsi := stageParameters_index qt ids o
  have hkeep : (updateMetaObject qt ids o).object.d_data.getD 5 0
      = (stageMethods qt ids o).1.data.getD 5 0 := by
    rw [updateMetaObject_stages]
    simp only
    rw [put_getD _ _ _ (by omega), stageParameters_getD qt ids o 5 (by decide)]
  rw [hkeep]
  split
  · rename_i hne
    rw [← stageSorted_length] at hne
    obtain ⟨it, hit⟩ : ∃ it, (stageSorted o)[0]? = some it :=
      ⟨(stageSorted o)[0], List.getElem?_eq_getElem (by omega)⟩
    rw [(stageMethods_record qt ids o 0 it hit).1, stageProperties_index]
  · rename_i hne
    rw [← stageSorted_length] at hne
    unfold stageMethods
    rw [if_neg hne]
    exact stageProperties_getD_five qt ids o

/-- The table of a registry without class info, properties and methods is the
header with all counts and offsets zero, followed by the end word. -/
theorem updateMetaObject_empty (qt : QtMeta) (ids : MetaTypeIds) (o : DynamicQMetaObject)
    (hi : o.m_d.m_info = []) (hp : o.m_d.m_properties = []) (hm : o.m_d.m_methods = []) :
    (updateMetaObject qt ids o).object.d_data = header 0 0 0 ++ [0] := by
  have h14 : HEADER_LENGHT = 14 := rfl
  have hlen : (updateMetaObject qt ids o).object.d_data.length = 15 := by
    rw [updateMetaObject_stages]
    simp only [put_length, stageParameters_length]
    simp [dataSize, hi, hp, hm, h14, aggregateParameterCount]
  have hsi : (stageParameters qt ids o).index = 14 := by
    rw [stageParameters_index]
    simp [hi, hp, hm, h14]
  have hend : (updateMetaObject qt ids o).object.d_data.getD 14 0 = 0 := by
    rw [updateMetaObject_stages]
    simp only [Writer.put, hsi]
    exact set_getD_self _ _ _ (by rw [stageParameters_length, dataSize, h14]; omega)
  have h3 := updateMetaObject_word_three qt ids o
  have h5 := updateMetaObject_word_five qt ids o
  have h7 := updateMetaObject_word_seven qt ids o
  simp only [hi, hp, hm, List.length_nil, ne_eq, not_true_eq_false, ↓reduceIte] at h3 h5 h7
  have hw : ∀ j, j < 14 → j ≠ 3 → j ≠ 5 → j ≠ 7 →
      (updateMetaObject qt ids o).object.d_data.getD j 0 = (header 0 0 0).getD j 0 := by
    intro j hj j3 j5 j7
    rw [updateMetaObject_header_word qt ids o j (by omega) j3 j5 j7]
    simp [hi, hp, hm]
  apply List.ext_getElem
  · rw [hlen]
    rfl
  · intro i h1 h2
    have hg : (updateMetaObject qt ids o).object.d_data[i]
        = (updateMetaObject qt ids o).object.d_data.getD i 0 := by
      rw [List.getD_eq_getElem _ _ h1]
    rw [hg]
    have hi15 : i < 15 := by rw [hlen] at h1; exact h1
    interval_cases i
    · rw [hw 0 (by decide) (by decide) (by decide) (by decide)]; rfl
    · rw [hw 1 (by decide) (by decide) (by decide) (by decide)]; rfl
    · rw [hw 2 (by decide) (by decide) (by decide) (by decide)]; rfl
    · rw [h3]; rfl
    · rw [hw 4 (by decide) (by decide) (by decide) (by decide)]; rfl
    · rw [h5]; rfl
    · rw [hw 6 (by decide) (by decide) (by decide) (by decide)]; rfl
    · rw [h7]; rfl
    · rw [hw 8 (by decide) (by decide) (by decide) (by decide)]; rfl
    · rw [hw 9 (by decide) (by decide) (by decide) (by decide)]; rfl
    · rw [hw 10 (by decide) (by decide) (by decide) (by decide)]; rfl
    · rw [hw 11 (by decide) (by decide) (by decide) (by decide)]; rfl
    · rw [hw 12 (by decide) (by decide) (by decide) (by decide)]; rfl
    · rw [hw 13 (by decide) (by decide) (by decide) (by decide)]; rfl
    · rw [hend]; rfl

/-- C21: in a rebuilt table each section offset of the header is the write
cursor at the first word of the section, or 0 for an empty section: the
class-info offset (word 3) is the header length when there is a class-info
pair, the property offset (word 7) is the header length plus twice the
class-info count when there is a property, the method offset (word 5) is the
header length plus twice the class-info count plus four times the property
count when there is a method; for the registry without class info, properties
and methods the table is the header with all counts and offsets zero followed
by the end word 0. -/
theorem C21_section_offsets (qt : QtMeta) (ids : MetaTypeIds) (o : DynamicQMetaObject) :
    (updateMetaObject qt ids o).object.d_data.getD 3 0
      = (if o.m_d.m_info.length ≠ 0 then (stageStart o).index else 0)
    ∧ (stageStart o).index = HEADER_LENGHT
    ∧ (updateMetaObject qt ids o).object.d_data.getD 7 0
      = (if o.m_d.m_properties.length ≠ 0 then (stageInfo o).index else 0)
    ∧ (stageInfo o).index = HEADER_LENGHT + 2 * o.m_d.m_info.length
    ∧ (updateMetaObject qt ids o).object.d_data.getD 5 0
      = (if o.m_d.m_methods.length ≠ 0 then (stageProperties qt ids o).index else 0)
    ∧ (stageProperties qt ids o).index
      = HEADER_LENGHT + 2 * o.m_d.m_info.length + 4 * o.m_d.m_properties.length
    ∧ (o.m_d.m_info = [] → o.m_d.m_properties = [] → o.m_d.m_methods = [] →
        (updateMetaObject qt ids o).object.d_data
          = [7, 0, 0, 0, 0, 0, 0, 0, 0, 0, 0, 0, 0, 0, 0]) := by
  refine ⟨?_, rfl, ?_, stageInfo_index o, ?_, stageProperties_index qt ids o, ?_⟩
  · rw [updateMetaObject_word_three]
    rfl
  · rw [updateMetaObject_word_seven, stageInfo_index]
  · rw [updateMetaObject_word_five, stageProperties_index]
  · intro hi hp hm
    exact updateMetaObject_empty qt ids o hi hp hm

/-! ## `qStableSort` with `sortMethodSignalSlot` on Signal and Slot entries -/

section BinarySearch
variable {α : Type}

/-- The loop of `qLowerBound` on a range whose first `p` elements, and only
they, are less than the value, finds `p`. -/
theorem qLowerBoundLoop_partition (lessThan : α → α → Bool) (xs : List α) (value : α)
    (p : Nat) (h : ∀ i m, xs[i]? = some m → (lessThan m value = true ↔ i < p))
    (fuel start n : Nat) (h1 : start ≤ p) (h2 : p ≤ start + n) (h3 : start + n ≤ xs.length)
    (hf : n ≤ fuel) :
    qLowerBoundLoop lessThan xs value fuel start n = p := by
  induction fuel generalizing start n with
  | zero =>
    unfold qLowerBoundLoop
    omega
  | succ k ih =>
    unfold qLowerBoundLoop
    split
    · simp only
      have hm : start + n / 2 < xs.length := by omega
      rw [List.getElem?_eq_getElem hm]
      simp only
      have hiff := h (start + n / 2) _ (List.getElem?_eq_getElem hm)
      split
      · rename_i hlt
        exact ih _ _ (by have := hiff.mp hlt; omega) (by omega) (by omega) (by omega)
      · rename_i hlt
        have : ¬ (start + n / 2 < p) := fun hc => hlt (hiff.mpr hc)
        exact ih _ _ h1 (by omega) (by omega) (by omega)
    · omega

/-- The loop of `qUpperBound` on a range in which exactly the elements from
position `p` on are greater than the value finds `p`. -/
theorem qUpperBoundLoop_partition (lessThan : α → α → Bool) (xs : List α) (value : α)
    (p : Nat) (h : ∀ i m, xs[i]? = some m → (lessThan value m = true ↔ p ≤ i))
    (fuel start n : Nat) (h1 : start ≤ p) (h2 : p ≤ start + n) (h3 : start + n ≤ xs.length)
    (hf : n ≤ fuel) :
    qUpperBoundLoop lessThan xs value fuel start n = p := by
  induction fuel generalizing start n with
  | zero =>
    unfold qUpperBoundLoop
    omega
  | succ k ih =>
    unfold qUpperBoundLoop
    split
    · simp only
      have hm : start + n / 2 < xs.length := by omega
      rw [List.getElem?_eq_getElem hm]
      simp only
      have hiff := h (start + n / 2) _ (List.getElem?_eq_getElem hm)
      split
      · rename_i hlt
        exact ih _ _ h1 (by have := hiff.mp hlt; omega) (by omega) (by omega)
      · rename_i hlt
        have : ¬ (p ≤ start + n / 2) := fun hc => hlt (hiff.mpr hc)
        exact ih _ _ (by omega) (by omega) (by omega) (by omega)
    · omega

end BinarySearch

theorem sortMethodSignalSlot_eq_true (m1 m2 : MethodData) :
    sortMethodSignalSlot m1 m2 = true
      ↔ m1.methodType = MethodType.Signal ∧ m2.methodType = MethodType.Slot := by
  unfold sortMethodSignalSlot
  split
  · rename_i h
    simp [h]
  · rename_i h
    simp [h]

/-- In a list of Signal and Slot entries with no Slot in front of a Signal,
the Signal entries are exactly the first `countP` entries. -/
theorem signal_iff_lt_countP (l : List MethodData)
    (hK : ∀ m ∈ l, m.methodType = MethodType.Signal ∨ m.methodType = MethodType.Slot)
    (hS : l.Pairwise (fun x y => sortMethodSignalSlot y x = false)) :
    ∀ i m, l[i]? = some m →
      (m.methodType = MethodType.Signal
        ↔ i < l.countP (fun m => m.methodType = MethodType.Signal)) := by
  induction l with
  | nil => intro i m h; simp at h
  | cons x xs ih =>
    have hKx := hK x (List.mem_cons_self _ _)
    have hKxs : ∀ m ∈ xs, m.methodType = MethodType.Signal ∨ m.methodType = MethodType.Slot :=
      fun m hm => hK m (List.mem_cons_of_mem _ hm)
    rw [List.pairwise_cons] at hS
    have ih2 := ih hKxs hS.2
    by_cases hx : x.methodType = MethodType.Signal
    · intro i m hi
      rw [List.countP_cons_of_pos _ _ (by simpa using hx)]
      cases i with
      | zero =>
        simp only [List.getElem?_cons_zero, Option.some.injEq] at hi
        subst hi
        simp [hx]
      | succ j =>
        simp only [List.getElem?_cons_succ] at hi
        rw [ih2 j m hi]
        omega
    · have hxs : x.methodType = MethodType.Slot := by
        rcases hKx with h | h
        · exact absurd h hx
        · exact h
      have hnone : ∀ y ∈ xs, ¬ y.methodType = MethodType.Signal := by
        intro y hy hys
        have := hS.1 y hy
        rw [(sortMethodSignalSlot_eq_true y x).mpr ⟨hys, hxs⟩] at this
        cases this
      have hc0 : xs.countP (fun m => m.methodType = MethodType.Signal) = 0 := by
        rw [List.countP_eq_zero]
        intro y hy
        simpa using hnone y hy
      intro i m hi
      rw [List.countP_cons_of_neg _ _ (by simpa using hx), hc0]
      have hm : m ∈ x :: xs := List.getElem?_mem hi
      rcases List.mem_cons.mp hm with h | h
      · subst h
        simp [hx]
      · simp [hnone m h]

theorem filter_signal_of_all_signal (l : List MethodData)
    (h : ∀ m ∈ l, m.methodType = MethodType.Signal) :
    l.filter (fun m => m.methodType = MethodType.Signal) = l := by
  rw [List.filter_eq_self]
  intro m hm
  simpa using h m hm

theorem filter_slot_of_all_signal (l : List MethodData)
    (h : ∀ m ∈ l, m.methodType = MethodType.Signal) :
    l.filter (fun m => m.methodType = MethodType.Slot) = [] := by
  rw [List.filter_eq_nil_iff]
  intro m hm
  simp [h m hm]

theorem filter_slot_of_all_slot (l : List MethodData)
    (h : ∀ m ∈ l, m.methodType = MethodType.Slot) :
    l.filter (fun m => m.methodType = MethodType.Slot) = l := by
  rw [List.filter_eq_self]
  intro m hm
  simpa using h m hm

theorem filter_signal_of_all_slot (l : List MethodData)
    (h : ∀ m ∈ l, m.methodType = MethodType.Slot) :
    l.filter (fun m => m.methodType = MethodType.Signal) = [] := by
  rw [List.filter_eq_nil_iff]
  intro m hm
  simp [h m hm]

/-- In a list of Signal and Slot entries with no Slot in front of a Signal,
the entries before a Signal entry are Signal entries. -/
theorem signals_before_signal (l : List MethodData)
    (hK : ∀ m ∈ l, m.methodType = MethodType.Signal ∨ m.methodType = MethodType.Slot)
    (hS : l.Pairwise (fun x y => sortMethodSignalSlot y x = false))
    (h : Nat) (x : MethodData) (hx : l[h]? = some x)
    (hxs : x.methodType = MethodType.Signal) :
    ∀ m ∈ l.take h, m.methodType = MethodType.Signal := by
  intro m hm
  have hiff := signal_iff_lt_countP l hK hS
  have hlt := (hiff h x hx).mp hxs
  obtain ⟨i, hi⟩ := List.mem_iff_getElem?.mp hm
  rw [List.getElem?_take] at hi
  split at hi
  · rename_i hih
    exact (hiff i m hi).mpr (by omega)
  · cases hi

/-- In a list of Signal and Slot entries with no Slot in front of a Signal,
the entries from a Slot entry on are Slot entries. -/
theorem slots_after_slot (l : List MethodData)
    (hK : ∀ m ∈ l, m.methodType = MethodType.Signal ∨ m.methodType = MethodType.Slot)
    (hS : l.Pairwise (fun x y => sortMethodSignalSlot y x = false))
    (h : Nat) (x : MethodData) (hx : l[h]? = some x)
    (hxs : x.methodType = MethodType.Slot) :
    ∀ m ∈ l.drop h, m.methodType = MethodType.Slot := by
  intro m hm
  have hiff := signal_iff_lt_countP l hK hS
  have hnl : ¬ h < l.countP (fun m => m.methodType = MethodType.Signal) := by
    intro hc
    have := (hiff h x hx).mpr hc
    rw [hxs] at this
    cases this
  obtain ⟨i, hi⟩ := List.mem_iff_getElem?.mp hm
  rw [List.getElem?_drop] at hi
  have hns : ¬ m.methodType = MethodType.Signal := by
    intro hc
    have := (hiff (h + i) m hi).mp hc
    omega
  rcases hK m (List.mem_of_mem_drop hm) with h1 | h1
  · exact absurd h1 hns
  · exact h1

/-- In a list of Signal and Slot entries with no Slot in front of a Signal,
the first `countP` entries are the Signal entries and the rest are the Slot
entries. -/
theorem split_at_countP (l : List MethodData)
    (hK : ∀ m ∈ l, m.methodType = MethodType.Signal ∨ m.methodType = MethodType.Slot)
    (hS : l.Pairwise (fun x y => sortMethodSignalSlot y x = false)) :
    (∀ m ∈ l.take (l.countP (fun m => m.methodType = MethodType.Signal)),
        m.methodType = MethodType.Signal)
    ∧ (∀ m ∈ l.drop (l.countP (fun m => m.methodType = MethodType.Signal)),
        m.methodType = MethodType.Slot) := by
  have hiff := signal_iff_lt_countP l hK hS
  constructor
  · intro m hm
    obtain ⟨i, hi⟩ := List.mem_iff_getElem?.mp hm
    rw [List.getElem?_take] at hi
    split at hi
    · rename_i hih
      exact (hiff i m hi).mpr hih
    · cases hi
  · intro m hm
    obtain ⟨i, hi⟩ := List.mem_iff_getElem?.mp hm
    rw [List.getElem?_drop] at hi
    have hns : ¬ m.methodType = MethodType.Signal := by
      intro hc
      have := (hiff _ m hi).mp hc
      omega
    rcases hK m (List.mem_of_mem_drop hm) with h1 | h1
    · exact absurd h1 hns
    · exact h1

/-- A list of Signal and Slot entries with no Slot in front of a Signal is its
Signal entries followed by its Slot entries. -/
theorem in_order_eq_partition (l : List MethodData)
    (hK : ∀ m ∈ l, m.methodType = MethodType.Signal ∨ m.methodType = MethodType.Slot)
    (hS : l.Pairwise (fun x y => sortMethodSignalSlot y x = false)) :
    l = l.filter (fun m => m.methodType = MethodType.Signal)
          ++ l.filter (fun m => m.methodType = MethodType.Slot) := by
  obtain ⟨h1, h2⟩ := split_at_countP l hK hS
  conv_rhs =>
    rw [← List.take_append_drop (l.countP (fun m => m.methodType = MethodType.Signal)) l]
  rw [List.filter_append, List.filter_append, filter_signal_of_all_signal _ h1,
    filter_slot_of_all_signal _ h1, filter_signal_of_all_slot _ h2,
    filter_slot_of_all_slot _ h2, List.append_nil, List.nil_append, List.take_append_drop]

/-- Signal entries followed by Slot entries have no Slot in front of a
Signal. -/
theorem partition_in_order (u v : List MethodData)
    (hu : ∀ m ∈ u, m.methodType = MethodType.Signal)
    (hv : ∀ m ∈ v, m.methodType = MethodType.Slot) :
    (u ++ v).Pairwise (fun x y => sortMethodSignalSlot y x = false) := by
  induction u with
  | nil =>
    rw [List.nil_append]
    induction v with
    | nil => exact List.Pairwise.nil
    | cons y ys ih =>
      rw [List.pairwise_cons]
      refine ⟨?_, ih (fun m hm => hv m (List.mem_cons_of_mem _ hm))⟩
      intro z hz
      cases hzx : sortMethodSignalSlot z y with
      | false => rfl
      | true =>
        have h1 := ((sortMethodSignalSlot_eq_true z y).mp hzx).1
        rw [hv z (List.mem_cons_of_mem _ hz)] at h1
        cases h1
  | cons x xs ih =>
    rw [List.cons_append, List.pairwise_cons]
    refine ⟨?_, ih (fun m hm => hu m (List.mem_cons_of_mem _ hm))⟩
    intro z _
    cases hzx : sortMethodSignalSlot z x with
    | false => rfl
    | true =>
      have h1 := ((sortMethodSignalSlot_eq_true z x).mp hzx).2
      rw [hu x (List.mem_cons_self _ _)] at h1
      cases h1

/-- The merge of `qStableSort` on two ranges of Signal and Slot entries, each
with no Slot in front of a Signal, yields the Signal entries of both ranges in
their order, followed by the Slot entries of both ranges in their order. -/
theorem qMerge_signal_slot (fuel : Nat) (a b : List MethodData)
    (hKa : ∀ m ∈ a, m.methodType = MethodType.Signal ∨ m.methodType = MethodType.Slot)
    (hKb : ∀ m ∈ b, m.methodType = MethodType.Signal ∨ m.methodType = MethodType.Slot)
    (hSa : a.Pairwise (fun x y => sortMethodSignalSlot y x = false))
    (hSb : b.Pairwise (fun x y => sortMethodSignalSlot y x = false))
    (hf : a.length + b.length ≤ fuel) :
    qMerge sortMethodSignalSlot fuel a b
      = (a ++ b).filter (fun m => m.methodType = MethodType.Signal)
          ++ (a ++ b).filter (fun m => m.methodType = MethodType.Slot) := by
  induction fuel generalizing a b with
  | zero =>
    have ha : a = [] := List.length_eq_zero.mp (by omega)
    have hb : b = [] := List.length_eq_zero.mp (by omega)
    subst ha hb
    rfl
  | succ n ih =>
    have hKt : ∀ (l : List MethodData) (k : Nat),
        (∀ m ∈ l, m.methodType = MethodType.Signal ∨ m.methodType = MethodType.Slot) →
        ∀ m ∈ l.take k, m.methodType = MethodType.Signal ∨ m.methodType = MethodType.Slot :=
      fun l k h m hm => h m (List.mem_of_mem_take hm)
    have hKd : ∀ (l : List MethodData) (k : Nat),
        (∀ m ∈ l, m.methodType = MethodType.Signal ∨ m.methodType = MethodType.Slot) →
        ∀ m ∈ l.drop k, m.methodType = MethodType.Signal ∨ m.methodType = MethodType.Slot :=
      fun l k h m hm => h m (List.mem_of_mem_drop hm)
    have hSt : ∀ (l : List MethodData) (k : Nat),
        l.Pairwise (fun x y => sortMethodSignalSlot y x = false) →
        (l.take k).Pairwise (fun x y => sortMethodSignalSlot y x = false) :=
      fun l k h => h.sublist (List.take_sublist k l)
    have hSd : ∀ (l : List MethodData) (k : Nat),
        l.Pairwise (fun x y => sortMethodSignalSlot y x = false) →
        (l.drop k).Pairwise (fun x y => sortMethodSignalSlot y x = false) :=
      fun l k h => h.sublist (List.drop_sublist k l)
    unfold qMerge
    simp only
    split
    · rename_i h0
      rcases h0 with h0 | h0
      · have ha : a = [] := List.length_eq_zero.mp h0
        subst ha
        rw [List.nil_append]
        exact in_order_eq_partition b hKb hSb
      · have hb : b = [] := List.length_eq_zero.mp h0
        subst hb
        rw [List.append_nil]
        exact in_order_eq_partition a hKa hSa
    · rename_i h0
      split
      · rename_i h2
        split
        · rename_i _ _ x y
          have hx := hKa x (List.mem_singleton_self x)
          have hy := hKb y (List.mem_singleton_self y)
          rcases hx with hx | hx
          · rcases hy with hy | hy
            · simp [sortMethodSignalSlot, hx, hy]
            · simp [sortMethodSignalSlot, hx, hy]
          · rcases hy with hy | hy
            · simp [sortMethodSignalSlot, hx, hy]
            · simp [sortMethodSignalSlot, hx, hy]
        · rename_i hne
          exfalso
          obtain ⟨x, hx⟩ := List.length_eq_one.mp (show a.length = 1 by omega)
          obtain ⟨y, hy⟩ := List.length_eq_one.mp (show b.length = 1 by omega)
          exact hne x y hx hy
      · rename_i h2
        split
        · rename_i hgt
          split
          · rename_i firstCut hc
            have hK1 := hKa firstCut (List.getElem?_mem hc)
            rcases hK1 with hfs | hfs
            · have h0 : qLowerBound sortMethodSignalSlot b firstCut = 0 := by
                apply qLowerBoundLoop_partition sortMethodSignalSlot b firstCut 0
                · intro i m _
                  rw [sortMethodSignalSlot_eq_true]
                  constructor
                  · intro hh
                    rw [hfs] at hh
                    cases hh.2
                  · intro hh
                    omega
                · omega
                · omega
                · omega
                · omega
              have hall := signals_before_signal a hKa hSa _ firstCut hc hfs
              rw [h0, ih _ _ (hKt a _ hKa) (hKt b _ hKb) (hSt a _ hSa) (hSt b _ hSb)
                  (by simp only [List.length_take]; omega),
                ih _ _ (hKd a _ hKa) (hKd b _ hKb) (hSd a _ hSa) (hSd b _ hSb)
                  (by simp only [List.length_drop]; omega)]
              conv_rhs => rw [← List.take_append_drop (a.length / 2) a]
              simp only [List.take_zero, List.drop_zero, List.append_nil, List.filter_append,
                filter_signal_of_all_signal _ hall, filter_slot_of_all_signal _ hall,
                List.nil_append, List.append_assoc]
            · obtain ⟨hb1, hb2⟩ := split_at_countP b hKb hSb
              have h0 : qLowerBound sortMethodSignalSlot b firstCut
                  = b.countP (fun m => m.methodType = MethodType.Signal) := by
                apply qLowerBoundLoop_partition sortMethodSignalSlot b firstCut
                · intro i m hm
                  rw [sortMethodSignalSlot_eq_true, ← signal_iff_lt_countP b hKb hSb i m hm]
                  constructor
                  · intro hh
                    exact hh.1
                  · intro hh
                    exact ⟨hh, hfs⟩
                · omega
                · rw [Nat.zero_add]
                  exact List.countP_le_length _
                · omega
                · omega
              have hall := slots_after_slot a hKa hSa _ firstCut hc hfs
              rw [h0, ih _ _ (hKt a _ hKa) (hKt b _ hKb) (hSt a _ hSa) (hSt b _ hSb)
                  (by simp only [List.length_take]; omega),
                ih _ _ (hKd a _ hKa) (hKd b _ hKb) (hSd a _ hSa) (hSd b _ hSb)
                  (by simp only [List.length_drop]; omega)]
              conv_rhs =>
                rw [← List.take_append_drop (a.length / 2) a,
                  ← List.take_append_drop
                    (b.countP (fun m => m.methodType = MethodType.Signal)) b]
              simp only [List.filter_append,
                filter_signal_of_all_slot _ hall, filter_slot_of_all_slot _ hall,
                filter_signal_of_all_signal _ hb1, filter_slot_of_all_signal _ hb1,
                filter_signal_of_all_slot _ hb2, filter_slot_of_all_slot _ hb2,
                List.nil_append, List.append_nil, List.append_assoc]
          · rename_i hc
            exfalso
            rw [List.getElem?_eq_none_iff] at hc
            omega
        · rename_i hgt
          split
          · rename_i secondCut hc
            have hK1 := hKb secondCut (List.getElem?_mem hc)
            rcases hK1 with hfs | hfs
            · obtain ⟨ha1, ha2⟩ := split_at_countP a hKa hSa
              have h0 : qUpperBound sortMethodSignalSlot a secondCut
                  = a.countP (fun m => m.methodType = MethodType.Signal) := by
                apply qUpperBoundLoop_partition sortMethodSignalSlot a secondCut
                · intro i m hm
                  have hiff := signal_iff_lt_countP a hKa hSa i m hm
                  rw [sortMethodSignalSlot_eq_true]
                  constructor
                  · intro hh
                    by_contra hlt
                    have := hiff.mpr (by omega)
                    rw [hh.2] at this
                    cases this
                  · intro hh
                    refine ⟨hfs, ?_⟩
                    rcases hKa m (List.getElem?_mem hm) with h1 | h1
                    · have := hiff.mp h1
                      omega
                    · exact h1
                · omega
                · rw [Nat.zero_add]
                  exact List.countP_le_length _
                · omega
                · omega
              have hall := signals_before_signal b hKb hSb _ secondCut hc hfs
              rw [h0, ih _ _ (hKt a _ hKa) (hKt b _ hKb) (hSt a _ hSa) (hSt b _ hSb)
                  (by simp only [List.length_take]; omega),
                ih _ _ (hKd a _ hKa) (hKd b _ hKb) (hSd a _ hSa) (hSd b _ hSb)
                  (by simp only [List.length_drop]; omega)]
              conv_rhs =>
                rw [← List.take_append_drop (b.length / 2) b,
                  ← List.take_append_drop
                    (a.countP (fun m => m.methodType = MethodType.Signal)) a]
              simp only [List.filter_append,
                filter_signal_of_all_signal _ hall, filter_slot_of_all_signal _ hall,
                filter_signal_of_all_signal _ ha1, filter_slot_of_all_signal _ ha1,
                filter_signal_of_all_slot _ ha2, filter_slot_of_all_slot _ ha2,
                List.nil_append, List.append_nil, List.append_assoc]
            · have h0 : qUpperBound sortMethodSignalSlot a secondCut = a.length := by
                apply qUpperBoundLoop_partition sortMethodSignalSlot a secondCut
                · intro i m hm
                  rw [sortMethodSignalSlot_eq_true]
                  constructor
                  · intro hh
                    rw [hfs] at hh
                    cases hh.1
                  · intro hh
                    rw [List.getElem?_eq_none hh] at hm
                    cases hm
                · omega
                · omega
                · omega
                · omega
              have hall := slots_after_slot b hKb hSb _ secondCut hc hfs
              rw [h0, ih _ _ (hKt a _ hKa) (hKt b _ hKb) (hSt a _ hSa) (hSt b _ hSb)
                  (by simp only [List.length_take]; omega),
                ih _ _ (hKd a _ hKa) (hKd b _ hKb) (hSd a _ hSa) (hSd b _ hSb)
                  (by simp only [List.length_drop]; omega)]
              conv_rhs => rw [← List.take_append_drop (b.length / 2) b]
              simp only [List.take_length, List.drop_length, List.filter_append,
                filter_signal_of_all_slot _ hall, filter_slot_of_all_slot _ hall,
                List.filter_nil, List.nil_append, List.append_nil, List.append_assoc]
          · rename_i hc
            exfalso
            rw [List.getElem?_eq_none_iff] at hc
            omega

/-- The routine `qStableSortHelper` with `sortMethodSignalSlot` on a range of
Signal and Slot entries, with one level of recursion per element at hand,
yields the Signal entries in their order followed by the Slot entries in their
order. -/
theorem qStableSortHelper_signal_slot (fuel : Nat) (xs : List MethodData)
    (hK : ∀ m ∈ xs, m.methodType = MethodType.Signal ∨ m.methodType = MethodType.Slot)
    (hf : xs.length ≤ fuel) :
    qStableSortHelper sortMethodSignalSlot fuel xs
      = xs.filter (fun m => m.methodType = MethodType.Signal)
          ++ xs.filter (fun m => m.methodType = MethodType.Slot) := by
  induction fuel generalizing xs with
  | zero =>
    have hx : xs = [] := List.length_eq_zero.mp (by omega)
    subst hx
    rfl
  | succ n ih =>
    unfold qStableSortHelper
    simp only
    split
    · rename_i hlt
      apply in_order_eq_partition xs hK
      match xs, hlt with
      | [], _ => exact List.Pairwise.nil
      | [x], _ => exact List.pairwise_singleton _ x
      | _ :: _ :: _, h =>
        simp only [List.length_cons] at h
        omega
    · rename_i hge
      have hKt : ∀ m ∈ xs.take (xs.length / 2),
          m.methodType = MethodType.Signal ∨ m.methodType = MethodType.Slot :=
        fun m hm => hK m (List.mem_of_mem_take hm)
      have hKd : ∀ m ∈ xs.drop (xs.length / 2),
          m.methodType = MethodType.Signal ∨ m.methodType = MethodType.Slot :=
        fun m hm => hK m (List.mem_of_mem_drop hm)
      have hsig : ∀ l : List MethodData,
          ∀ m ∈ l.filter (fun m => m.methodType = MethodType.Signal),
            m.methodType = MethodType.Signal := by
        intro l m hm
        simpa using (List.mem_filter.mp hm).2
      have hslot : ∀ l : List MethodData,
          ∀ m ∈ l.filter (fun m => m.methodType = MethodType.Slot),
            m.methodType = MethodType.Slot := by
        intro l m hm
        simpa using (List.mem_filter.mp hm).2
      have hKp : ∀ l : List MethodData,
          ∀ m ∈ l.filter (fun m => m.methodType = MethodType.Signal)
              ++ l.filter (fun m => m.methodType = MethodType.Slot),
            m.methodType = MethodType.Signal ∨ m.methodType = MethodType.Slot := by
        intro l m hm
        rcases List.mem_append.mp hm with h | h
        · exact Or.inl (hsig l m h)
        · exact Or.inr (hslot l m h)
      rw [ih _ hKt (by simp only [List.length_take]; omega),
        ih _ hKd (by simp only [List.length_drop]; omega),
        qMerge_signal_slot _ _ _ (hKp _) (hKp _)
          (partition_in_order _ _ (hsig _) (hslot _))
          (partition_in_order _ _ (hsig _) (hslot _)) (Nat.le_refl _)]
      conv_rhs => rw [← List.take_append_drop (xs.length / 2) xs]
      simp only [List.filter_append,
        filter_signal_of_all_signal _ (hsig _), filter_slot_of_all_signal _ (hsig _),
        filter_signal_of_all_slot _ (hslot _), filter_slot_of_all_slot _ (hslot _),
        List.nil_append, List.append_nil, List.append_assoc]

/-- The sort of `updateMetaObject` on a method list of Signal and Slot
entries. -/
theorem stageSorted_signal_slot (o : DynamicQMetaObject)
    (hK : ∀ m ∈ o.m_d.m_methods,
      m.methodType = MethodType.Signal ∨ m.methodType = MethodType.Slot) :
    stageSorted o
      = o.m_d.m_methods.filter (fun m => m.methodType = MethodType.Signal)
          ++ o.m_d.m_methods.filter (fun m => m.methodType = MethodType.Slot) :=
  qStableSortHelper_signal_slot _ _ hK (Nat.le_refl _)

/-! ## Claim on the serialized method order -/

/-- C23: when every entry of the method list is of kind Signal or Slot, the
rebuild leaves the list as its Signal entries in their registry order followed
by its Slot entries in their registry order, and the record serialized at each
position of the method section describes the valid entry at that position of
this stable partition. -/
theorem C23_serialized_order_stable_partition (qt : QtMeta) (ids : MetaTypeIds)
    (o : DynamicQMetaObject)
    (hK : ∀ m ∈ o.m_d.m_methods,
      m.methodType = MethodType.Signal ∨ m.methodType = MethodType.Slot) :
    (updateMetaObject qt ids o).object.m_d.m_methods
      = o.m_d.m_methods.filter (fun m => m.methodType = MethodType.Signal)
          ++ o.m_d.m_methods.filter (fun m => m.methodType = MethodType.Slot)
    ∧ ∀ p it,
        (o.m_d.m_methods.filter (fun m => m.methodType = MethodType.Signal)
          ++ o.m_d.m_methods.filter (fun m => m.methodType = MethodType.Slot))[p]? = some it →
        it.isValid = true →
        methodRecordMatches (updateMetaObject qt ids o).object.d_data
          (updateMetaObject qt ids o).object.d_strings p it = true := by
  have hs := stageSorted_signal_slot o hK
  refine ⟨hs, ?_⟩
  intro p it hp hv
  rw [← hs] at hp
  exact updateMetaObject_method_record qt ids o p it hp hv

/-- C23 on a sample: the registrations `a()` (Slot), `b()` (Signal), `c()`
(Slot), `d()` (Signal), `e()` (Signal) are rebuilt in the order `b()`, `d()`,
`e()`, `a()`, `c()`. -/
theorem C23_serialized_order_stable_partition_witness :
    (∀ m ∈ (run qtSample idsSample objSample
          [Op.addMethod MethodType.Slot "a()".toList [],
           Op.addMethod MethodType.Signal "b()".toList [],
           Op.addMethod MethodType.Slot "c()".toList [],
           Op.addMethod MethodType.Signal "d()".toList [],
           Op.addMethod MethodType.Signal "e()".toList []]).m_d.m_methods,
        m.methodType = MethodType.Signal ∨ m.methodType = MethodType.Slot)
    ∧ (updateMetaObject qtSample idsSample
        (run qtSample idsSample objSample
          [Op.addMethod MethodType.Slot "a()".toList [],
           Op.addMethod MethodType.Signal "b()".toList [],
           Op.addMethod MethodType.Slot "c()".toList [],
           Op.addMethod MethodType.Signal "d()".toList [],
           Op.addMethod MethodType.Signal "e()".toList []])).object.m_d.m_methods
      = [⟨MethodType.Signal, "b()".toList, []⟩, ⟨MethodType.Signal, "d()".toList, []⟩,
         ⟨MethodType.Signal, "e()".toList, []⟩, ⟨MethodType.Slot, "a()".toList, []⟩,
         ⟨MethodType.Slot, "c()".toList, []⟩] :=
  ⟨by decide,
   ((C23_serialized_order_stable_partition qtSample idsSample _ (by decide)).1).trans
     (by decide)⟩

end PySide
